import Mathlib

/-! yolo_annotator: a shallow embedding of `src/main.cpp`

The class `YoloAnnotator` is embedded as a record with explicit state passing.
What the program reaches outside itself (the image decoder `cv::imread`, the label
files on disk) is carried in the same record, so that every member function is a
pure function on it.

* `int` values are `Int`; `size_t` values are `Nat`, reduced modulo `2 ^ 64`
  where the source can wrap.
* `float` is IEEE binary32 with round-to-nearest-even. Every finite binary32
  value is an integer multiple of `2 ^ (-149)`, so a finite value is stored as
  that integer (`F32.fin k` stands for `k * 2 ^ (-149)`). The sign of zero is
  not tracked: no integer this program computes depends on it.
* Text is `List Char`; a label file is the list of lines `std::getline` yields.
  Formatted output follows `operator<<` at the default precision of 6
  significant digits, formatted input follows `operator>>` of the GNU C++
  library (decimal digits, optional fraction and exponent).
* The entries `fs::directory_iterator` yields are a parameter of
  `loadImagesFromDirectory`; `path::extension()` follows `std::filesystem`, and
  `std::sort` is the sorted rearrangement of the paths.
* A session receives mouse events and keys (`Input`); `step` and `steps` run
  them through `onMouse` and `run`.
* Drawing (`updateDisplay`, `drawBox`) writes only to the display image and the
  window, which are not members of the record. What it reads is modelled apart:
  `YoloAnnotator.updateDisplay` gives the names `classNames[...]` it looks up,
  `none` when a lookup is out of bounds, where C++ leaves the behaviour
  undefined. The member functions give the members after a call whose lookups
  are in bounds.
-/

namespace Yolo

/-! ## Integer helpers -/

/-- Floor of the binary logarithm, by halving (`lgAux n n` is `⌊log₂ n⌋`). -/
def lgAux : Nat → Nat → Nat
  | 0, _ => 0
  | f + 1, n => if n < 2 then 0 else lgAux f (n / 2) + 1

/-- Floor of the binary logarithm of `n` (and `0` at `n = 0`). -/
def lg (n : Nat) : Nat := lgAux n n

/-- The integer nearest to `a / b`, ties going to the even one. -/
def rhe (a b : Nat) : Nat :=
  let q := a / b
  let r := a % b
  if 2 * r < b then q else if b < 2 * r then q + 1 else if q % 2 = 0 then q else q + 1

/-! ## IEEE binary32 -/

/-- A binary32 value: `fin k` is the finite value `k * 2 ^ (-149)`. -/
inductive F32 where
  | fin (k : Int)
  | inf (neg : Bool)
  | nan
deriving DecidableEq, Repr

namespace F32

/-- The number of units `2 ^ (-149)` in `1`. -/
def one : Nat := 2 ^ 149

/-- The largest finite binary32 value, `(2 ^ 24 - 1) * 2 ^ 104`, in units. -/
def maxK : Nat := (2 ^ 24 - 1) * 2 ^ 253

/-- The representable magnitude nearest to `a / b` units: 24 significant bits,
and never finer than one unit (the subnormal spacing). -/
def roundMag (a b : Nat) : Nat :=
  let s := lg (a / b) - 23
  rhe a (b * 2 ^ s) * 2 ^ s

/-- Rounds the exact value `n / d` units to binary32; overflow gives infinity. -/
def ofUnits (n : Int) (d : Nat) : F32 :=
  let m := roundMag n.natAbs d
  if maxK < m then inf (decide (n < 0)) else fin (if n < 0 then -(m : Int) else (m : Int))

/-- Rounds the rational `n / d` to binary32. -/
def ofFrac (n : Int) (d : Nat) : F32 := ofUnits (n * (one : Int)) d

/-- Conversion `static_cast<float>(int)`. -/
def ofInt (n : Int) : F32 := ofFrac n 1

/-- Unary minus. -/
def neg : F32 → F32
  | fin k => fin (-k)
  | inf s => inf (!s)
  | nan => nan

/-- Binary32 addition. -/
def add : F32 → F32 → F32
  | nan, _ => nan
  | _, nan => nan
  | inf s, inf t => if s = t then inf s else nan
  | inf s, fin _ => inf s
  | fin _, inf t => inf t
  | fin a, fin b => ofUnits (a + b) 1

/-- Binary32 subtraction. -/
def sub (x y : F32) : F32 := add x (neg y)

/-- Binary32 multiplication. -/
def mul : F32 → F32 → F32
  | nan, _ => nan
  | _, nan => nan
  | inf s, inf t => inf (s != t)
  | inf s, fin b => if b = 0 then nan else inf (s != decide (b < 0))
  | fin a, inf t => if a = 0 then nan else inf (decide (a < 0) != t)
  | fin a, fin b => ofUnits (a * b) one

/-- Binary32 division (a zero divisor counts as `+0`). -/
def div : F32 → F32 → F32
  | nan, _ => nan
  | _, nan => nan
  | inf _, inf _ => nan
  | inf s, fin b => inf (s != decide (b < 0))
  | fin _, inf _ => fin 0
  | fin a, fin b =>
    if b = 0 then (if a = 0 then nan else inf (decide (a < 0)))
    else ofUnits (a * (one : Int) * b.sign) b.natAbs

/-- Conversion `static_cast<int>(float)`: truncation toward zero. Outside the
range of `int` (and for infinities and NaN) C++ leaves the result undefined; the
value modelled is the one x86-64 produces, `INT_MIN`. -/
def toInt : F32 → Int
  | fin k =>
    let t := k.tdiv (one : Int)
    if -(2 ^ 31 : Int) ≤ t ∧ t < 2 ^ 31 then t else -(2 ^ 31)
  | _ => -(2 ^ 31)

end F32

/-- The rational number a binary32 value stands for (`0` for infinities and NaN). -/
def F32.val : F32 → ℚ
  | F32.fin k => (k : ℚ) / 2 ^ 149
  | _ => 0

/-! ## Formatted output and input -/

/-- The character of a decimal digit. -/
def digitChar (d : Nat) : Char :=
  match d with
  | 0 => '0' | 1 => '1' | 2 => '2' | 3 => '3' | 4 => '4'
  | 5 => '5' | 6 => '6' | 7 => '7' | 8 => '8' | _ => '9'

/-- Whether a character is a decimal digit. -/
def isDigit (c : Char) : Bool := decide (48 ≤ c.toNat ∧ c.toNat ≤ 57)

/-- The value of a decimal digit character. -/
def digitVal (c : Char) : Nat := c.toNat - 48

/-- The number written by a list of decimal digits. -/
def natOfDigits (ds : List Char) : Nat := ds.foldl (fun n c => 10 * n + digitVal c) 0

/-- Decimal digits of `n`, most significant first, in front of `acc`. -/
def showNatAux : Nat → Nat → List Char → List Char
  | 0, _, acc => acc
  | f + 1, n, acc =>
    if n < 10 then digitChar n :: acc else showNatAux f (n / 10) (digitChar (n % 10) :: acc)

/-- The decimal numeral of a natural number. -/
def showNat (n : Nat) : List Char := showNatAux (n + 1) n []

/-- Output of an `int` by `operator<<`. -/
def showInt (i : Int) : List Char :=
  if i < 0 then '-' :: showNat i.natAbs else showNat i.natAbs

/-- Exactly `w` decimal digits of `n`, most significant first. -/
def padDigits : Nat → Nat → List Char
  | 0, _ => []
  | w + 1, n => padDigits w (n / 10) ++ [digitChar (n % 10)]

/-- Removes the trailing zeros of a digit string. -/
def stripZeros (ds : List Char) : List Char := (ds.reverse.dropWhile (fun c => c == '0')).reverse

/-- One less than the number of decimal digits of `n` (`lg10Aux n n`). -/
def lg10Aux : Nat → Nat → Nat
  | 0, _ => 0
  | f + 1, n => if n < 10 then 0 else lg10Aux f (n / 10) + 1

/-- The least `j` with `b ≤ a * 10 ^ j` (`upAux b a b`, for `0 < a`). -/
def upAux : Nat → Nat → Nat → Nat
  | 0, _, _ => 0
  | f + 1, a, b => if b ≤ a then 0 else upAux f (a * 10) b + 1

/-- The decimal exponent `⌊log₁₀ (a / b)⌋` of a positive quotient. -/
def dexp (a b : Nat) : Int :=
  if b ≤ a then (lg10Aux (a / b) (a / b) : Int) else -(upAux b a b : Int)

/-- Rounds `a / b` to six significant decimal digits: the six-digit mantissa `d`
and the exponent `x` with `a / b ≈ d * 10 ^ (x - 5)`. -/
def decMant (a b : Nat) : Nat × Int :=
  let x := dexp a b
  let d := if x ≤ 5 then rhe (a * 10 ^ (5 - x).toNat) b else rhe a (b * 10 ^ (x - 5).toNat)
  if 10 ^ 6 ≤ d then (d / 10, x + 1) else (d, x)

/-- The `%e` style of `%g`: `d.ddddde±xx` without trailing zeros. -/
def showSci (d : Nat) (x : Int) : List Char :=
  let ds := padDigits 6 d
  let frac := stripZeros (ds.drop 1)
  ds.take 1 ++ (if frac = [] then [] else '.' :: frac) ++ ['e', if x < 0 then '-' else '+']
    ++ (if x.natAbs < 10 then '0' :: showNat x.natAbs else showNat x.natAbs)

/-- The `%f` style of `%g`: six significant digits without trailing zeros. -/
def showFix (d : Nat) (x : Int) : List Char :=
  let ds := padDigits 6 d
  if 0 ≤ x then
    let frac := stripZeros (ds.drop (x.toNat + 1))
    ds.take (x.toNat + 1) ++ (if frac = [] then [] else '.' :: frac)
  else '0' :: '.' :: (List.replicate (x.natAbs - 1) '0' ++ stripZeros ds)

/-- Output of a positive magnitude of `a` units in the style `%g`, precision 6. -/
def showMag (a : Nat) : List Char :=
  let dx := decMant a F32.one
  if dx.2 < -4 ∨ 6 ≤ dx.2 then showSci dx.1 dx.2 else showFix dx.1 dx.2

/-- Output of a `float` by `operator<<` at the default precision. The NaN that
division `0 / 0` produces on x86-64 has its sign bit set. -/
def showFloat : F32 → List Char
  | F32.nan => ['-', 'n', 'a', 'n']
  | F32.inf true => ['-', 'i', 'n', 'f']
  | F32.inf false => ['i', 'n', 'f']
  | F32.fin k =>
    if k = 0 then ['0'] else if k < 0 then '-' :: showMag k.natAbs else showMag k.natAbs

/-- The whitespace `operator>>` skips: `std::isspace` in the classic locale. -/
def isSpace (c : Char) : Bool :=
  c == ' ' || c == '\t' || c == '\n' || c == '\x0b' || c == '\x0c' || c == '\r'

/-- Skips leading whitespace. -/
def skipWs (cs : List Char) : List Char := cs.dropWhile isSpace

/-- An optional sign; `true` for `-`. -/
def scanSign : List Char → Bool × List Char
  | '-' :: cs => (true, cs)
  | '+' :: cs => (false, cs)
  | cs => (false, cs)

/-- Extraction `>> int`: whitespace, sign, decimal digits. Fails without a digit
and when the value does not fit an `int`. Gives the value and the rest. -/
def scanInt (cs : List Char) : Option (Int × List Char) :=
  let s := scanSign (skipWs cs)
  let ds := s.2.takeWhile isDigit
  if ds = [] then none
  else
    let v : Int := if s.1 then -(natOfDigits ds : Int) else (natOfDigits ds : Int)
    if -(2 ^ 31 : Int) ≤ v ∧ v < 2 ^ 31 then some (v, s.2.dropWhile isDigit) else none

/-- The exponent part of a floating literal: absent (exponent `0`), or `e`/`E`
with an optional sign and at least one digit; `none` when the digits are missing. -/
def scanExp : List Char → Option (Int × List Char)
  | [] => some (0, [])
  | c :: r =>
    if c = 'e' ∨ c = 'E' then
      let s := scanSign r
      let ds := s.2.takeWhile isDigit
      if ds = [] then none
      else some (if s.1 then -(natOfDigits ds : Int) else (natOfDigits ds : Int),
                 s.2.dropWhile isDigit)
    else some (0, c :: r)

/-- The fraction part of a floating literal: absent, or `.` and its digits. Gives
the digits and the rest. -/
def scanFrac : List Char → List Char × List Char
  | '.' :: r => (r.takeWhile isDigit, r.dropWhile isDigit)
  | cs => ([], cs)

/-- The binary32 nearest to the decimal `m * 10 ^ p`, as `strtof` converts it. -/
def decValue (m p : Int) : F32 :=
  if 0 ≤ p then F32.ofFrac (m * 10 ^ p.toNat) 1 else F32.ofFrac m (10 ^ (-p).toNat)

/-- Extraction `>> float`: whitespace, sign, digits, optional fraction, optional
exponent; the decimal value is rounded to the nearest binary32. Fails without a
mantissa digit, on an exponent without digits, and on overflow. -/
def scanFloat (cs : List Char) : Option (F32 × List Char) :=
  let s := scanSign (skipWs cs)
  let ip := s.2.takeWhile isDigit
  let fr := scanFrac (s.2.dropWhile isDigit)
  if ip = [] ∧ fr.1 = [] then none
  else
    match scanExp fr.2 with
    | none => none
    | some (e, rest) =>
      let m : Int := if s.1 then -(natOfDigits (ip ++ fr.1) : Int) else (natOfDigits (ip ++ fr.1) : Int)
      match decValue m (e - (fr.1.length : Int)) with
      | F32.fin k => some (F32.fin k, rest)
      | _ => none

/-! ## Data model -/

/-- The type `cv::Point`. -/
structure Point where
  x : Int
  y : Int
deriving DecidableEq, Repr

/-- The type `cv::Rect`. -/
structure Rect where
  x : Int
  y : Int
  width : Int
  height : Int
deriving DecidableEq, Repr

/-- The value an `int` holds when the result `n` of an `int` operation does not
fit: it wraps, as two's complement arithmetic does. -/
def wrapInt (n : Int) : Int := (n + 2 ^ 31) % 2 ^ 32 - 2 ^ 31

/-- The constructor `cv::Rect(pt1, pt2)` of OpenCV: the rectangle spanned by two
corners, `width = max(pt1.x, pt2.x) - x` and `height = max(pt1.y, pt2.y) - y`
computed in `int`. -/
def Rect.ofPoints (pt1 pt2 : Point) : Rect :=
  { x := min pt1.x pt2.x
    y := min pt1.y pt2.y
    width := wrapInt (max pt1.x pt2.x - min pt1.x pt2.x)
    height := wrapInt (max pt1.y pt2.y - min pt1.y pt2.y) }

/-- The struct `BoundingBox`. -/
structure BoundingBox where
  rect : Rect
  classId : Int
deriving DecidableEq, Repr

/-- An image `cv::Mat`, reduced to its dimensions: the only part of an image the
program reads, apart from showing it. -/
structure Mat where
  cols : Int
  rows : Int
deriving DecidableEq, Repr

/-- The test `cv::Mat::empty()`; `cv::imread` returns an empty image when the
file cannot be decoded. -/
def Mat.empty (m : Mat) : Bool := m.cols == 0 || m.rows == 0

/-- The mouse event codes of OpenCV. -/
def EVENT_MOUSEMOVE : Int := 0

/-- The code of a left button press. -/
def EVENT_LBUTTONDOWN : Int := 1

/-- The code of a left button release. -/
def EVENT_LBUTTONUP : Int := 4

/-- The class `YoloAnnotator`: its data members (the window is left out),
followed by the outside world it reads and writes. -/
structure YoloAnnotator where
  imageFiles : List String
  classNames : List String
  currentImageIndex : Nat
  currentImage : Mat
  currentBoxes : List BoundingBox
  isDrawing : Bool
  startPoint : Point
  endPoint : Point
  currentClass : Int
  processedCount : Nat
  /-- The decoder `cv::imread`: the image stored at a path (empty if none decodes). -/
  imread : String → Mat
  /-- Whether `std::ofstream` can open the path for writing. -/
  canCreate : String → Bool
  /-- The text files on disk, as lists of lines; `none` when the file is absent. -/
  files : String → Option (List (List Char))

/-- Result of `s.find_last_of(c)`: the index of the last `c`, `none` for `npos`. -/
def findLastOf : List Char → Char → Option Nat
  | [], _ => none
  | x :: xs, c =>
    match findLastOf xs c with
    | some i => some (i + 1)
    | none => if x = c then some 0 else none

/-- The label path `imagePath.substr(0, imagePath.find_last_of('.')) + ".txt"`. -/
def annotationPath (imagePath : String) : String :=
  match findLastOf imagePath.toList '.' with
  | some i => String.mk (imagePath.toList.take i ++ ['.', 't', 'x', 't'])
  | none => String.mk (imagePath.toList ++ ['.', 't', 'x', 't'])

/-- The path `imageFiles[currentImageIndex]`. An index past the end is undefined
in C++; the empty path stands for it. -/
def YoloAnnotator.imagePath (a : YoloAnnotator) : String :=
  a.imageFiles.getD a.currentImageIndex ""

/-- The conversion of `saveAnnotations` to normalized coordinates (lines
191-194): the values `x`, `y`, `w`, `h` it writes for a rectangle. -/
def toNormalized (rect : Rect) (imageWidth imageHeight : F32) : F32 × F32 × F32 × F32 :=
  let half (n : Int) : F32 := F32.div (F32.ofInt n) (F32.ofInt 2)
  (F32.div (F32.add (F32.ofInt rect.x) (half rect.width)) imageWidth,
   F32.div (F32.add (F32.ofInt rect.y) (half rect.height)) imageHeight,
   F32.div (F32.ofInt rect.width) imageWidth,
   F32.div (F32.ofInt rect.height) imageHeight)

/-- The conversion of `loadAnnotations` back to pixels (lines 227-230). -/
def toPixel (x y w h : F32) (imageWidth imageHeight : F32) : Rect :=
  { x := F32.toInt (F32.mul (F32.sub x (F32.div w (F32.ofInt 2))) imageWidth)
    y := F32.toInt (F32.mul (F32.sub y (F32.div h (F32.ofInt 2))) imageHeight)
    width := F32.toInt (F32.mul w imageWidth)
    height := F32.toInt (F32.mul h imageHeight) }

/-- The line `saveAnnotations` writes for one box (line 196). -/
def formatBox (box : BoundingBox) (imageWidth imageHeight : F32) : List Char :=
  let n := toNormalized box.rect imageWidth imageHeight
  showInt box.classId ++ ' ' :: showFloat n.1 ++ ' ' :: showFloat n.2.1 ++ ' ' :: showFloat n.2.2.1
    ++ ' ' :: showFloat n.2.2.2

/-- The member function `saveAnnotations`. -/
def YoloAnnotator.saveAnnotations (a : YoloAnnotator) : YoloAnnotator :=
  let annotationPath := annotationPath a.imagePath
  if a.canCreate annotationPath then
    let imageWidth := F32.ofInt a.currentImage.cols
    let imageHeight := F32.ofInt a.currentImage.rows
    let text := a.currentBoxes.map (fun box => formatBox box imageWidth imageHeight)
    { a with
      files := fun p => if p = annotationPath then some text else a.files p
      processedCount := (a.processedCount + 1) % 2 ^ 64 }
  else a

/-- One line of a label file (lines 221-232): the box it holds, `none` when the
extraction `iss >> classId >> x >> y >> w >> h` fails. -/
def parseLine (line : List Char) (imageWidth imageHeight : F32) : Option BoundingBox :=
  match scanInt line with
  | none => none
  | some (classId, r1) =>
  match scanFloat r1 with
  | none => none
  | some (x, r2) =>
  match scanFloat r2 with
  | none => none
  | some (y, r3) =>
  match scanFloat r3 with
  | none => none
  | some (w, r4) =>
  match scanFloat r4 with
  | none => none
  | some (h, _) => some { rect := toPixel x y w h imageWidth imageHeight, classId := classId }

/-- The loop `while (std::getline(file, line))` of `loadAnnotations`: every line
that parses appends its box. -/
def readLines (imageWidth imageHeight : F32) : List (List Char) → List BoundingBox → List BoundingBox
  | [], boxes => boxes
  | line :: rest, boxes =>
    match parseLine line imageWidth imageHeight with
    | some box => readLines imageWidth imageHeight rest (boxes ++ [box])
    | none => readLines imageWidth imageHeight rest boxes

/-- The member function `loadAnnotations`. -/
def YoloAnnotator.loadAnnotations (a : YoloAnnotator) : YoloAnnotator :=
  match a.files (annotationPath a.imagePath) with
  | none => { a with currentBoxes := [] }
  | some text =>
    { a with
      currentBoxes :=
        readLines (F32.ofInt a.currentImage.cols) (F32.ofInt a.currentImage.rows) text [] }

/-- The member function `loadCurrentImage`. The call `updateDisplay()` that ends it
(line 99) assigns no member of the record; its lookups in `classNames` are those
of `YoloAnnotator.updateDisplay` on the result. -/
def YoloAnnotator.loadCurrentImage (a : YoloAnnotator) : YoloAnnotator :=
  if a.currentImageIndex < a.imageFiles.length then
    let a1 := { a with currentImage := a.imread a.imagePath }
    if a1.currentImage.empty then a1 else a1.loadAnnotations
  else a

/-- The member function `onMouse`. -/
def YoloAnnotator.onMouse (a : YoloAnnotator) (event x y : Int) : YoloAnnotator :=
  if event = EVENT_LBUTTONDOWN then
    { a with startPoint := ⟨x, y⟩, endPoint := ⟨x, y⟩, isDrawing := true }
  else if event = EVENT_MOUSEMOVE then
    if a.isDrawing then { a with endPoint := ⟨x, y⟩ } else a
  else if event = EVENT_LBUTTONUP then
    if a.isDrawing then
      let a1 := { a with endPoint := ⟨x, y⟩, isDrawing := false }
      let rect := Rect.ofPoints
        ⟨min a1.startPoint.x a1.endPoint.x, min a1.startPoint.y a1.endPoint.y⟩
        ⟨max a1.startPoint.x a1.endPoint.x, max a1.startPoint.y a1.endPoint.y⟩
      if rect.width > 5 ∧ rect.height > 5 then
        { a1 with
          currentBoxes := a1.currentBoxes ++ [BoundingBox.mk rect a1.currentClass] }.saveAnnotations
      else a1
    else a
  else a

/-- What `jumpToImage` reports on `std::cerr` when it rejects an index. -/
inductive JumpError where
  | invalidIndex (catalogSize : Nat)
deriving DecidableEq, Repr

/-- The member function `jumpToImage`: an error when the index is rejected (the
object is then left as it was), the new state otherwise. -/
def YoloAnnotator.jumpToImage (a : YoloAnnotator) (index : Int) : Except JumpError YoloAnnotator :=
  if 0 ≤ index ∧ index < (a.imageFiles.length : Int) then
    Except.ok { a.saveAnnotations with currentImageIndex := index.toNat }.loadCurrentImage
  else Except.error (JumpError.invalidIndex a.imageFiles.length)

/-- Conversion of a `size_t` to `int`. -/
def toInt32 (n : Nat) : Int := ((n + 2 ^ 31) % 2 ^ 32 : Nat) - 2 ^ 31

/-- One turn of the loop of `run` on the key `key = cv::waitKey(1) & 0xFF`, where
`typed` is the number `std::cin >> index` reads when the key is `j`; `none` when
the loop returns (ESC). The subtraction `index - 1` is taken in the integers. -/
def YoloAnnotator.run (a : YoloAnnotator) (key : Nat) (typed : Int) : Option YoloAnnotator :=
  if key = 27 then none
  else if key = 110 ∨ key = 78 then
    if a.currentImageIndex < (a.imageFiles.length + 2 ^ 64 - 1) % 2 ^ 64 then
      some { a with currentImageIndex := a.currentImageIndex + 1 }.loadCurrentImage
    else some a
  else if key = 112 ∨ key = 80 then
    if a.currentImageIndex > 0 then
      some { a with currentImageIndex := a.currentImageIndex - 1 }.loadCurrentImage
    else some a
  else if key = 99 ∨ key = 67 then
    some { a with
      currentClass :=
        toInt32 (((a.currentClass + 1) % 2 ^ 64).toNat % a.classNames.length) }
  else if key = 100 ∨ key = 68 then
    if a.currentBoxes ≠ [] then
      some { a with currentBoxes := a.currentBoxes.dropLast }.saveAnnotations
    else some a
  else if key = 106 ∨ key = 74 then
    match a.jumpToImage (typed - 1) with
    | Except.ok a1 => some a1
    | Except.error _ => some a
  else some a

/-! ## Sample sessions -/

/-- A session on three 640x480 images, the first one loaded, nothing on disk. -/
def sample : YoloAnnotator :=
  { imageFiles := ["a.jpg", "b.jpg", "c.jpg"]
    classNames := ["cat", "dog", "bird"]
    currentImageIndex := 0
    currentImage := ⟨640, 480⟩
    currentBoxes := []
    isDrawing := false
    startPoint := ⟨0, 0⟩
    endPoint := ⟨0, 0⟩
    currentClass := 0
    processedCount := 0
    imread := fun _ => ⟨640, 480⟩
    canCreate := fun _ => true
    files := fun _ => none }

/-- The session `sample` holding one box, where the second image cannot be decoded. -/
def sampleBroken : YoloAnnotator :=
  { sample with
    currentBoxes := [BoundingBox.mk ⟨10, 10, 10, 10⟩ 0]
    imread := fun p => if p = "b.jpg" then ⟨0, 0⟩ else ⟨640, 480⟩ }

/-- The session `sample` holding two boxes, in a directory that cannot be written. -/
def sampleReadOnly : YoloAnnotator :=
  { sample with
    currentBoxes := [BoundingBox.mk ⟨10, 10, 10, 10⟩ 0, BoundingBox.mk ⟨30, 30, 20, 20⟩ 1]
    canCreate := fun _ => false }

/-- The session `sample` moved to the second image. -/
def sampleSecond : YoloAnnotator := { sample with currentImageIndex := 1 }

/-- The session `sampleBroken` on the third image. -/
def sampleBrokenThird : YoloAnnotator := { sampleBroken with currentImageIndex := 2 }

/-- The session `sample` with the given text in the label file of its first image. -/
def sampleLabelled (text : List (List Char)) : YoloAnnotator :=
  { sample with files := fun p => if p = "a.txt" then some text else none }

/-- A label text of one well-formed line and one line of three fields. -/
def twoLineText : List (List Char) := ["0 0.5 0.5 0.1 0.1".toList, "0 0.5 0.5".toList]

/-- The fresh session `sample` in a directory that cannot be written. -/
def sampleNoWrite : YoloAnnotator := { sample with canCreate := fun _ => false }

/-- A box far to the right of the 640x480 image. -/
def farBox : BoundingBox := BoundingBox.mk ⟨123456789, 10, 100, 100⟩ 0

/-- The session `sample` holding the box `farBox`. -/
def sampleFar : YoloAnnotator := { sample with currentBoxes := [farBox] }

/-- Two rectangles agree within one pixel in each of `x`, `y`, `width`, `height`. -/
def Rect.within1 (r s : Rect) : Prop :=
  |r.x - s.x| ≤ 1 ∧ |r.y - s.y| ≤ 1 ∧ |r.width - s.width| ≤ 1 ∧ |r.height - s.height| ≤ 1

instance (r s : Rect) : Decidable (Rect.within1 r s) := by
  unfold Rect.within1
  infer_instance

/-- Two boxes have the same class and agree within one pixel. -/
def BoundingBox.within1 (b c : BoundingBox) : Prop :=
  b.classId = c.classId ∧ Rect.within1 b.rect c.rect

instance (b c : BoundingBox) : Decidable (BoundingBox.within1 b c) := by
  unfold BoundingBox.within1
  infer_instance

/-- The codec round trip on the `float` values: `toNormalized`, then `toPixel`. -/
def codecRoundTrip (rect : Rect) (cols rows : Int) : Rect :=
  let n := toNormalized rect (F32.ofInt cols) (F32.ofInt rows)
  toPixel n.1 n.2.1 n.2.2.1 n.2.2.2 (F32.ofInt cols) (F32.ofInt rows)

/-- The codec round trip through the label file: the line `saveAnnotations` writes
for a box, read back by `loadAnnotations`, for an image of `cols` x `rows`. -/
def textRoundTrip (box : BoundingBox) (cols rows : Int) : Option BoundingBox :=
  parseLine (formatBox box (F32.ofInt cols) (F32.ofInt rows)) (F32.ofInt cols) (F32.ofInt rows)

/-- What follows a number in a written line: the end of the line, or a space. -/
def EndsField (rest : List Char) : Prop := rest = [] ∨ ∃ e, rest = ' ' :: e

/-- The round trip through the label file succeeds and gives a box of the same
class within one pixel of the original. -/
def textRoundTripOk (box : BoundingBox) (cols rows : Int) : Prop :=
  match textRoundTrip box cols rows with
  | some b => BoundingBox.within1 b box
  | none => False

instance (box : BoundingBox) (cols rows : Int) : Decidable (textRoundTripOk box cols rows) := by
  unfold textRoundTripOk
  cases textRoundTrip box cols rows <;> infer_instance

/-- The body of `case 'c': case 'C'` of `run` (line 272): the class cursor moves to
`(currentClass + 1) % classNames.size()`, computed in `size_t` and stored in an
`int`. -/
def YoloAnnotator.changeClass (a : YoloAnnotator) : YoloAnnotator :=
  { a with
    currentClass :=
      toInt32 (((a.currentClass + 1) % 2 ^ 64).toNat % a.classNames.length) }

/-- What the session receives: a mouse event delivered to `mouseCallback`, or a key
returned by `cv::waitKey` in `run`, with the number read from `std::cin` (used only
after `j`). -/
inductive Input where
  | mouse (event x y : Int)
  | key (key : Nat) (typed : Int)
deriving DecidableEq, Repr

/-- The session after one input; `none` when `run` returns. -/
def YoloAnnotator.step (a : YoloAnnotator) : Input → Option YoloAnnotator
  | Input.mouse event x y => some (a.onMouse event x y)
  | Input.key key typed => a.run key typed

/-- The session after a sequence of inputs; `none` when `run` returns before the
sequence ends. -/
def YoloAnnotator.steps : List Input → YoloAnnotator → Option YoloAnnotator
  | [], a => some a
  | i :: rest, a =>
    match a.step i with
    | none => none
    | some a1 => YoloAnnotator.steps rest a1

/-- The inputs on which the session calls `saveAnnotations`: a release that commits
a box (line 165), a deletion on a non-empty BoxSet (line 279), and a jump to a
valid index (line 239). -/
def YoloAnnotator.savesOn (a : YoloAnnotator) : Input → Bool
  | Input.mouse event x y =>
    decide (event = EVENT_LBUTTONUP) && a.isDrawing
      && decide (5 < wrapInt |x - a.startPoint.x| ∧ 5 < wrapInt |y - a.startPoint.y|)
  | Input.key key typed =>
    (decide (key = 100 ∨ key = 68) && decide (a.currentBoxes ≠ []))
      || (decide (key = 106 ∨ key = 74)
          && decide (1 ≤ typed ∧ typed ≤ (a.imageFiles.length : Int)))

/-- Whether an input makes the session write a label file: it calls
`saveAnnotations` and the label file of the current image can be opened. -/
def YoloAnnotator.writesOn (a : YoloAnnotator) (i : Input) : Bool :=
  a.savesOn i && a.canCreate (annotationPath a.imagePath)

/-- The number of label-file writes along a sequence of inputs. -/
def YoloAnnotator.writeCount : List Input → YoloAnnotator → Nat
  | [], _ => 0
  | i :: rest, a =>
    match a.step i with
    | none => 0
    | some a1 => (if a.writesOn i then 1 else 0) + YoloAnnotator.writeCount rest a1

/-- The class cursor indexes `classNames` (read by `updateDisplay`, line 118). -/
def YoloAnnotator.cursorInRange (a : YoloAnnotator) : Prop :=
  0 ≤ a.currentClass ∧ a.currentClass < a.classNames.length

instance (a : YoloAnnotator) : Decidable a.cursorInRange := by
  unfold YoloAnnotator.cursorInRange
  infer_instance

/-- Every box of the BoxSet has a class id that indexes `classNames` (read by
`drawBox`, line 127). -/
def YoloAnnotator.classIdsInRange (a : YoloAnnotator) : Prop :=
  ∀ b ∈ a.currentBoxes, 0 ≤ b.classId ∧ b.classId < a.classNames.length

instance (a : YoloAnnotator) : Decidable a.classIdsInRange := by
  unfold YoloAnnotator.classIdsInRange
  infer_instance

/-- The session `sample` on its second image, with a label file for the first image
that names class 7. -/
def sampleForeign : YoloAnnotator :=
  { sample with
    currentImageIndex := 1
    files := fun p => if p = "a.txt" then some ["7 0.5 0.5 0.1 0.1".toList] else none }

/-- The exceptions the loaders throw (`std::runtime_error`), by their messages: "No
classes loaded from classes file" and "No images found in the specified
directory". -/
inductive LoadError where
  | noClasses
  | noImages
deriving DecidableEq, Repr

/-- The loop `while (std::getline(file, line))` of `loadClassNames` (lines 43-47):
every non-empty line is appended to `classNames`. -/
def readClassNames : List (List Char) → List String → List String
  | [], classNames => classNames
  | line :: rest, classNames =>
    if line ≠ [] then readClassNames rest (classNames ++ [String.mk line])
    else readClassNames rest classNames

/-- The member function `loadClassNames`; a classes file that cannot be opened
gives no line. -/
def YoloAnnotator.loadClassNames (a : YoloAnnotator) (classesFile : String) :
    Except LoadError YoloAnnotator :=
  let a1 := { a with
    classNames := readClassNames ((a.files classesFile).getD []) a.classNames }
  if a1.classNames = [] then Except.error LoadError.noClasses else Except.ok a1

/-- The file name of a path, `path::filename()`: what follows the last `/`. -/
def filename (path : List Char) : List Char :=
  match findLastOf path '/' with
  | some i => path.drop (i + 1)
  | none => path

/-- The extension of a path, `path::extension()`: the part of the file name from
its last period on; empty when the file name is `.` or `..`, has no period, or
has its only period in front. -/
def extension (path : List Char) : List Char :=
  if filename path = ['.'] ∨ filename path = ['.', '.'] then []
  else
    match findLastOf (filename path) '.' with
    | some (i + 1) => (filename path).drop (i + 1)
    | _ => []

/-- The function `::tolower` in the C locale. -/
def tolower (c : Char) : Char :=
  if 'A'.toNat ≤ c.toNat ∧ c.toNat ≤ 'Z'.toNat then Char.ofNat (c.toNat + 32) else c

/-- The loop over `fs::directory_iterator` of `loadImagesFromDirectory` (lines
57-68) on the paths of the entries, in the order the iterator gives them. -/
def pushImages : List String → List String → List String
  | [], imageFiles => imageFiles
  | entry :: rest, imageFiles =>
    let extension := (extension entry.toList).map tolower
    if extension = ".jpg".toList ∨ extension = ".jpeg".toList
        ∨ extension = ".png".toList ∨ extension = ".bmp".toList then
      pushImages rest (imageFiles ++ [entry])
    else pushImages rest imageFiles

/-- The call `std::sort(imageFiles.begin(), imageFiles.end())`: the paths in
ascending order of `operator<`, the lexicographic order of the characters. That
order is total, so the result is the one sorted rearrangement of the paths,
whatever the algorithm. -/
def sortPaths (paths : List String) : List String :=
  paths.insertionSort (fun s t => s.toList ≤ t.toList)

/-- The member function `loadImagesFromDirectory`, given the entries of the
directory. -/
def YoloAnnotator.loadImagesFromDirectory (a : YoloAnnotator) (entries : List String) :
    Except LoadError YoloAnnotator :=
  let a1 := { a with imageFiles := pushImages entries a.imageFiles }
  if a1.imageFiles = [] then Except.error LoadError.noImages
  else Except.ok { a1 with imageFiles := sortPaths a1.imageFiles }.loadCurrentImage

/-- The object before the body of the constructor runs: the default member
initializers (lines 19-30), in a given outside world. -/
def YoloAnnotator.fresh (imread : String → Mat) (canCreate : String → Bool)
    (files : String → Option (List (List Char))) : YoloAnnotator :=
  { imageFiles := []
    classNames := []
    currentImageIndex := 0
    currentImage := ⟨0, 0⟩
    currentBoxes := []
    isDrawing := false
    startPoint := ⟨0, 0⟩
    endPoint := ⟨0, 0⟩
    currentClass := 0
    processedCount := 0
    imread := imread
    canCreate := canCreate
    files := files }

/-- The constructor (lines 33-38), given the entries of the directory. -/
def YoloAnnotator.construct (imread : String → Mat) (canCreate : String → Bool)
    (files : String → Option (List (List Char))) (entries : List String)
    (classesFile : String) : Except LoadError YoloAnnotator :=
  match (YoloAnnotator.fresh imread canCreate files).loadClassNames classesFile with
  | Except.error e => Except.error e
  | Except.ok a => a.loadImagesFromDirectory entries

/-- A path is admitted to the catalog: its extension, in lower case, is one of
`.jpg`, `.jpeg`, `.png`, `.bmp`. -/
def isImagePath (path : String) : Prop :=
  (extension path.toList).map tolower ∈ [".jpg".toList, ".jpeg".toList, ".png".toList, ".bmp".toList]

instance (path : String) : Decidable (isImagePath path) := by
  unfold isImagePath
  infer_instance

/-- A world with a classes file of three names around a blank line. -/
def classesWorld : String → Option (List (List Char)) :=
  fun p => if p = "classes.txt" then some ["cat".toList, [], "dog".toList, "bird".toList] else none

/-- The entries of a directory: images, a text file, a hidden file named `.jpg`. -/
def sampleEntries : List String :=
  ["d/c.PNG", "d/notes.txt", "d/a.jpg", "d/.jpg", "d/b.Jpeg", "d/a.bmp.bak", "d/z.v2/"]

/-- The label path as the spec words it: the image path with its extension removed
and `.txt` appended. -/
def labelPathOf (imagePath : String) : String :=
  String.mk (imagePath.toList.take (imagePath.toList.length - (extension imagePath.toList).length)
    ++ ['.', 't', 'x', 't'])

/-- The session `sample` on a catalog whose one image lies in a directory with a
period in its name. -/
def sampleDotted : YoloAnnotator := { sample with imageFiles := ["dir.v2/img.JPG"] }

/-- A binary32 value is finite and lies in `[0, 1]`. -/
def F32.inUnit : F32 → Prop
  | F32.fin k => 0 ≤ k ∧ k ≤ (F32.one : Int)
  | _ => False

instance (v : F32) : Decidable v.inUnit := by
  cases v <;> unfold F32.inUnit <;> infer_instance

/-- Disk mirrors memory: loading the label file of the current image gives a BoxSet
with the boxes of the BoxSet in memory, in the same order, each of the same class
and within one pixel; an absent file loads as the empty BoxSet. -/
def YoloAnnotator.diskMirrorsMemory (a : YoloAnnotator) : Prop :=
  List.Forall₂ BoundingBox.within1 a.loadAnnotations.currentBoxes a.currentBoxes

/-- Every field of the rectangle has magnitude at most 65536: the rectangle may
lie inside the image, across its border or outside it. -/
def Rect.bounded (r : Rect) : Prop :=
  |r.x| ≤ 65536 ∧ |r.y| ≤ 65536 ∧ |r.width| ≤ 65536 ∧ |r.height| ≤ 65536

instance (r : Rect) : Decidable (Rect.bounded r) := by
  unfold Rect.bounded
  infer_instance

/-- A box a label file can hold faithfully: fields of magnitude at most 65536 and a
class id in the range of `int`. -/
def BoundingBox.bounded (b : BoundingBox) : Prop :=
  Rect.bounded b.rect ∧ -(2 ^ 31 : Int) ≤ b.classId ∧ b.classId < 2 ^ 31

instance (b : BoundingBox) : Decidable (BoundingBox.bounded b) := by
  unfold BoundingBox.bounded
  infer_instance

/-- The session `sample` holding three boxes: one across the top left corner of the
640x480 image, one across its bottom right corner, one inside. -/
def sampleSpill : YoloAnnotator :=
  { sample with
    currentBoxes := [BoundingBox.mk ⟨-3, -4, 10, 11⟩ 1, BoundingBox.mk ⟨600, 400, 100, 100⟩ 2,
      BoundingBox.mk ⟨10, 10, 10, 10⟩ 0] }

/-- The inputs that edit the BoxSet of the current image: a release that commits a
box (lines 163-165) and a deletion on a non-empty BoxSet (lines 277-279). -/
def YoloAnnotator.editsOn (a : YoloAnnotator) : Input → Bool
  | Input.mouse event x y =>
    decide (event = EVENT_LBUTTONUP) && a.isDrawing
      && decide (5 < wrapInt |x - a.startPoint.x| ∧ 5 < wrapInt |y - a.startPoint.y|)
  | Input.key key _ => decide (key = 100 ∨ key = 68) && decide (a.currentBoxes ≠ [])

/-- Along the sequence of inputs, the BoxSet left by every edit (a committed box,
a deletion) holds only boxes with fields of magnitude at most 65536 and class ids
in the range of `int`. -/
def YoloAnnotator.boundedEdits : List Input → YoloAnnotator → Prop
  | [], _ => True
  | i :: rest, a =>
    match a.step i with
    | none => True
    | some a1 =>
      (a.editsOn i = true → ∀ b ∈ a1.currentBoxes, BoundingBox.bounded b)
        ∧ YoloAnnotator.boundedEdits rest a1

instance (inputs : List Input) (a : YoloAnnotator) : Decidable (a.boundedEdits inputs) := by
  induction inputs generalizing a with
  | nil => exact isTrue trivial
  | cons i rest ih =>
    unfold YoloAnnotator.boundedEdits
    cases a.step i with
    | none => exact isTrue trivial
    | some a1 => exact @instDecidableAnd _ _ _ (ih a1)

/-- The store is ready for the session: the cursor is in the catalog, every image
of the catalog decodes with positive dimensions (in the range of `int`), the label
file of every image can be opened for writing, and the current image has positive
dimensions. -/
def YoloAnnotator.storeReady (a : YoloAnnotator) : Prop :=
  a.currentImageIndex < a.imageFiles.length
  ∧ (∀ p ∈ a.imageFiles, (0 < (a.imread p).cols ∧ (a.imread p).cols < 2 ^ 31)
      ∧ (0 < (a.imread p).rows ∧ (a.imread p).rows < 2 ^ 31))
  ∧ (∀ p ∈ a.imageFiles, a.canCreate (annotationPath p) = true)
  ∧ (0 < a.currentImage.cols ∧ a.currentImage.cols < 2 ^ 31)
  ∧ (0 < a.currentImage.rows ∧ a.currentImage.rows < 2 ^ 31)

instance (a : YoloAnnotator) : Decidable a.storeReady := by
  unfold YoloAnnotator.storeReady
  infer_instance

/-- A decimal literal of a label file, as the specification describes a field: an
optional sign, integer digits, and an optional fraction. -/
structure Literal where
  sign : List Char
  ip : List Char
  fp : List Char
deriving DecidableEq, Repr

/-- The characters of a literal: `-12.5` is sign `-`, digits `12`, fraction `5`. -/
def Literal.text (t : Literal) : List Char :=
  t.sign ++ (t.ip ++ (if t.fp = [] then [] else '.' :: t.fp))

/-- A well-formed number field: a sign `-`, `+` or none, one to twelve integer
digits, and a fraction of any number of digits (none: no decimal point). -/
def Literal.isNumber (t : Literal) : Prop :=
  (t.sign = [] ∨ t.sign = ['-'] ∨ t.sign = ['+'])
  ∧ t.ip ≠ [] ∧ t.ip.length ≤ 12
  ∧ (∀ c ∈ t.ip, isDigit c = true) ∧ (∀ c ∈ t.fp, isDigit c = true)

instance (t : Literal) : Decidable t.isNumber := by
  unfold Literal.isNumber
  infer_instance

/-- A well-formed integer field: a number without a fraction, of at most nine
digits. -/
def Literal.isInteger (t : Literal) : Prop :=
  t.isNumber ∧ t.fp = [] ∧ t.ip.length ≤ 9

instance (t : Literal) : Decidable t.isInteger := by
  unfold Literal.isInteger
  infer_instance

/-- The integer an integer field denotes. -/
def Literal.intValue (t : Literal) : Int :=
  if t.sign = ['-'] then -(natOfDigits t.ip : Int) else (natOfDigits t.ip : Int)

/-- Whitespace between two fields: one or more whitespace characters. -/
def isSeparator (s : List Char) : Prop := s ≠ [] ∧ ∀ c ∈ s, isSpace c = true

instance (s : List Char) : Decidable (isSeparator s) := by
  unfold isSeparator
  infer_instance

/-- The fields after the first, each with the whitespace in front of it. -/
def fieldsText : List (List Char × Literal) → List Char
  | [] => []
  | f :: rest => f.1 ++ (f.2.text ++ fieldsText rest)

/-- The line made of a first field and the fields that follow it. -/
def lineOf (c : Literal) (nums : List (List Char × Literal)) : List Char :=
  c.text ++ fieldsText nums

/-- The fields of a line are well formed: an integer, then numbers separated by
whitespace. -/
def wellFormedFields (c : Literal) (nums : List (List Char × Literal)) : Prop :=
  c.isInteger ∧ ∀ f ∈ nums, isSeparator f.1 ∧ f.2.isNumber

instance (c : Literal) (nums : List (List Char × Literal)) :
    Decidable (wellFormedFields c nums) := by
  unfold wellFormedFields
  infer_instance

/-- The fields of the two lines of `twoLineText`: five fields, then three. -/
def twoLineFields : List (Literal × List (List Char × Literal)) :=
  [(⟨[], ['0'], []⟩, [([' '], ⟨[], ['0'], ['5']⟩), ([' '], ⟨[], ['0'], ['5']⟩),
      ([' '], ⟨[], ['0'], ['1']⟩), ([' '], ⟨[], ['0'], ['1']⟩)]),
   (⟨[], ['0'], []⟩, [([' '], ⟨[], ['0'], ['5']⟩), ([' '], ⟨[], ['0'], ['5']⟩)])]

/-- The read `classNames[classId]` with an `int` index (lines 118 and 127): the
name, or `none` when the index is outside `classNames` and the read is out of
bounds (a negative `int` converts to a `size_t` past the end of every vector). -/
def YoloAnnotator.className (a : YoloAnnotator) (classId : Int) : Option String :=
  if classId < 0 then none else a.classNames[classId.toNat]?

/-- The member function `drawBox`, reduced to the label it looks up (line 127). -/
def YoloAnnotator.drawBox (a : YoloAnnotator) (box : BoundingBox) : Option String :=
  a.className box.classId

/-- The member function `updateDisplay`, reduced to what it reads from
`classNames`: the labels of the boxes it draws, in the order of the BoxSet
(lines 107-109), and the name of the current class (line 118); `none` when one of
the reads is out of bounds. -/
def YoloAnnotator.updateDisplay (a : YoloAnnotator) : Option (List String × String) :=
  match a.currentBoxes.mapM a.drawBox, a.className a.currentClass with
  | some labels, some name => some (labels, name)
  | _, _ => none

/-- The text `saveAnnotations` writes for the current BoxSet and image. -/
def YoloAnnotator.labelText (a : YoloAnnotator) : List (List Char) :=
  a.currentBoxes.map
    (fun box => formatBox box (F32.ofInt a.currentImage.cols) (F32.ofInt a.currentImage.rows))

end Yolo

namespace Yolo

set_option maxRecDepth 100000

/-! ## Drawing a box -/

theorem moves_keep (moves : List Point) (a : YoloAnnotator) (h : a.isDrawing = true) :
    ∃ ep, moves.foldl (fun st p => st.onMouse EVENT_MOUSEMOVE p.x p.y) a
      = { a with endPoint := ep } := by
  induction moves generalizing a with
  | nil => exact ⟨a.endPoint, rfl⟩
  | cons p ps ih =>
    have hstep : a.onMouse EVENT_MOUSEMOVE p.x p.y = { a with endPoint := ⟨p.x, p.y⟩ } := by
      simp [YoloAnnotator.onMouse, EVENT_MOUSEMOVE, EVENT_LBUTTONDOWN, h]
    obtain ⟨ep, hep⟩ := ih { a with endPoint := ⟨p.x, p.y⟩ } h
    exact ⟨ep, by simp only [List.foldl_cons, hstep, hep]⟩

theorem saveAnnotations_currentBoxes (a : YoloAnnotator) :
    a.saveAnnotations.currentBoxes = a.currentBoxes := by
  by_cases h : a.canCreate (annotationPath a.imagePath) = true <;>
    simp [YoloAnnotator.saveAnnotations, h]

theorem rect_of_drag (sx sy ex ey : Int) :
    Rect.ofPoints ⟨min sx ex, min sy ey⟩ ⟨max sx ex, max sy ey⟩
      = ⟨min sx ex, min sy ey, wrapInt |ex - sx|, wrapInt |ey - sy|⟩ := by
  have hx : min sx ex ≤ max sx ex := le_trans (min_le_left _ _) (le_max_left _ _)
  have hy : min sy ey ≤ max sy ey := le_trans (min_le_left _ _) (le_max_left _ _)
  have wx : max sx ex - min sx ex = |ex - sx| := by
    rcases le_total sx ex with h | h
    · rw [max_eq_right h, min_eq_left h, abs_of_nonneg (by omega)]
    · rw [max_eq_left h, min_eq_right h, abs_of_nonpos (by omega)]; omega
  have wy : max sy ey - min sy ey = |ey - sy| := by
    rcases le_total sy ey with h | h
    · rw [max_eq_right h, min_eq_left h, abs_of_nonneg (by omega)]
    · rw [max_eq_left h, min_eq_right h, abs_of_nonpos (by omega)]; omega
  simp only [Rect.ofPoints, min_eq_left hx, min_eq_left hy, max_eq_right hx, max_eq_right hy, wx, wy]

theorem release_boxes (a : YoloAnnotator) (e : Point) (h : a.isDrawing = true) :
    (a.onMouse EVENT_LBUTTONUP e.x e.y).currentBoxes
      = if 5 < wrapInt |e.x - a.startPoint.x| ∧ 5 < wrapInt |e.y - a.startPoint.y| then
          a.currentBoxes ++ [BoundingBox.mk
            ⟨min a.startPoint.x e.x, min a.startPoint.y e.y,
              wrapInt |e.x - a.startPoint.x|, wrapInt |e.y - a.startPoint.y|⟩ a.currentClass]
        else a.currentBoxes := by
  simp only [YoloAnnotator.onMouse, EVENT_MOUSEMOVE, EVENT_LBUTTONDOWN, EVENT_LBUTTONUP, h,
    rect_of_drag]
  simp only [show ¬ ((4:Int) = 1) by decide, show ¬ ((4:Int) = 0) by decide, if_false, if_true,
    gt_iff_lt]
  split
  · rw [saveAnnotations_currentBoxes]
  · rfl

theorem drag_boxes (a : YoloAnnotator) (s e : Point) (moves : List Point) :
    ((moves.foldl (fun st p => st.onMouse EVENT_MOUSEMOVE p.x p.y)
        (a.onMouse EVENT_LBUTTONDOWN s.x s.y)).onMouse EVENT_LBUTTONUP e.x e.y).currentBoxes
      = if 5 < wrapInt |e.x - s.x| ∧ 5 < wrapInt |e.y - s.y| then
          a.currentBoxes ++ [BoundingBox.mk ⟨min s.x e.x, min s.y e.y, wrapInt |e.x - s.x|, wrapInt |e.y - s.y|⟩
            a.currentClass]
        else a.currentBoxes := by
  have h0 : a.onMouse EVENT_LBUTTONDOWN s.x s.y
      = { a with startPoint := ⟨s.x, s.y⟩, endPoint := ⟨s.x, s.y⟩, isDrawing := true } := by
    simp [YoloAnnotator.onMouse]
  obtain ⟨ep, hep⟩ := moves_keep moves (a.onMouse EVENT_LBUTTONDOWN s.x s.y) (by rw [h0])
  rw [hep, release_boxes _ _ (by rw [h0]), h0]

theorem wrapInt_small (n : Int) (h1 : -(2 ^ 31 : Int) ≤ n) (h2 : n < 2 ^ 31) : wrapInt n = n := by
  unfold wrapInt
  omega

/-- C3 as stated fails: in the drag (-2000000000,0)->(2000000000,100) both extents
exceed 5, but the width 4000000000 does not fit the `int` field of `cv::Rect`; it
wraps to a negative value and no box is committed. -/
theorem C3_threshold_filter_counterexample :
    5 < |(2000000000 : Int) - (-2000000000)| ∧ 5 < |(100 : Int) - 0|
    ∧ ((sample.onMouse EVENT_LBUTTONDOWN (-2000000000) 0).onMouse
        EVENT_LBUTTONUP 2000000000 100).currentBoxes = [] := by
  refine ⟨by decide, by decide, by decide⟩

/-- C3 (threshold filter), amended: a drag pressed at `s`, moved anywhere and
released at `e`, whose extents `|e.x - s.x|` and `|e.y - s.y|` are below `2 ^ 31`
(they fit the `int` fields of `cv::Rect`), appends exactly the box
`(min x, min y, |e.x - s.x|, |e.y - s.y|)` with the current class at the end of the
BoxSet when both extents exceed 5, and leaves the BoxSet as it was otherwise; the
drag (10,10)->(13,13) commits nothing and the drag (10,10)->(20,20) commits one box
of width 10 and height 10. -/
theorem C3_threshold_filter (a : YoloAnnotator) (s e : Point) (moves : List Point)
    (hx : |e.x - s.x| < 2 ^ 31) (hy : |e.y - s.y| < 2 ^ 31) :
    ((moves.foldl (fun st p => st.onMouse EVENT_MOUSEMOVE p.x p.y)
        (a.onMouse EVENT_LBUTTONDOWN s.x s.y)).onMouse EVENT_LBUTTONUP e.x e.y).currentBoxes
      = (if 5 < |e.x - s.x| ∧ 5 < |e.y - s.y| then
          a.currentBoxes ++ [BoundingBox.mk ⟨min s.x e.x, min s.y e.y, |e.x - s.x|, |e.y - s.y|⟩
            a.currentClass]
        else a.currentBoxes)
    ∧ ((a.onMouse EVENT_LBUTTONDOWN 10 10).onMouse EVENT_LBUTTONUP 13 13).currentBoxes
      = a.currentBoxes
    ∧ ((a.onMouse EVENT_LBUTTONDOWN 10 10).onMouse EVENT_LBUTTONUP 20 20).currentBoxes
      = a.currentBoxes ++ [BoundingBox.mk ⟨10, 10, 10, 10⟩ a.currentClass] := by
  refine ⟨?_, ?_, ?_⟩
  · have h := drag_boxes a s e moves
    rw [wrapInt_small _ (le_trans (by norm_num) (abs_nonneg _)) hx,
      wrapInt_small _ (le_trans (by norm_num) (abs_nonneg _)) hy] at h
    exact h
  · have h := drag_boxes a ⟨10, 10⟩ ⟨13, 13⟩ []
    simp only [List.foldl_nil] at h
    rw [h]
    have e1 : ¬ (5 < wrapInt |(13 : Int) - 10| ∧ 5 < wrapInt |(13 : Int) - 10|) := by decide
    exact if_neg e1
  · have h := drag_boxes a ⟨10, 10⟩ ⟨20, 20⟩ []
    simp only [List.foldl_nil] at h
    rw [h]
    have e1 : wrapInt |(20 : Int) - 10| = 10 := by decide
    have e2 : min (10 : Int) 20 = 10 := by decide
    simp only [e1, e2]
    rfl

/-- C3, amended, on the sample session: the drag (10,10)->(20,20) through (15,12). -/
theorem C3_threshold_filter_witness :
    (|(20 : Int) - 10| < 2 ^ 31)
    ∧ (([Point.mk 15 12].foldl (fun st p => st.onMouse EVENT_MOUSEMOVE p.x p.y)
        (sample.onMouse EVENT_LBUTTONDOWN 10 10)).onMouse EVENT_LBUTTONUP 20 20).currentBoxes
      = (if 5 < |(20 : Int) - 10| ∧ 5 < |(20 : Int) - 10| then
          sample.currentBoxes ++ [BoundingBox.mk ⟨min 10 20, min 10 20, |20 - 10|, |20 - 10|⟩
            sample.currentClass]
        else sample.currentBoxes) :=
  ⟨by decide, (C3_threshold_filter sample ⟨10, 10⟩ ⟨20, 20⟩ [⟨15, 12⟩] (by decide) (by decide)).1⟩

/-! ## Navigation -/

theorem loadAnnotations_index (a : YoloAnnotator) :
    a.loadAnnotations.currentImageIndex = a.currentImageIndex := by
  unfold YoloAnnotator.loadAnnotations
  cases a.files (annotationPath a.imagePath) <;> rfl

theorem loadCurrentImage_index (a : YoloAnnotator) :
    a.loadCurrentImage.currentImageIndex = a.currentImageIndex := by
  unfold YoloAnnotator.loadCurrentImage
  by_cases h : a.currentImageIndex < a.imageFiles.length
  · by_cases h2 : (a.imread a.imagePath).empty = true <;>
      simp [h, h2, loadAnnotations_index]
  · simp [h]

theorem loadAnnotations_imageFiles (a : YoloAnnotator) :
    a.loadAnnotations.imageFiles = a.imageFiles := by
  unfold YoloAnnotator.loadAnnotations
  cases a.files (annotationPath a.imagePath) <;> rfl

theorem loadCurrentImage_imageFiles (a : YoloAnnotator) :
    a.loadCurrentImage.imageFiles = a.imageFiles := by
  unfold YoloAnnotator.loadCurrentImage
  by_cases h : a.currentImageIndex < a.imageFiles.length
  · by_cases h2 : (a.imread a.imagePath).empty = true <;>
      simp [h, h2, loadAnnotations_imageFiles]
  · simp [h]

/-- C6 (jumpTo validation): on a catalog of `n >= 1` images, `jumpTo(k)` is
rejected exactly when `k < 1` or `k > n`; a rejected jump leaves the whole session
as it was (index, BoxSet, class cursor, processed counter); an accepted jump sets
`currentImageIndex` to `k - 1`. -/
theorem C6_jump_validation (a : YoloAnnotator) (k : Int) (hn : 1 ≤ a.imageFiles.length) :
    ((a.jumpToImage (k - 1) = Except.error (JumpError.invalidIndex a.imageFiles.length))
        ↔ (k < 1 ∨ (a.imageFiles.length : Int) < k))
    ∧ ((k < 1 ∨ (a.imageFiles.length : Int) < k) →
        a.run 106 k = some a ∧ a.run 74 k = some a)
    ∧ (¬ (k < 1 ∨ (a.imageFiles.length : Int) < k) →
        ∃ a1, a.jumpToImage (k - 1) = Except.ok a1 ∧ a.run 106 k = some a1
          ∧ a.run 74 k = some a1 ∧ (a1.currentImageIndex : Int) = k - 1) := by
  have _ := hn
  by_cases hk : k < 1 ∨ (a.imageFiles.length : Int) < k
  · have hbad : ¬ (0 ≤ k - 1 ∧ k - 1 < (a.imageFiles.length : Int)) := by omega
    have hj : a.jumpToImage (k - 1) = Except.error (JumpError.invalidIndex a.imageFiles.length) := by
      simp only [YoloAnnotator.jumpToImage, hbad, if_false]
    refine ⟨⟨fun _ => hk, fun _ => hj⟩, fun _ => ?_, fun h => absurd hk h⟩
    simp [YoloAnnotator.run, hj]
  · have hgood : 0 ≤ k - 1 ∧ k - 1 < (a.imageFiles.length : Int) := by omega
    have hj : a.jumpToImage (k - 1)
        = Except.ok { a.saveAnnotations with currentImageIndex := (k - 1).toNat }.loadCurrentImage := by
      simp only [YoloAnnotator.jumpToImage, hgood, and_self, if_true]
    refine ⟨⟨fun h => ?_, fun h => absurd h hk⟩, fun h => absurd h hk, fun _ => ?_⟩
    · rw [hj] at h; cases h
    · refine ⟨_, hj, by simp [YoloAnnotator.run, hj], by simp [YoloAnnotator.run, hj], ?_⟩
      rw [loadCurrentImage_index]
      simp only
      omega

/-- Witness of C6 on the 3-image catalog: `jumpTo(0)` and `jumpTo(4)` are both
rejected and leave the session unchanged. -/
theorem C6_jump_validation_witness :
    1 ≤ sample.imageFiles.length
    ∧ sample.jumpToImage (0 - 1) = Except.error (JumpError.invalidIndex sample.imageFiles.length)
    ∧ sample.jumpToImage (4 - 1) = Except.error (JumpError.invalidIndex sample.imageFiles.length)
    ∧ sample.run 106 0 = some sample ∧ sample.run 106 4 = some sample :=
  ⟨by decide,
   (C6_jump_validation sample 0 (by decide)).1.2 (Or.inl (by decide)),
   (C6_jump_validation sample 4 (by decide)).1.2 (Or.inr (by decide)),
   ((C6_jump_validation sample 0 (by decide)).2.1 (Or.inl (by decide))).1,
   ((C6_jump_validation sample 4 (by decide)).2.1 (Or.inr (by decide))).1⟩

/-- C7 (clamped stepping): on a catalog of `n >= 1` images, `next()` at index `i`
moves to `i + 1` when `i < n - 1` and changes nothing at `i = n - 1`; `previous()`
moves to `i - 1` when `i > 0` and changes nothing at `i = 0`; nothing wraps. -/
theorem C7_clamped_stepping (a : YoloAnnotator) (typed : Int)
    (hn : 1 ≤ a.imageFiles.length) (h64 : a.imageFiles.length < 2 ^ 64) :
    (a.currentImageIndex + 1 < a.imageFiles.length →
        (a.run 110 typed).map (fun s => s.currentImageIndex) = some (a.currentImageIndex + 1)
        ∧ (a.run 78 typed).map (fun s => s.currentImageIndex) = some (a.currentImageIndex + 1))
    ∧ (a.currentImageIndex + 1 = a.imageFiles.length →
        a.run 110 typed = some a ∧ a.run 78 typed = some a)
    ∧ (0 < a.currentImageIndex →
        (a.run 112 typed).map (fun s => s.currentImageIndex) = some (a.currentImageIndex - 1)
        ∧ (a.run 80 typed).map (fun s => s.currentImageIndex) = some (a.currentImageIndex - 1))
    ∧ (a.currentImageIndex = 0 → a.run 112 typed = some a ∧ a.run 80 typed = some a) := by
  have h64n : a.imageFiles.length < 18446744073709551616 := by simpa using h64
  have hsz : (a.imageFiles.length + 18446744073709551615) % 18446744073709551616
      = a.imageFiles.length - 1 := by omega
  refine ⟨fun h => ?_, fun h => ?_, fun h => ?_, fun h => ?_⟩
  · have h1 : a.currentImageIndex < a.imageFiles.length - 1 := by omega
    simp [YoloAnnotator.run, hsz, h1, loadCurrentImage_index]
  · have h1 : ¬ a.currentImageIndex < a.imageFiles.length - 1 := by omega
    simp [YoloAnnotator.run, hsz, h1]
  · simp [YoloAnnotator.run, h, loadCurrentImage_index]
  · simp [YoloAnnotator.run, h]

/-- Witness of C7 on the 3-image catalog at index 0: `next()` moves to index 1 and
`previous()` is a no-op. -/
theorem C7_clamped_stepping_witness :
    1 ≤ sample.imageFiles.length ∧ sample.imageFiles.length < 2 ^ 64
    ∧ (sample.run 110 0).map (fun s => s.currentImageIndex) = some 1
    ∧ sample.run 112 0 = some sample :=
  ⟨by decide, by decide,
   ((C7_clamped_stepping sample 0 (by decide) (by decide)).1 (by decide)).1,
   ((C7_clamped_stepping sample 0 (by decide) (by decide)).2.2.2 rfl).1⟩

/-- C4 (persist on navigation), the code at the failing input: on the fresh
3-image session `next()` moves to the second image without saving (no label file
for `a.jpg`, processed counter still 0), and `previous()` from the second image
likewise writes nothing, while `jumpTo(2)` from the same state does save first
(an empty `a.txt` exists, counter 1). -/
theorem C4_next_skips_save :
    (sample.run 110 0).map (fun s => (s.currentImageIndex, s.files "a.txt", s.processedCount))
      = some (1, none, 0)
    ∧ (sampleSecond.run 112 0).map
        (fun s => (s.currentImageIndex, s.files "b.txt", s.processedCount)) = some (0, none, 0)
    ∧ (sample.run 106 2).map (fun s => (s.currentImageIndex, s.files "a.txt", s.processedCount))
      = some (1, some [], 1) := by
  refine ⟨by decide, by decide, by decide⟩

/-- C5 (decode failure is atomic), the code at the failing input: with `b.jpg`
undecodable, `next()` from the first image and `jumpTo(2)` both leave the session
at index 1 with an empty current image, the BoxSet of the first image still in
memory; `previous()` from the third image does the same. -/
theorem C5_decode_failure_not_atomic :
    (sampleBroken.currentImageIndex, sampleBroken.currentImage, sampleBroken.currentBoxes)
      = (0, ⟨640, 480⟩, [BoundingBox.mk ⟨10, 10, 10, 10⟩ 0])
    ∧ (sampleBroken.run 110 0).map
        (fun s => (s.currentImageIndex, s.currentImage, s.currentBoxes))
      = some (1, ⟨0, 0⟩, [BoundingBox.mk ⟨10, 10, 10, 10⟩ 0])
    ∧ (sampleBroken.run 106 2).map
        (fun s => (s.currentImageIndex, s.currentImage, s.currentBoxes))
      = some (1, ⟨0, 0⟩, [BoundingBox.mk ⟨10, 10, 10, 10⟩ 0])
    ∧ (sampleBrokenThird.run 112 0).map
        (fun s => (s.currentImageIndex, s.currentImage, s.currentBoxes))
      = some (1, ⟨0, 0⟩, [BoundingBox.mk ⟨10, 10, 10, 10⟩ 0]) := by
  refine ⟨by decide, by decide, by decide, by decide⟩

/-! ## Deleting the last box -/

theorem saveAnnotations_ok (a : YoloAnnotator)
    (h : a.canCreate (annotationPath a.imagePath) = true) :
    a.saveAnnotations =
      { a with
        files := fun p => if p = annotationPath a.imagePath then some a.labelText else a.files p
        processedCount := (a.processedCount + 1) % 2 ^ 64 } := by
  unfold YoloAnnotator.saveAnnotations
  simp only [h, if_true]
  rfl

theorem saveAnnotations_blocked (a : YoloAnnotator)
    (h : ¬ a.canCreate (annotationPath a.imagePath) = true) :
    a.saveAnnotations = a := by
  unfold YoloAnnotator.saveAnnotations
  simp [h]

theorem saveAnnotations_files (a : YoloAnnotator)
    (h : a.canCreate (annotationPath a.imagePath) = true) :
    a.saveAnnotations.files (annotationPath a.saveAnnotations.imagePath)
      = some a.saveAnnotations.labelText := by
  rw [saveAnnotations_ok a h]
  simp [YoloAnnotator.labelText, YoloAnnotator.imagePath]

/-- C10 as stated fails: on the empty BoxSet of the fresh session `deleteLast`
writes nothing (the label file stays absent, so the empty BoxSet is not on disk),
and in a directory that cannot be written the shortened BoxSet is not on disk
either. -/
theorem C10_delete_last_counterexample :
    (sample.run 100 0).map
        (fun s => (s.currentBoxes, s.files (annotationPath s.imagePath), s.processedCount))
      = some ([], none, 0)
    ∧ (sampleReadOnly.run 100 0).map
        (fun s => (s.currentBoxes, s.files (annotationPath s.imagePath), s.processedCount))
      = some ([BoundingBox.mk ⟨10, 10, 10, 10⟩ 0], none, 0) := by
  refine ⟨by decide, by decide⟩

/-- C10 (deleteLast), amended: on a BoxSet `b ++ [x]` the command leaves the
BoxSet equal to `b`, keeps `currentImageIndex`, the class cursor and the draw
state, and, when the label file can be opened for writing, leaves in that file
exactly the records of `b`; on an empty BoxSet it changes nothing at all and
writes nothing. -/
theorem C10_delete_last (a : YoloAnnotator) (typed : Int) :
    (∀ b x, a.currentBoxes = b ++ [x] →
      ∃ s, a.run 100 typed = some s ∧ a.run 68 typed = some s ∧ s.currentBoxes = b
        ∧ s.currentImageIndex = a.currentImageIndex ∧ s.currentClass = a.currentClass
        ∧ s.isDrawing = a.isDrawing ∧ s.startPoint = a.startPoint ∧ s.endPoint = a.endPoint
        ∧ (a.canCreate (annotationPath a.imagePath) = true →
            s.files (annotationPath s.imagePath) = some s.labelText))
    ∧ (a.currentBoxes = [] → a.run 100 typed = some a ∧ a.run 68 typed = some a) := by
  constructor
  · intro b x hb
    have hne : a.currentBoxes ≠ [] := by rw [hb]; simp
    have hdrop : a.currentBoxes.dropLast = b := by rw [hb]; simp
    refine ⟨{ a with currentBoxes := a.currentBoxes.dropLast }.saveAnnotations, ?_, ?_, ?_, ?_, ?_,
      ?_, ?_, ?_, ?_⟩
    · simp [YoloAnnotator.run, hne]
    · simp [YoloAnnotator.run, hne]
    · rw [saveAnnotations_currentBoxes]; exact hdrop
    all_goals
      first
      | (intro hc; exact saveAnnotations_files _ hc)
      | (by_cases hc : ({ a with currentBoxes := a.currentBoxes.dropLast } : YoloAnnotator).canCreate
            (annotationPath ({ a with currentBoxes := a.currentBoxes.dropLast } : YoloAnnotator).imagePath) = true
         · rw [saveAnnotations_ok _ hc]
         · rw [saveAnnotations_blocked _ hc])
  · intro he
    simp [YoloAnnotator.run, he]

/-- Witness of C10 on a session holding one box: the box is removed and the label
file then holds the (empty) text of the remaining BoxSet. -/
theorem C10_delete_last_witness :
    sampleBroken.currentBoxes = [] ++ [BoundingBox.mk ⟨10, 10, 10, 10⟩ 0]
    ∧ (sampleBroken.run 100 0).map
        (fun s => (s.currentBoxes, s.files (annotationPath s.imagePath))) = some ([], some []) := by
  obtain ⟨s, h1, _, h3, _, _, _, _, _, h9⟩ :=
    (C10_delete_last sampleBroken 0).1 [] (BoundingBox.mk ⟨10, 10, 10, 10⟩ 0) rfl
  refine ⟨rfl, ?_⟩
  rw [h1, Option.map_some', h9 (by decide), h3]
  simp [YoloAnnotator.labelText, h3]

/-! ## Reading a label file -/

theorem readLines_eq (w h : F32) (text : List (List Char)) (acc : List BoundingBox) :
    readLines w h text acc = acc ++ text.filterMap (fun line => parseLine line w h) := by
  induction text generalizing acc with
  | nil => simp [readLines]
  | cons line rest ih =>
    cases hp : parseLine line w h with
    | none => simp [readLines, hp, ih]
    | some box => simp [readLines, hp, ih]

theorem takeWhile_append_stop {p : Char → Bool} (l e : List Char) (x : Char) (hx : p x = false) :
    (l ++ x :: e).takeWhile p = l.takeWhile p := by
  induction l with
  | nil => simp [List.takeWhile, hx]
  | cons c cs ih =>
    cases hc : p c <;> simp [List.takeWhile, hc, ih]

theorem dropWhile_append_stop {p : Char → Bool} (l e : List Char) (x : Char) (hx : p x = false) :
    (l ++ x :: e).dropWhile p = l.dropWhile p ++ x :: e := by
  induction l with
  | nil => simp [List.dropWhile, hx]
  | cons c cs ih =>
    cases hc : p c <;> simp [List.dropWhile, hc, ih]

theorem skipWs_append (cs t : List Char) (h : skipWs cs ≠ []) :
    skipWs (cs ++ t) = skipWs cs ++ t := by
  unfold skipWs at *
  induction cs with
  | nil => simp at h
  | cons c cs ih =>
    cases hc : isSpace c
    · simp [List.dropWhile, hc]
    · simp only [List.cons_append, List.dropWhile, hc] at h ⊢
      exact ih h

theorem scanSign_append (l e : List Char) :
    scanSign (l ++ ' ' :: e) = ((scanSign l).1, (scanSign l).2 ++ ' ' :: e) := by
  cases l with
  | nil => rfl
  | cons c cs =>
    by_cases h1 : c = '-'
    · subst h1; rfl
    · by_cases h2 : c = '+'
      · subst h2; rfl
      · have e1 : ∀ t : List Char, scanSign (c :: t) = (false, c :: t) := by
          intro t
          unfold scanSign
          split
          · rename_i heq; cases heq; exact absurd rfl h1
          · rename_i heq; cases heq; exact absurd rfl h2
          · rfl
        rw [List.cons_append, e1, e1]
        rfl

theorem isDigit_space : isDigit ' ' = false := by decide

theorem scanInt_append (cs e : List Char) (v : Int) (r : List Char)
    (h : scanInt cs = some (v, r)) :
    scanInt (cs ++ ' ' :: e) = some (v, r ++ ' ' :: e) := by
  unfold scanInt at h ⊢
  have hne : skipWs cs ≠ [] := by
    intro h0
    rw [h0] at h
    simp [scanSign] at h
  rw [skipWs_append _ _ hne, scanSign_append]
  simp only [takeWhile_append_stop _ _ _ isDigit_space,
    dropWhile_append_stop _ _ _ isDigit_space]
  by_cases hd : (scanSign (skipWs cs)).2.takeWhile isDigit = []
  · simp [hd] at h
  · simp only [hd, if_false] at h ⊢
    generalize (if (scanSign (skipWs cs)).1 = true then
        -(natOfDigits ((scanSign (skipWs cs)).2.takeWhile isDigit) : Int)
      else (natOfDigits ((scanSign (skipWs cs)).2.takeWhile isDigit) : Int)) = val at h ⊢
    by_cases hr : -(2 ^ 31 : Int) ≤ val ∧ val < 2 ^ 31
    · rw [if_pos hr] at h ⊢
      simp only [Option.some.injEq, Prod.mk.injEq] at h ⊢
      exact ⟨h.1, by rw [h.2]⟩
    · rw [if_neg hr] at h
      exact absurd h (by simp)

theorem scanExp_append (cs e : List Char) (v : Int) (r : List Char)
    (h : scanExp cs = some (v, r)) :
    scanExp (cs ++ ' ' :: e) = some (v, r ++ ' ' :: e) := by
  cases cs with
  | nil =>
    simp only [scanExp, Option.some.injEq, Prod.mk.injEq] at h
    obtain ⟨h1, h2⟩ := h
    subst h1; subst h2
    simp [scanExp]
  | cons c cs =>
    simp only [List.cons_append, scanExp] at h ⊢
    by_cases hc : c = 'e' ∨ c = 'E'
    · simp only [hc, if_true] at h ⊢
      rw [scanSign_append]
      simp only [takeWhile_append_stop _ _ _ isDigit_space,
        dropWhile_append_stop _ _ _ isDigit_space]
      by_cases hd : (scanSign cs).2.takeWhile isDigit = []
      · simp [hd] at h
      · simp only [hd, if_false, Option.some.injEq, Prod.mk.injEq] at h ⊢
        exact ⟨h.1, by rw [h.2]⟩
    · simp only [hc, if_false, Option.some.injEq, Prod.mk.injEq] at h ⊢
      exact ⟨h.1, by rw [← h.2]; rfl⟩

theorem scanFrac_append (cs e : List Char) :
    scanFrac (cs ++ ' ' :: e) = ((scanFrac cs).1, (scanFrac cs).2 ++ ' ' :: e) := by
  cases cs with
  | nil => rfl
  | cons c cs =>
    by_cases h1 : c = '.'
    · subst h1
      simp only [List.cons_append, scanFrac, takeWhile_append_stop _ _ _ isDigit_space,
        dropWhile_append_stop _ _ _ isDigit_space]
    · have e1 : ∀ t : List Char, scanFrac (c :: t) = ([], c :: t) := by
        intro t
        unfold scanFrac
        split
        · rename_i heq; cases heq; exact absurd rfl h1
        · rfl
      rw [List.cons_append, e1, e1]
      rfl

theorem scanFloat_append (cs e : List Char) (v : F32) (r : List Char)
    (h : scanFloat cs = some (v, r)) :
    scanFloat (cs ++ ' ' :: e) = some (v, r ++ ' ' :: e) := by
  unfold scanFloat at h ⊢
  have hne : skipWs cs ≠ [] := by
    intro h0
    rw [h0] at h
    simp [scanSign, scanFrac] at h
  rw [skipWs_append _ _ hne, scanSign_append]
  simp only [takeWhile_append_stop _ _ _ isDigit_space,
    dropWhile_append_stop _ _ _ isDigit_space, scanFrac_append]
  by_cases hd : (scanSign (skipWs cs)).2.takeWhile isDigit = []
      ∧ (scanFrac ((scanSign (skipWs cs)).2.dropWhile isDigit)).1 = []
  · rw [if_pos hd] at h; cases h
  · rw [if_neg hd] at h ⊢
    cases hx : scanExp (scanFrac ((scanSign (skipWs cs)).2.dropWhile isDigit)).2 with
    | none => rw [hx] at h; cases h
    | some er =>
      obtain ⟨ex, rest⟩ := er
      rw [hx] at h
      rw [scanExp_append _ _ _ _ hx]
      simp only at h ⊢
      split at h
      · rename_i k hk
        simp only [Option.some.injEq, Prod.mk.injEq] at h
        rw [h.1, h.2]
      · cases h

theorem parseLine_append (line e : List Char) (w h : F32) (box : BoundingBox)
    (hp : parseLine line w h = some box) :
    parseLine (line ++ ' ' :: e) w h = some box := by
  unfold parseLine at hp ⊢
  cases h1 : scanInt line with
  | none => rw [h1] at hp; cases hp
  | some p1 =>
    obtain ⟨c, r1⟩ := p1
    rw [h1] at hp
    rw [scanInt_append _ _ _ _ h1]
    simp only at hp ⊢
    cases h2 : scanFloat r1 with
    | none => rw [h2] at hp; cases hp
    | some p2 =>
      obtain ⟨x, r2⟩ := p2
      rw [h2] at hp
      rw [scanFloat_append _ _ _ _ h2]
      simp only at hp ⊢
      cases h3 : scanFloat r2 with
      | none => rw [h3] at hp; cases hp
      | some p3 =>
        obtain ⟨y, r3⟩ := p3
        rw [h3] at hp
        rw [scanFloat_append _ _ _ _ h3]
        simp only at hp ⊢
        cases h4 : scanFloat r3 with
        | none => rw [h4] at hp; cases hp
        | some p4 =>
          obtain ⟨ww, r4⟩ := p4
          rw [h4] at hp
          rw [scanFloat_append _ _ _ _ h4]
          simp only at hp ⊢
          cases h5 : scanFloat r4 with
          | none => rw [h5] at hp; cases hp
          | some p5 =>
            obtain ⟨hh, r5⟩ := p5
            rw [h5] at hp
            rw [scanFloat_append _ _ _ _ h5]
            simp only at hp ⊢
            exact hp

theorem loadAnnotations_boxes (a : YoloAnnotator) (text : List (List Char))
    (hf : a.files (annotationPath a.imagePath) = some text) :
    a.loadAnnotations.currentBoxes
      = text.filterMap (fun line =>
          parseLine line (F32.ofInt a.currentImage.cols) (F32.ofInt a.currentImage.rows)) := by
  unfold YoloAnnotator.loadAnnotations
  rw [hf]
  simp only [readLines_eq, List.nil_append]

theorem parseLine_three_fields (w h : F32) :
    parseLine ['0', ' ', '0', '.', '5', ' ', '0', '.', '5'] w h = none := by
  have h1 : scanInt ['0', ' ', '0', '.', '5', ' ', '0', '.', '5']
      = some (0, [' ', '0', '.', '5', ' ', '0', '.', '5']) := by decide
  have h2 : scanFloat [' ', '0', '.', '5', ' ', '0', '.', '5']
      = some (F32.fin (2 ^ 148), [' ', '0', '.', '5']) := by decide
  have h3 : scanFloat [' ', '0', '.', '5'] = some (F32.fin (2 ^ 148), []) := by decide
  have h4 : scanFloat [] = none := by decide
  simp only [parseLine, h1, h2, h3, h4]

/-- C8 as stated fails: a line of six fields whose first five are well-formed is
not skipped but loads a box, and so does the four-field line `1.5 0.5 0.5 0.1`,
which is read as the integer `1` followed by `.5 0.5 0.5 0.1`. -/
theorem C8_malformed_lines_counterexample :
    (sampleLabelled ["0 0.5 0.5 0.1 0.1 7".toList]).loadAnnotations.currentBoxes
      = [BoundingBox.mk ⟨288, 216, 64, 48⟩ 0]
    ∧ (sampleLabelled ["1.5 0.5 0.5 0.1".toList]).loadAnnotations.currentBoxes
      = [BoundingBox.mk ⟨160, 216, 320, 48⟩ 1] := by
  refine ⟨by decide, by decide⟩

/-! ## The codec round trip: where it fails -/

/-- C1 as stated fails: for the box (123456789, 10, 100, 100) and the image size
640 x 480 the round trip through the written line gives x = 123456592 (197 pixels
off; six significant digits are written), and already the round trip on the `float`
values gives x = 123456792 (3 pixels off; a `float` has 24 significant bits). -/
theorem C1_round_trip_counterexample :
    textRoundTrip farBox 640 480 = some (BoundingBox.mk ⟨123456592, 10, 100, 99⟩ 0)
    ∧ codecRoundTrip farBox.rect 640 480 = ⟨123456792, 10, 100, 100⟩
    ∧ ¬ Rect.within1 ⟨123456592, 10, 100, 99⟩ farBox.rect
    ∧ ¬ Rect.within1 ⟨123456792, 10, 100, 100⟩ farBox.rect := by
  refine ⟨by decide, by decide, by decide, by decide⟩

/-- C2 as stated fails: saving and loading the BoxSet `[farBox]` of a 640 x 480
image gives back a box 197 pixels off, and in a directory that cannot be written
saving and loading a BoxSet of two boxes gives back the empty BoxSet. -/
theorem C2_save_load_counterexample :
    sampleFar.saveAnnotations.loadAnnotations.currentBoxes
      = [BoundingBox.mk ⟨123456592, 10, 100, 99⟩ 0]
    ∧ ¬ BoundingBox.within1 (BoundingBox.mk ⟨123456592, 10, 100, 99⟩ 0) farBox
    ∧ sampleReadOnly.currentBoxes.length = 2
    ∧ sampleReadOnly.saveAnnotations.loadAnnotations.currentBoxes = [] := by
  refine ⟨by decide, by decide, by decide, by decide⟩

/-- C9 as stated fails: in a directory that cannot be written, the box committed by
the drag (10,10)->(110,110) is in memory but after `next()` the label file of the
first image does not exist, and `previous()` comes back to an empty BoxSet; and
the box committed by the drag (123456789,10)->(123456889,110) comes back 197
pixels off. -/
theorem C9_persist_on_switch_counterexample :
    ((sampleNoWrite.onMouse EVENT_LBUTTONDOWN 10 10).onMouse EVENT_LBUTTONUP 110 110).currentBoxes
      = [BoundingBox.mk ⟨10, 10, 100, 100⟩ 0]
    ∧ (((sampleNoWrite.onMouse EVENT_LBUTTONDOWN 10 10).onMouse EVENT_LBUTTONUP 110 110).run 110 0).map
        (fun s => (s.currentImageIndex, s.files "a.txt")) = some (1, none)
    ∧ ((((sampleNoWrite.onMouse EVENT_LBUTTONDOWN 10 10).onMouse EVENT_LBUTTONUP 110 110).run
          110 0).bind (fun s => s.run 112 0)).map (fun s => (s.currentImageIndex, s.currentBoxes))
        = some (0, [])
    ∧ ((sample.onMouse EVENT_LBUTTONDOWN 123456789 10).onMouse EVENT_LBUTTONUP 123456889 110).currentBoxes
      = [farBox]
    ∧ ((((sample.onMouse EVENT_LBUTTONDOWN 123456789 10).onMouse EVENT_LBUTTONUP 123456889 110).run
          110 0).bind (fun s => s.run 112 0)).map (fun s => (s.currentImageIndex, s.currentBoxes))
        = some (0, [BoundingBox.mk ⟨123456592, 10, 100, 99⟩ 0]) := by
  refine ⟨by decide, by decide, by decide, by decide, by decide⟩

/-! ## Rounding: bounds and exactness -/

theorem lgAux_le (f n : Nat) (hf : n ≤ f) (hn : 1 ≤ n) : 2 ^ lgAux f n ≤ n := by
  induction f generalizing n with
  | zero => omega
  | succ f ih =>
    unfold lgAux
    by_cases h2 : n < 2
    · simp [h2]; omega
    · simp only [h2, if_false]
      have h := ih (n / 2) (by omega) (by omega)
      rw [pow_succ]
      omega

theorem lg_le (n : Nat) (hn : 1 ≤ n) : 2 ^ lg n ≤ n := lgAux_le n n (le_refl n) hn

theorem lg_lt_of_lt (n L : Nat) (h : n < 2 ^ L) : lg n < L ∨ n = 0 := by
  by_cases hn : n = 0
  · exact Or.inr hn
  · left
    have h1 := lg_le n (by omega)
    by_contra hc
    have : 2 ^ L ≤ 2 ^ lg n := Nat.pow_le_pow_right (by norm_num) (by omega)
    omega

theorem rhe_cases (a b : Nat) (hb : 0 < b) :
    ∃ e : Nat, 2 * e ≤ b ∧ (rhe a b * b + e = a ∨ rhe a b * b = a + e) := by
  have hdiv := Nat.div_add_mod a b
  have hmod := Nat.mod_lt a hb
  unfold rhe
  simp only
  split_ifs with h1 h2 h3
  · exact ⟨a % b, by omega, Or.inl (by rw [Nat.mul_comm]; exact hdiv)⟩
  · refine ⟨b - a % b, by omega, Or.inr ?_⟩
    rw [Nat.add_mul, Nat.one_mul, Nat.mul_comm]; omega
  · exact ⟨a % b, by omega, Or.inl (by rw [Nat.mul_comm]; exact hdiv)⟩
  · refine ⟨b - a % b, by omega, Or.inr ?_⟩
    rw [Nat.add_mul, Nat.one_mul, Nat.mul_comm]; omega

theorem rhe_bound (a b : Nat) (hb : 0 < b) :
    |(rhe a b : ℚ) - (a : ℚ) / b| ≤ 1 / 2 := by
  obtain ⟨e, he, h⟩ := rhe_cases a b hb
  have hbq : (0 : ℚ) < b := by exact_mod_cast hb
  have heq : (2 : ℚ) * e ≤ b := by exact_mod_cast he
  have he0 : (0 : ℚ) ≤ e := by positivity
  rw [abs_le]
  rcases h with h | h
  · have hq : (rhe a b : ℚ) * b + e = a := by exact_mod_cast h
    have : (a : ℚ) / b = rhe a b + e / b := by
      rw [← hq]; field_simp
    rw [this]
    have : (e : ℚ) / b ≤ 1 / 2 := by rw [div_le_iff₀ hbq]; linarith
    have : (0 : ℚ) ≤ e / b := by positivity
    constructor <;> linarith
  · have hq : (rhe a b : ℚ) * b = a + e := by exact_mod_cast h
    have : (a : ℚ) / b = rhe a b - e / b := by
      have : (a : ℚ) = rhe a b * b - e := by linarith
      rw [this]; field_simp
    rw [this]
    have : (e : ℚ) / b ≤ 1 / 2 := by rw [div_le_iff₀ hbq]; linarith
    have : (0 : ℚ) ≤ e / b := by positivity
    constructor <;> linarith

theorem rhe_exact (q b : Nat) (hb : 0 < b) : rhe (q * b) b = q := by
  unfold rhe
  simp [Nat.mul_div_cancel _ hb, hb]

theorem roundMag_bound (a b : Nat) (hb : 0 < b) :
    |(F32.roundMag a b : ℚ) - (a : ℚ) / b| ≤ 1 / 2 + (a : ℚ) / b / 2 ^ 24 := by
  unfold F32.roundMag
  simp only
  have hbq : (0 : ℚ) < b := by exact_mod_cast hb
  have hab : (0 : ℚ) ≤ (a : ℚ) / b := by positivity
  set s := lg (a / b) - 23 with hs
  have hp : 0 < b * 2 ^ s := Nat.mul_pos hb (by positivity)
  have h1 := rhe_bound a (b * 2 ^ s) hp
  have h2s : (0 : ℚ) < 2 ^ s := by positivity
  have key : |(rhe a (b * 2 ^ s) : ℚ) * 2 ^ s - (a : ℚ) / b| ≤ 2 ^ s / 2 := by
    have : (rhe a (b * 2 ^ s) : ℚ) * 2 ^ s - (a : ℚ) / b
        = ((rhe a (b * 2 ^ s) : ℚ) - (a : ℚ) / ((b * 2 ^ s : Nat) : ℚ)) * 2 ^ s := by
      push_cast; field_simp; ring
    rw [this, abs_mul, abs_of_pos h2s]
    calc _ ≤ 1 / 2 * (2 : ℚ) ^ s := by
            apply mul_le_mul_of_nonneg_right h1 (le_of_lt h2s)
      _ = 2 ^ s / 2 := by ring
  push_cast
  refine le_trans key ?_
  by_cases hs0 : s = 0
  · rw [hs0]; norm_num
    positivity
  · have hlg : lg (a / b) = s + 23 := by omega
    have hq1 : 1 ≤ a / b := by
      by_contra hc
      have : a / b = 0 := Nat.lt_one_iff.mp (Nat.lt_of_not_le hc)
      rw [this] at hlg
      simp [lg, lgAux] at hlg
    have hle := lg_le (a / b) hq1
    rw [hlg] at hle
    have hle2 : (2 : ℚ) ^ (s + 23) ≤ (a : ℚ) / b := by
      have h3 : ((2 ^ (s + 23) : Nat) : ℚ) ≤ ((a / b : Nat) : ℚ) := by exact_mod_cast hle
      have h4 : ((a / b : Nat) : ℚ) ≤ (a : ℚ) / b := Nat.cast_div_le
      push_cast at h3
      linarith
    have : (2 : ℚ) ^ s / 2 = 2 ^ (s + 23) / 2 ^ 24 := by
      rw [pow_add]; norm_num; ring
    rw [this]
    have : (2 : ℚ) ^ (s + 23) / 2 ^ 24 ≤ (a : ℚ) / b / 2 ^ 24 := by
      apply div_le_div_of_nonneg_right hle2 (by positivity)
    linarith

theorem roundMag_exact (m j d : Nat) (hm : m < 2 ^ 24) (hd : 0 < d) :
    F32.roundMag (m * 2 ^ j * d) d = m * 2 ^ j := by
  unfold F32.roundMag
  simp only
  rw [Nat.mul_div_cancel _ hd]
  generalize hs : lg (m * 2 ^ j) - 23 = s
  have hsj : s ≤ j := by
    have hlt : m * 2 ^ j < 2 ^ (24 + j) := by
      rw [pow_add]
      exact Nat.mul_lt_mul_of_lt_of_le hm (le_refl _) (by positivity)
    rcases lg_lt_of_lt _ _ hlt with h | h
    · omega
    · rw [h] at hs
      simp [lg, lgAux] at hs
      omega
  obtain ⟨t, ht⟩ : ∃ t, j = s + t := ⟨j - s, by omega⟩
  have e1 : m * 2 ^ j * d = m * 2 ^ t * (d * 2 ^ s) := by rw [ht, pow_add]; ring
  rw [e1, rhe_exact _ _ (Nat.mul_pos hd (by positivity))]
  rw [ht, pow_add]; ring

theorem ofUnits_exact (m j d : Nat) (hm : m < 2 ^ 24) (hd : 0 < d)
    (hmax : m * 2 ^ j ≤ F32.maxK) :
    F32.ofUnits ((m * 2 ^ j * d : Nat) : Int) d = F32.fin ((m * 2 ^ j : Nat) : Int) := by
  unfold F32.ofUnits
  simp only [Int.natAbs_ofNat, roundMag_exact m j d hm hd]
  have h1 : ¬ F32.maxK < m * 2 ^ j := by omega
  have h2 : ¬ ((m * 2 ^ j * d : Nat) : Int) < 0 := not_lt.mpr (Int.ofNat_nonneg _)
  simp only [h1, h2, if_false]

theorem ofUnits_bound (n d : Nat) (hd : 0 < d) (hn : n ≤ 2 ^ 200 * d) :
    ∃ k : Nat, F32.ofUnits (n : Int) d = F32.fin (k : Int)
      ∧ |(k : ℚ) - (n : ℚ) / d| ≤ 1 / 2 + (n : ℚ) / d / 2 ^ 24 := by
  have hb := roundMag_bound n d hd
  refine ⟨F32.roundMag n d, ?_, hb⟩
  unfold F32.ofUnits
  simp only [Int.natAbs_ofNat]
  have hdq : (0 : ℚ) < d := by exact_mod_cast hd
  have hq : (n : ℚ) / d ≤ 2 ^ 200 := by
    rw [div_le_iff₀ hdq]; exact_mod_cast hn
  have hmax : ¬ F32.maxK < F32.roundMag n d := by
    rw [abs_le] at hb
    have h3 : (F32.roundMag n d : ℚ) ≤ 2 ^ 201 := by
      have : (n : ℚ) / d / 2 ^ 24 ≤ 2 ^ 200 / 2 ^ 24 :=
        div_le_div_of_nonneg_right hq (by positivity)
      have h4 : (1 : ℚ) / 2 + 2 ^ 200 + 2 ^ 200 / 2 ^ 24 ≤ 2 ^ 201 := by norm_num
      linarith [hb.2]
    have h5 : F32.roundMag n d ≤ 2 ^ 201 := by exact_mod_cast h3
    have h6 : 2 ^ 201 ≤ F32.maxK := by unfold F32.maxK; norm_num
    omega
  have h2 : ¬ ((n : Int) < 0) := not_lt.mpr (Int.ofNat_nonneg _)
  simp only [hmax, h2, if_false]

theorem ofUnits_neg (n : Int) (d : Nat) (k : Int) (h : F32.ofUnits n d = F32.fin k) :
    F32.ofUnits (-n) d = F32.fin (-k) := by
  unfold F32.ofUnits at h ⊢
  simp only [Int.natAbs_neg] at h ⊢
  by_cases hm : F32.maxK < F32.roundMag n.natAbs d
  · simp [hm] at h
  · simp only [hm, if_false, F32.fin.injEq] at h ⊢
    rcases lt_trichotomy n 0 with h0 | h0 | h0
    · have h1 : ¬ (-n < 0) := by omega
      simp only [h0, h1, if_true, if_false] at h ⊢
      omega
    · subst h0
      simp only [neg_zero, lt_self_iff_false, if_false] at h ⊢
      have : F32.roundMag (Int.natAbs 0) d = 0 := by
        simp [F32.roundMag, rhe, lg, lgAux]
      rw [this] at h ⊢
      omega
    · have h1 : ¬ (n < 0) := by omega
      have h2 : -n < 0 := by omega
      simp only [h1, h2, if_true, if_false] at h ⊢
      omega

theorem ofUnits_val (n : Int) (d : Nat) (hd : 0 < d) (hn : |n| ≤ 2 ^ 200 * (d : Int)) :
    ∃ k : Int, F32.ofUnits n d = F32.fin k
      ∧ |(k : ℚ) - (n : ℚ) / d| ≤ 1 / 2 + |(n : ℚ) / d| / 2 ^ 24
      ∧ (0 ≤ n → 0 ≤ k) := by
  have hdq : (0 : ℚ) < d := by exact_mod_cast hd
  rcases le_total 0 n with h0 | h0
  · obtain ⟨m, rfl⟩ := Int.eq_ofNat_of_zero_le h0
    have hn' : m ≤ 2 ^ 200 * d := by
      rw [abs_of_nonneg h0] at hn; exact_mod_cast hn
    obtain ⟨k, hk, hb⟩ := ofUnits_bound m d hd hn'
    refine ⟨k, hk, ?_, fun _ => Int.ofNat_nonneg k⟩
    have hA : (0 : ℚ) ≤ (m : ℚ) / d := by positivity
    simp only [Int.cast_natCast]
    rw [abs_of_nonneg hA]
    exact hb
  · obtain ⟨m, hm⟩ := Int.eq_ofNat_of_zero_le (neg_nonneg.mpr h0)
    have hn' : m ≤ 2 ^ 200 * d := by
      rw [abs_of_nonpos h0, hm] at hn; exact_mod_cast hn
    obtain ⟨k, hk, hb⟩ := ofUnits_bound m d hd hn'
    have hneg := ofUnits_neg (m : Int) d k hk
    have hnm : n = -(m : Int) := by omega
    refine ⟨-k, by rw [hnm]; exact hneg, ?_, fun h => ?_⟩
    · have hA : (0 : ℚ) ≤ (m : ℚ) / d := by positivity
      have e1 : ((n : Int) : ℚ) / d = -((m : ℚ) / d) := by
        rw [hnm]; push_cast; ring
      have e2 : |(-(k : ℚ)) - -((m : ℚ) / d)| = |(k : ℚ) - (m : ℚ) / d| := by
        rw [← abs_neg]; congr 1; ring
      simp only [Int.cast_neg, Int.cast_natCast]
      rw [e1, e2, abs_neg, abs_of_nonneg hA]
      exact hb
    · have : n = 0 := by omega
      have hm0 : m = 0 := by omega
      subst hm0
      have hk0 : (k : ℚ) = 0 ∨ True := Or.inr trivial
      have hz : F32.ofUnits ((0 : Nat) : Int) d = F32.fin 0 := by
        simp [F32.ofUnits, F32.roundMag, rhe, lg, lgAux]
      rw [hz] at hk
      injection hk with hk
      omega

/-! ## Six significant digits -/

theorem lg10Aux_spec (f n : Nat) (hf : n ≤ f) (hn : 1 ≤ n) :
    10 ^ lg10Aux f n ≤ n ∧ n < 10 ^ (lg10Aux f n + 1) := by
  induction f generalizing n with
  | zero => omega
  | succ f ih =>
    unfold lg10Aux
    by_cases h2 : n < 10
    · simp [h2]; omega
    · simp only [h2, if_false]
      have h := ih (n / 10) (by omega) (by omega)
      rw [pow_succ, pow_succ 10 (lg10Aux f (n / 10) + 1)]
      omega

theorem upAux_spec (f a b : Nat) (ha : 1 ≤ a) (hf : b ≤ a * 10 ^ f) :
    b ≤ a * 10 ^ upAux f a b ∧ (upAux f a b = 0 ∨ a * 10 ^ (upAux f a b - 1) < b) := by
  induction f generalizing a with
  | zero =>
    simp only [upAux, pow_zero, mul_one] at hf ⊢
    exact ⟨hf, Or.inl trivial⟩
  | succ f ih =>
    unfold upAux
    by_cases hb : b ≤ a
    · simp [hb]
    · simp only [hb, if_false]
      have h := ih (a * 10) (by omega) (by rw [pow_succ] at hf; linarith [hf, Nat.mul_comm (10 ^ f) 10, Nat.mul_assoc a 10 (10 ^ f)])
      constructor
      · rw [pow_succ]
        linarith [h.1, Nat.mul_comm (10 ^ upAux f (a * 10) b) 10,
          Nat.mul_assoc a 10 (10 ^ upAux f (a * 10) b)]
      · right
        simp only [Nat.add_sub_cancel]
        cases hu : upAux f (a * 10) b with
        | zero =>
          rw [pow_zero, mul_one]
          exact Nat.lt_of_not_le hb
        | succ j =>
          rcases h.2 with h0 | h0
          · omega
          · rw [hu] at h0
            simp only [Nat.add_sub_cancel] at h0
            rw [pow_succ]
            linarith [h0, Nat.mul_comm (10 ^ j) 10, Nat.mul_assoc a 10 (10 ^ j)]

theorem dexp_spec (a b : Nat) (ha : 1 ≤ a) (hb : 1 ≤ b) :
    (10 : ℚ) ^ (dexp a b) ≤ (a : ℚ) / b ∧ (a : ℚ) / b < (10 : ℚ) ^ (dexp a b + 1) := by
  have hbq : (0 : ℚ) < b := by exact_mod_cast hb
  unfold dexp
  by_cases hab : b ≤ a
  · simp only [hab, if_true]
    have hq : 1 ≤ a / b := (Nat.one_le_div_iff hb).mpr hab
    obtain ⟨h1, h2⟩ := lg10Aux_spec (a / b) (a / b) (le_refl _) hq
    have h3 : ((a / b : Nat) : ℚ) ≤ (a : ℚ) / b := Nat.cast_div_le
    have h4 : (a : ℚ) / b < ((a / b : Nat) : ℚ) + 1 := by
      rw [div_lt_iff₀ hbq]
      have : a < (a / b + 1) * b := by
        have := Nat.lt_succ_iff.mpr (le_refl (a / b))
        exact (Nat.div_lt_iff_lt_mul hb).mp this
      exact_mod_cast this
    have e1 : (10 : ℚ) ^ ((lg10Aux (a / b) (a / b) : Nat) : Int) = ((10 ^ lg10Aux (a / b) (a / b) : Nat) : ℚ) := by
      rw [zpow_natCast]; push_cast; rfl
    have e2 : (10 : ℚ) ^ (((lg10Aux (a / b) (a / b) : Nat) : Int) + 1)
        = ((10 ^ (lg10Aux (a / b) (a / b) + 1) : Nat) : ℚ) := by
      rw [show ((lg10Aux (a / b) (a / b) : Nat) : Int) + 1 = ((lg10Aux (a / b) (a / b) + 1 : Nat) : Int) by push_cast; rfl,
        zpow_natCast]; push_cast; rfl
    rw [e1, e2]
    constructor
    · have : ((10 ^ lg10Aux (a / b) (a / b) : Nat) : ℚ) ≤ ((a / b : Nat) : ℚ) := by exact_mod_cast h1
      linarith
    · have : ((a / b : Nat) : ℚ) + 1 ≤ ((10 ^ (lg10Aux (a / b) (a / b) + 1) : Nat) : ℚ) := by
        exact_mod_cast h2
      linarith
  · simp only [hab, if_false]
    have hfuel : b ≤ a * 10 ^ b := by
      have h1 : b < 10 ^ b := Nat.lt_pow_self (by norm_num) b
      have h2 : 10 ^ b ≤ a * 10 ^ b := Nat.le_mul_of_pos_left _ (by omega)
      omega
    obtain ⟨h1, h2⟩ := upAux_spec b a b ha hfuel
    generalize upAux b a b = j at h1 h2
    have hj : j ≠ 0 := by
      intro h0
      rw [h0] at h1
      simp at h1
      exact hab h1
    obtain ⟨i, rfl⟩ : ∃ i, j = i + 1 := ⟨j - 1, by omega⟩
    have h3 : a * 10 ^ i < b := by
      rcases h2 with h2 | h2
      · omega
      · simpa using h2
    have h1q : (b : ℚ) ≤ a * 10 ^ (i + 1) := by exact_mod_cast h1
    have h3q : (a : ℚ) * 10 ^ i < b := by exact_mod_cast h3
    have e1 : (10 : ℚ) ^ (-((i + 1 : Nat) : Int)) = 1 / 10 ^ (i + 1) := by
      rw [zpow_neg, zpow_natCast]; simp
    have e2 : (10 : ℚ) ^ (-((i + 1 : Nat) : Int) + 1) = 1 / 10 ^ i := by
      rw [show -((i + 1 : Nat) : Int) + 1 = -(i : Int) by push_cast; ring, zpow_neg, zpow_natCast]
      simp
    rw [e1, e2]
    have hp : (0 : ℚ) < 10 ^ (i + 1) := by positivity
    have hp2 : (0 : ℚ) < 10 ^ i := by positivity
    constructor
    · rw [div_le_div_iff₀ hp hbq]; linarith
    · rw [div_lt_div_iff₀ hbq hp2]; linarith

theorem decMant_spec (a b : Nat) (ha : 1 ≤ a) (hb : 1 ≤ b) :
    10 ^ 5 ≤ (decMant a b).1 ∧ (decMant a b).1 < 10 ^ 6
      ∧ |((decMant a b).1 : ℚ) * (10 : ℚ) ^ ((decMant a b).2 - 5) - (a : ℚ) / b|
          ≤ (a : ℚ) / b / 200000 := by
  have hbq : (0 : ℚ) < b := by exact_mod_cast hb
  obtain ⟨hx1, hx2⟩ := dexp_spec a b ha hb
  unfold decMant
  simp only
  generalize dexp a b = x at hx1 hx2
  -- the scaled value
  have h10 : (0 : ℚ) < (10 : ℚ) ^ (5 - x) := by positivity
  have h10' : (0 : ℚ) < (10 : ℚ) ^ (x - 5) := by positivity
  have hinv : (10 : ℚ) ^ (5 - x) * (10 : ℚ) ^ (x - 5) = 1 := by
    rw [← zpow_add₀ (by norm_num : (10 : ℚ) ≠ 0)]; simp
  have hxs : (10 : ℚ) ^ x = 10 ^ (5 : Int) * (10 : ℚ) ^ (x - 5) := by
    rw [← zpow_add₀ (by norm_num : (10 : ℚ) ≠ 0)]; congr 1; ring
  have hxs1 : (10 : ℚ) ^ (x + 1) = 10 ^ (6 : Int) * (10 : ℚ) ^ (x - 5) := by
    rw [← zpow_add₀ (by norm_num : (10 : ℚ) ≠ 0)]; congr 1; ring
  set R : ℚ := (a : ℚ) / b * (10 : ℚ) ^ (5 - x) with hR
  have hRv : (a : ℚ) / b = R * (10 : ℚ) ^ (x - 5) := by
    rw [hR, mul_assoc, hinv, mul_one]
  have hR1 : (10 : ℚ) ^ 5 ≤ R := by
    have : (10 : ℚ) ^ (5 : Int) * (10 : ℚ) ^ (x - 5) ≤ R * (10 : ℚ) ^ (x - 5) := by
      rw [← hxs, ← hRv]; exact hx1
    have := le_of_mul_le_mul_right this h10'
    exact_mod_cast this
  have hR2 : R < (10 : ℚ) ^ 6 := by
    have : R * (10 : ℚ) ^ (x - 5) < (10 : ℚ) ^ (6 : Int) * (10 : ℚ) ^ (x - 5) := by
      rw [← hxs1, ← hRv]; exact hx2
    have := lt_of_mul_lt_mul_right this (le_of_lt h10')
    exact_mod_cast this
  -- the rounded mantissa
  obtain ⟨d0, hd0, hd0R⟩ : ∃ d0 : Nat,
      (if x ≤ 5 then rhe (a * 10 ^ (5 - x).toNat) b else rhe a (b * 10 ^ (x - 5).toNat)) = d0
        ∧ |(d0 : ℚ) - R| ≤ 1 / 2 := by
    refine ⟨_, rfl, ?_⟩
    by_cases hx5 : x ≤ 5
    · simp only [hx5, if_true]
      have hb' := rhe_bound (a * 10 ^ (5 - x).toNat) b hb
      have e : ((a * 10 ^ (5 - x).toNat : Nat) : ℚ) / b = R := by
        rw [hR]
        have : (10 : ℚ) ^ (5 - x) = (10 : ℚ) ^ ((5 - x).toNat) := by
          rw [← zpow_natCast, Int.toNat_of_nonneg (by omega)]
        rw [this]; push_cast; ring
      rw [e] at hb'
      exact hb'
    · simp only [hx5, if_false]
      have hpos : 0 < b * 10 ^ (x - 5).toNat := Nat.mul_pos hb (by positivity)
      have hb' := rhe_bound a (b * 10 ^ (x - 5).toNat) hpos
      have e : (a : ℚ) / ((b * 10 ^ (x - 5).toNat : Nat) : ℚ) = R := by
        rw [hR]
        have : (10 : ℚ) ^ (5 - x) = ((10 : ℚ) ^ ((x - 5).toNat))⁻¹ := by
          rw [← zpow_natCast, Int.toNat_of_nonneg (by omega), ← zpow_neg]; congr 1; ring
        rw [this]; push_cast; field_simp
      rw [e] at hb'
      exact hb'
  rw [hd0]
  rw [abs_le] at hd0R
  have hlo : 10 ^ 5 ≤ d0 := by
    by_contra hc
    have h : d0 ≤ 99999 := by omega
    have hq : (d0 : ℚ) ≤ 99999 := by exact_mod_cast h
    norm_num at hR1
    linarith [hd0R.1]
  have hhi : d0 ≤ 10 ^ 6 := by
    by_contra hc
    have h : 1000001 ≤ d0 := by omega
    have hq : (1000001 : ℚ) ≤ (d0 : ℚ) := by exact_mod_cast h
    norm_num at hR2
    linarith [hd0R.2]
  have herr : |(d0 : ℚ) * (10 : ℚ) ^ (x - 5) - (a : ℚ) / b| ≤ (a : ℚ) / b / 200000 := by
    rw [hRv]
    have : (d0 : ℚ) * (10 : ℚ) ^ (x - 5) - R * (10 : ℚ) ^ (x - 5)
        = ((d0 : ℚ) - R) * (10 : ℚ) ^ (x - 5) := by ring
    rw [this, abs_mul, abs_of_pos h10']
    have h1 : |(d0 : ℚ) - R| ≤ 1 / 2 := abs_le.mpr hd0R
    have h2 : |(d0 : ℚ) - R| * (10 : ℚ) ^ (x - 5) ≤ 1 / 2 * (10 : ℚ) ^ (x - 5) :=
      mul_le_mul_of_nonneg_right h1 (le_of_lt h10')
    have h3 : (10 : ℚ) ^ 5 * (10 : ℚ) ^ (x - 5) ≤ R * (10 : ℚ) ^ (x - 5) :=
      mul_le_mul_of_nonneg_right hR1 (le_of_lt h10')
    have h4 : R * (10 : ℚ) ^ (x - 5) / 200000 ≥ 1 / 2 * (10 : ℚ) ^ (x - 5) := by
      rw [ge_iff_le, le_div_iff₀ (by norm_num)]
      norm_num at h3 ⊢
      linarith
    linarith
  by_cases h6 : 10 ^ 6 ≤ d0
  · have hd6 : d0 = 10 ^ 6 := by omega
    simp only [h6, if_true]
    refine ⟨by rw [hd6]; norm_num, by rw [hd6]; norm_num, ?_⟩
    have : ((d0 / 10 : Nat) : ℚ) * (10 : ℚ) ^ (x + 1 - 5) = (d0 : ℚ) * (10 : ℚ) ^ (x - 5) := by
      rw [hd6, show x + 1 - 5 = (x - 5) + 1 by ring, zpow_add₀ (by norm_num : (10 : ℚ) ≠ 0)]
      norm_num; ring
    rw [this]
    exact herr
  · simp only [h6, if_false]
    exact ⟨hlo, by omega, herr⟩

/-! ## Digit strings -/

theorem digitChar_isDigit (d : Nat) : isDigit (digitChar d) = true := by
  unfold digitChar
  split <;> decide

theorem digitVal_digitChar (d : Nat) (h : d < 10) : digitVal (digitChar d) = d := by
  interval_cases d <;> decide

theorem natOfDigits_append (a b : List Char) :
    natOfDigits (a ++ b) = natOfDigits a * 10 ^ b.length + natOfDigits b := by
  induction b using List.reverseRecOn generalizing a with
  | nil => simp [natOfDigits]
  | append_singleton b c ih =>
    rw [← List.append_assoc]
    have h1 : ∀ l : List Char, natOfDigits (l ++ [c]) = 10 * natOfDigits l + digitVal c := by
      intro l; simp [natOfDigits, List.foldl_append]
    rw [h1, h1, ih]
    simp only [List.length_append, List.length_singleton, pow_succ]
    ring

theorem natOfDigits_zeros (z : Nat) : natOfDigits (List.replicate z '0') = 0 := by
  induction z with
  | zero => rfl
  | succ z ih =>
    rw [List.replicate_succ, show '0' :: List.replicate z '0' = ['0'] ++ List.replicate z '0' by rfl,
      natOfDigits_append, ih]
    simp [natOfDigits, digitVal]

theorem padDigits_length (w n : Nat) : (padDigits w n).length = w := by
  induction w generalizing n with
  | zero => rfl
  | succ w ih => simp [padDigits, ih]

theorem padDigits_digits (w n : Nat) : ∀ c ∈ padDigits w n, isDigit c = true := by
  induction w generalizing n with
  | zero => simp [padDigits]
  | succ w ih =>
    intro c hc
    simp only [padDigits, List.mem_append, List.mem_singleton] at hc
    rcases hc with hc | hc
    · exact ih _ c hc
    · rw [hc]; exact digitChar_isDigit _

theorem natOfDigits_padDigits (w n : Nat) : natOfDigits (padDigits w n) = n % 10 ^ w := by
  induction w generalizing n with
  | zero => simp [padDigits, natOfDigits, Nat.mod_one]
  | succ w ih =>
    rw [padDigits, natOfDigits_append, ih]
    simp only [List.length_singleton, pow_one]
    have : natOfDigits [digitChar (n % 10)] = n % 10 := by
      simp [natOfDigits, digitVal_digitChar _ (Nat.mod_lt n (by norm_num))]
    rw [this, pow_succ]
    have h2 : n % (10 ^ w * 10) = n % 10 + 10 * ((n / 10) % 10 ^ w) := by
      rw [Nat.mul_comm (10 ^ w) 10, Nat.mod_mul]
    omega

theorem showNatAux_spec (f n : Nat) (acc : List Char) (h : n < f) :
    ∃ ds, showNatAux f n acc = ds ++ acc ∧ ds ≠ [] ∧ (∀ c ∈ ds, isDigit c = true)
      ∧ natOfDigits ds = n := by
  induction f generalizing n acc with
  | zero => omega
  | succ f ih =>
    unfold showNatAux
    by_cases h10 : n < 10
    · refine ⟨[digitChar n], by simp [h10], by simp, ?_, ?_⟩
      · intro c hc
        rw [List.mem_singleton] at hc
        rw [hc]; exact digitChar_isDigit _
      · simp [natOfDigits, digitVal_digitChar n h10]
    · simp only [h10, if_false]
      obtain ⟨ds, h1, _, h3, h4⟩ := ih (n / 10) (digitChar (n % 10) :: acc) (by omega)
      refine ⟨ds ++ [digitChar (n % 10)], by rw [h1]; simp, by simp, ?_, ?_⟩
      · intro c hc
        rw [List.mem_append, List.mem_singleton] at hc
        rcases hc with hc | hc
        · exact h3 c hc
        · rw [hc]; exact digitChar_isDigit _
      · rw [natOfDigits_append, h4]
        simp only [List.length_singleton, pow_one]
        have : natOfDigits [digitChar (n % 10)] = n % 10 := by
          simp [natOfDigits, digitVal_digitChar _ (Nat.mod_lt n (by norm_num))]
        rw [this]
        omega

theorem showNat_spec (n : Nat) :
    showNat n ≠ [] ∧ (∀ c ∈ showNat n, isDigit c = true) ∧ natOfDigits (showNat n) = n := by
  obtain ⟨ds, h1, h2, h3, h4⟩ := showNatAux_spec (n + 1) n [] (by omega)
  unfold showNat
  rw [h1, List.append_nil]
  exact ⟨h2, h3, h4⟩

theorem stripZeros_spec (l : List Char) :
    ∃ z, l = stripZeros l ++ List.replicate z '0' := by
  unfold stripZeros
  refine ⟨(l.reverse.takeWhile (fun c => c == '0')).length, ?_⟩
  have h1 : l.reverse = l.reverse.takeWhile (fun c => c == '0')
      ++ l.reverse.dropWhile (fun c => c == '0') := (List.takeWhile_append_dropWhile _ _).symm
  have h2 : l.reverse.takeWhile (fun c => c == '0')
      = List.replicate (l.reverse.takeWhile (fun c => c == '0')).length '0' := by
    apply List.eq_replicate_of_mem
    intro c hc
    have := List.mem_takeWhile_imp hc
    simpa using this
  have h3 : l = (l.reverse).reverse := (List.reverse_reverse l).symm
  conv_lhs => rw [h3, h1, List.reverse_append]
  congr 1
  conv_lhs => rw [h2, List.reverse_replicate]

theorem stripZeros_subset (l : List Char) : ∀ c ∈ stripZeros l, c ∈ l := by
  intro c hc
  unfold stripZeros at hc
  rw [List.mem_reverse] at hc
  have := (List.dropWhile_sublist _).subset hc
  exact List.mem_reverse.mp this

/-! ## Reading back a written number -/

theorem digit_not_special (c : Char) (h : isDigit c = true) :
    isSpace c = false ∧ c ≠ '-' ∧ c ≠ '+' ∧ c ≠ '.' := by
  refine ⟨?_, ?_, ?_, ?_⟩
  · unfold isSpace
    simp only [Bool.or_eq_false_iff, beq_eq_false_iff_ne, ne_eq]
    refine ⟨⟨⟨⟨⟨?_, ?_⟩, ?_⟩, ?_⟩, ?_⟩, ?_⟩ <;>
      (rintro rfl; revert h; decide)
  all_goals (rintro rfl; revert h; decide)

theorem takeWhile_digits (ds tail : List Char) (hds : ∀ c ∈ ds, isDigit c = true)
    (ht : ∀ c ∈ tail.head?, isDigit c = false) :
    (ds ++ tail).takeWhile isDigit = ds ∧ (ds ++ tail).dropWhile isDigit = tail := by
  induction ds with
  | nil =>
    cases tail with
    | nil => simp
    | cons c t =>
      have hc : isDigit c = false := ht c (by simp)
      simp [List.takeWhile, List.dropWhile, hc]
  | cons c ds ih =>
    have hc : isDigit c = true := hds c (by simp)
    have ih' := ih (fun c hc => hds c (List.mem_cons_of_mem _ hc))
    simp [List.takeWhile, List.dropWhile, hc, ih'.1, ih'.2]

theorem scanSign_digit (c : Char) (l : List Char) (h : isDigit c = true) :
    scanSign (c :: l) = (false, c :: l) := by
  obtain ⟨_, h1, h2, _⟩ := digit_not_special c h
  unfold scanSign
  split
  · rename_i heq; cases heq; exact absurd rfl h1
  · rename_i heq; cases heq; exact absurd rfl h2
  · rfl

theorem scanFrac_other (l : List Char) (h : ∀ c ∈ l.head?, c ≠ '.') : scanFrac l = ([], l) := by
  unfold scanFrac
  split
  · rename_i r
    exact absurd rfl (h '.' (by simp))
  · rfl

theorem scanFloat_literal (ip fp et rest : List Char) (e : Int)
    (hip : ∀ c ∈ ip, isDigit c = true) (hne : ip ≠ [])
    (hfp : ∀ c ∈ fp, isDigit c = true)
    (het : ∀ c ∈ (et ++ rest).head?, isDigit c = false ∧ c ≠ '.')
    (hexp : scanExp (et ++ rest) = some (e, rest)) :
    scanFloat (' ' :: (ip ++ ((if fp = [] then [] else '.' :: fp) ++ (et ++ rest))))
      = match decValue (natOfDigits (ip ++ fp) : Int) (e - (fp.length : Int)) with
        | F32.fin k => some (F32.fin k, rest)
        | _ => none := by
  obtain ⟨c, ip', rfl⟩ : ∃ c ip', ip = c :: ip' := by
    cases ip with
    | nil => exact absurd rfl hne
    | cons c ip' => exact ⟨c, ip', rfl⟩
  have hc : isDigit c = true := hip c (by simp)
  have hsp : isSpace c = false := (digit_not_special c hc).1
  have hskip : skipWs (' ' :: (c :: ip' ++ ((if fp = [] then [] else '.' :: fp) ++ (et ++ rest))))
      = c :: ip' ++ ((if fp = [] then [] else '.' :: fp) ++ (et ++ rest)) := by
    have h1 : isSpace ' ' = true := by decide
    simp only [skipWs, List.cons_append, List.dropWhile, h1, hsp]
    rfl
  have htail : ∀ x ∈ ((if fp = [] then [] else '.' :: fp) ++ (et ++ rest)).head?,
      isDigit x = false := by
    intro x hx
    by_cases hf : fp = []
    · simp only [hf, if_true, List.nil_append] at hx
      exact (het x hx).1
    · simp only [hf, if_false, List.cons_append, List.head?_cons, Option.mem_def,
        Option.some.injEq] at hx
      rw [← hx]; decide
  obtain ⟨ht1, ht2⟩ := takeWhile_digits (c :: ip') _ hip htail
  have hfrac : scanFrac ((if fp = [] then [] else '.' :: fp) ++ (et ++ rest))
      = (fp, et ++ rest) := by
    by_cases hf : fp = []
    · simp only [hf, if_true, List.nil_append]
      exact scanFrac_other _ (fun x hx => (het x hx).2)
    · simp only [hf, if_false, List.cons_append, scanFrac]
      obtain ⟨h1, h2⟩ := takeWhile_digits fp (et ++ rest) hfp (fun x hx => (het x hx).1)
      rw [h1, h2]
  unfold scanFloat
  simp only [hskip]
  rw [show (c :: ip' ++ ((if fp = [] then [] else '.' :: fp) ++ (et ++ rest)))
      = c :: (ip' ++ ((if fp = [] then [] else '.' :: fp) ++ (et ++ rest))) by rfl,
    scanSign_digit c _ hc]
  simp only
  rw [show c :: (ip' ++ ((if fp = [] then [] else '.' :: fp) ++ (et ++ rest)))
      = (c :: ip') ++ ((if fp = [] then [] else '.' :: fp) ++ (et ++ rest)) by rfl,
    ht1, ht2, hfrac]
  simp only [hexp, reduceCtorEq, false_and, if_false, Bool.false_eq_true]

theorem endsField_head (rest : List Char) (h : EndsField rest) :
    ∀ c ∈ rest.head?, isDigit c = false ∧ c ≠ '.' := by
  intro c hc
  rcases h with h | ⟨e, h⟩
  · rw [h] at hc; simp at hc
  · rw [h] at hc
    simp only [List.head?_cons, Option.mem_def, Option.some.injEq] at hc
    rw [← hc]
    exact ⟨by decide, by decide⟩

theorem endsField_scanExp (rest : List Char) (h : EndsField rest) :
    scanExp rest = some (0, rest) := by
  rcases h with h | ⟨e, h⟩
  · rw [h]; rfl
  · rw [h]; rfl

theorem split_value (ip dr : List Char) :
    (natOfDigits (ip ++ stripZeros dr) : ℚ) * (10 : ℚ) ^ (-((stripZeros dr).length : Int))
      = (natOfDigits (ip ++ dr) : ℚ) * (10 : ℚ) ^ (-(dr.length : Int)) := by
  obtain ⟨z, hz⟩ := stripZeros_spec dr
  have h1 : natOfDigits (ip ++ dr) = natOfDigits (ip ++ stripZeros dr) * 10 ^ z := by
    conv_lhs => rw [hz, ← List.append_assoc, natOfDigits_append, natOfDigits_zeros]
    simp
  have h2 : (dr.length : Int) = ((stripZeros dr).length : Int) + z := by
    conv_lhs => rw [hz]
    simp
  rw [h1, h2]
  push_cast
  rw [neg_add, zpow_add₀ (by norm_num : (10 : ℚ) ≠ 0), zpow_neg (10 : ℚ) (z : Int), zpow_natCast]
  field_simp
  ring

theorem scan_mantissa (ds et rest : List Char) (n : Nat) (e : Int) (hn : 1 ≤ n)
    (hlen : n ≤ ds.length) (hds : ∀ c ∈ ds, isDigit c = true)
    (het : ∀ c ∈ (et ++ rest).head?, isDigit c = false ∧ c ≠ '.')
    (hexp : scanExp (et ++ rest) = some (e, rest)) :
    ∃ m : Nat, ∃ p : Int,
      scanFloat (' ' :: (ds.take n ++ ((if stripZeros (ds.drop n) = [] then []
          else '.' :: stripZeros (ds.drop n)) ++ (et ++ rest))))
        = (match decValue (m : Int) p with
          | F32.fin k => some (F32.fin k, rest)
          | _ => none)
      ∧ (m : ℚ) * (10 : ℚ) ^ p
          = (natOfDigits ds : ℚ) * (10 : ℚ) ^ (e - ((ds.length : Int) - n)) := by
  refine ⟨natOfDigits (ds.take n ++ stripZeros (ds.drop n)),
    e - ((stripZeros (ds.drop n)).length : Int), ?_, ?_⟩
  · apply scanFloat_literal _ _ _ _ _ _ _ _ het hexp
    · intro c hc; exact hds c (List.mem_of_mem_take hc)
    · intro h0
      have : (ds.take n).length = 0 := by rw [h0]; rfl
      rw [List.length_take] at this
      omega
    · intro c hc; exact hds c (List.mem_of_mem_drop (stripZeros_subset _ c hc))
  · have h := split_value (ds.take n) (ds.drop n)
    rw [List.take_append_drop] at h
    have hl : ((ds.drop n).length : Int) = (ds.length : Int) - n := by
      rw [List.length_drop]; omega
    rw [hl] at h
    rw [sub_eq_add_neg e, zpow_add₀ (by norm_num : (10 : ℚ) ≠ 0), ← mul_assoc,
      mul_comm (_ : ℚ) ((10 : ℚ) ^ e), mul_assoc, h,
      sub_eq_add_neg e, zpow_add₀ (by norm_num : (10 : ℚ) ≠ 0)]
    ring

theorem scan_showFix_pos (d : Nat) (x : Int) (hd : d < 10 ^ 6) (hx0 : 0 ≤ x) (hx5 : x ≤ 5)
    (rest : List Char) (hr : EndsField rest) :
    ∃ m : Nat, ∃ p : Int,
      scanFloat (' ' :: (showFix d x ++ rest))
        = (match decValue (m : Int) p with
          | F32.fin k => some (F32.fin k, rest)
          | _ => none)
      ∧ (m : ℚ) * (10 : ℚ) ^ p = (d : ℚ) * (10 : ℚ) ^ (x - 5) := by
  obtain ⟨m, p, h1, h2⟩ := scan_mantissa (padDigits 6 d) [] rest (x.toNat + 1) 0 (by omega)
    (by rw [padDigits_length]; omega) (padDigits_digits 6 d)
    (by simpa using endsField_head rest hr) (by simpa using endsField_scanExp rest hr)
  refine ⟨m, p, ?_, ?_⟩
  · rw [← h1]
    unfold showFix
    simp only [hx0, if_true, List.nil_append, List.append_assoc]
  · rw [h2, natOfDigits_padDigits, Nat.mod_eq_of_lt hd, padDigits_length]
    have hx : ((x.toNat : Nat) : Int) = x := Int.toNat_of_nonneg hx0
    have e : (0 : Int) - (((6 : Nat) : Int) - ((x.toNat + 1 : Nat) : Int)) = x - 5 := by
      push_cast; omega
    rw [e]

theorem scanExp_written (x : Int) (rest : List Char) (hr : EndsField rest) :
    scanExp (('e' :: (if x < 0 then '-' else '+')
        :: (if x.natAbs < 10 then '0' :: showNat x.natAbs else showNat x.natAbs)) ++ rest)
      = some (x, rest) := by
  obtain ⟨hne, hdig, hval⟩ := showNat_spec x.natAbs
  set digs := (if x.natAbs < 10 then '0' :: showNat x.natAbs else showNat x.natAbs) with hdigs
  have hd1 : ∀ c ∈ digs, isDigit c = true := by
    intro c hc
    rw [hdigs] at hc
    split at hc
    · rw [List.mem_cons] at hc
      rcases hc with hc | hc
      · rw [hc]; decide
      · exact hdig c hc
    · exact hdig c hc
  have hd2 : digs ≠ [] := by
    rw [hdigs]; split
    · simp
    · exact hne
  have hd3 : natOfDigits digs = x.natAbs := by
    rw [hdigs]; split
    · rw [show '0' :: showNat x.natAbs = ['0'] ++ showNat x.natAbs by rfl, natOfDigits_append, hval]
      simp [natOfDigits, digitVal]
    · exact hval
  obtain ⟨ht1, ht2⟩ := takeWhile_digits digs rest hd1 (fun c hc => (endsField_head rest hr c hc).1)
  have hsign : scanSign ((if x < 0 then '-' else '+') :: (digs ++ rest))
      = (decide (x < 0), digs ++ rest) := by
    by_cases hx : x < 0
    · simp only [hx, if_true, decide_True]; rfl
    · simp only [hx, if_false, decide_False]; rfl
  simp only [List.cons_append, scanExp, true_or, if_true, hsign, ht1, ht2, hd2, if_false, hd3]
  congr 2
  by_cases hx : x < 0
  · simp only [hx, decide_True, if_true]; omega
  · simp only [hx, decide_False, Bool.false_eq_true, if_false]; omega

theorem scan_showSci (d : Nat) (x : Int) (hd : d < 10 ^ 6)
    (rest : List Char) (hr : EndsField rest) :
    ∃ m : Nat, ∃ p : Int,
      scanFloat (' ' :: (showSci d x ++ rest))
        = (match decValue (m : Int) p with
          | F32.fin k => some (F32.fin k, rest)
          | _ => none)
      ∧ (m : ℚ) * (10 : ℚ) ^ p = (d : ℚ) * (10 : ℚ) ^ (x - 5) := by
  obtain ⟨m, p, h1, h2⟩ := scan_mantissa (padDigits 6 d)
    ('e' :: (if x < 0 then '-' else '+')
      :: (if x.natAbs < 10 then '0' :: showNat x.natAbs else showNat x.natAbs)) rest 1 x
    (le_refl 1) (by rw [padDigits_length]; norm_num) (padDigits_digits 6 d)
    (by intro c hc
        simp only [List.cons_append, List.head?_cons, Option.mem_def, Option.some.injEq] at hc
        rw [← hc]; exact ⟨by decide, by decide⟩)
    (scanExp_written x rest hr)
  refine ⟨m, p, ?_, ?_⟩
  · rw [← h1]
    unfold showSci
    simp only [List.append_assoc, List.cons_append, List.nil_append]
  · rw [h2, natOfDigits_padDigits, Nat.mod_eq_of_lt hd, padDigits_length]
    have e : x - (((6 : Nat) : Int) - ((1 : Nat) : Int)) = x - 5 := by push_cast; omega
    rw [e]

theorem scan_showFix_neg (d : Nat) (x : Int) (hd0 : 1 ≤ d) (hd : d < 10 ^ 6) (hx : x < 0)
    (rest : List Char) (hr : EndsField rest) :
    ∃ m : Nat, ∃ p : Int,
      scanFloat (' ' :: (showFix d x ++ rest))
        = (match decValue (m : Int) p with
          | F32.fin k => some (F32.fin k, rest)
          | _ => none)
      ∧ (m : ℚ) * (10 : ℚ) ^ p = (d : ℚ) * (10 : ℚ) ^ (x - 5) := by
  set ds := padDigits 6 d with hds
  set j := x.natAbs - 1 with hj
  have hval : natOfDigits ds = d := by rw [hds, natOfDigits_padDigits, Nat.mod_eq_of_lt hd]
  have hlen : ds.length = 6 := padDigits_length 6 d
  have hsne : stripZeros ds ≠ [] := by
    intro h0
    obtain ⟨z, hz⟩ := stripZeros_spec ds
    rw [h0, List.nil_append] at hz
    rw [hz, natOfDigits_zeros] at hval
    omega
  have hfpne : List.replicate j '0' ++ stripZeros ds ≠ [] := by
    intro h0
    exact hsne (List.append_eq_nil.mp h0).2
  have hfp : ∀ c ∈ List.replicate j '0' ++ stripZeros ds, isDigit c = true := by
    intro c hc
    rw [List.mem_append] at hc
    rcases hc with hc | hc
    · rw [(List.mem_replicate.mp hc).2]; decide
    · exact padDigits_digits 6 d c (stripZeros_subset _ c hc)
  have hlit := scanFloat_literal ['0'] (List.replicate j '0' ++ stripZeros ds) [] rest 0
    (by intro c hc; rw [List.mem_singleton] at hc; rw [hc]; decide) (by simp) hfp
    (by simpa using endsField_head rest hr) (by simpa using endsField_scanExp rest hr)
  refine ⟨natOfDigits (['0'] ++ (List.replicate j '0' ++ stripZeros ds)),
    0 - ((List.replicate j '0' ++ stripZeros ds).length : Int), ?_, ?_⟩
  · rw [← hlit]
    unfold showFix
    have hx0 : ¬ (0 ≤ x) := by omega
    simp only [hx0, if_false, hfpne, List.nil_append, List.cons_append, List.append_assoc,
      List.singleton_append]
  · have h := split_value ('0' :: List.replicate j '0') ds
    have e1 : natOfDigits ('0' :: List.replicate j '0' ++ ds) = d := by
      rw [show '0' :: List.replicate j '0' = List.replicate (j + 1) '0' by
        rw [List.replicate_succ], natOfDigits_append, natOfDigits_zeros, hval]
      simp
    rw [e1, hlen] at h
    have e2 : ['0'] ++ (List.replicate j '0' ++ stripZeros ds)
        = '0' :: List.replicate j '0' ++ stripZeros ds := by simp
    rw [e2]
    have e3 : (0 : Int) - ((List.replicate j '0' ++ stripZeros ds).length : Int)
        = -((stripZeros ds).length : Int) + -(j : Int) := by
      rw [List.length_append, List.length_replicate]; push_cast; ring
    have e4 : x - 5 = -((6 : Nat) : Int) + -(j : Int) := by
      rw [hj]; push_cast; omega
    rw [e3, e4, zpow_add₀ (by norm_num : (10 : ℚ) ≠ 0), ← mul_assoc, h,
      zpow_add₀ (by norm_num : (10 : ℚ) ≠ 0), mul_assoc]

theorem decValue_bound (m : Nat) (p : Int) (hs : (m : ℚ) * (10 : ℚ) ^ p ≤ 2 ^ 40) :
    ∃ k : Nat, decValue (m : Int) p = F32.fin (k : Int)
      ∧ |(k : ℚ) - (m : ℚ) * (10 : ℚ) ^ p * 2 ^ 149|
          ≤ 1 / 2 + (m : ℚ) * (10 : ℚ) ^ p * 2 ^ 149 / 2 ^ 24 := by
  unfold decValue F32.ofFrac
  by_cases hp : 0 ≤ p
  · simp only [hp, if_true]
    have e : (10 : ℚ) ^ p = ((10 ^ p.toNat : Nat) : ℚ) := by
      push_cast; rw [← zpow_natCast, Int.toNat_of_nonneg hp]
    rw [e] at hs ⊢
    have hn : m * 10 ^ p.toNat * F32.one ≤ 2 ^ 200 * 1 := by
      have h1 : m * 10 ^ p.toNat ≤ 2 ^ 40 := by exact_mod_cast hs
      have h2 : F32.one = 2 ^ 149 := rfl
      rw [h2]
      calc m * 10 ^ p.toNat * 2 ^ 149 ≤ 2 ^ 40 * 2 ^ 149 := Nat.mul_le_mul_right _ h1
        _ ≤ 2 ^ 200 * 1 := by norm_num
    obtain ⟨k, hk, hb⟩ := ofUnits_bound (m * 10 ^ p.toNat * F32.one) 1 (by norm_num) hn
    refine ⟨k, ?_, ?_⟩
    · rw [← hk]; congr 1; push_cast; ring
    · have : ((m * 10 ^ p.toNat * F32.one : Nat) : ℚ) / ((1 : Nat) : ℚ)
          = (m : ℚ) * ((10 ^ p.toNat : Nat) : ℚ) * 2 ^ 149 := by
        unfold F32.one; push_cast; ring
      rw [this] at hb
      exact hb
  · simp only [hp, if_false]
    have hp' : 0 ≤ -p := by omega
    have e : (10 : ℚ) ^ p = 1 / ((10 ^ (-p).toNat : Nat) : ℚ) := by
      push_cast
      rw [← zpow_natCast, Int.toNat_of_nonneg hp', zpow_neg]; simp
    rw [e] at hs ⊢
    have hdpos : 0 < 10 ^ (-p).toNat := by positivity
    have hdq : (0 : ℚ) < ((10 ^ (-p).toNat : Nat) : ℚ) := by exact_mod_cast hdpos
    have hn : m * F32.one ≤ 2 ^ 200 * 10 ^ (-p).toNat := by
      have h1 : (m : ℚ) ≤ 2 ^ 40 * ((10 ^ (-p).toNat : Nat) : ℚ) := by
        rw [mul_one_div, div_le_iff₀ hdq] at hs; exact hs
      have h1' : m ≤ 2 ^ 40 * 10 ^ (-p).toNat := by exact_mod_cast h1
      have h2 : F32.one = 2 ^ 149 := rfl
      rw [h2]
      calc m * 2 ^ 149 ≤ 2 ^ 40 * 10 ^ (-p).toNat * 2 ^ 149 := Nat.mul_le_mul_right _ h1'
        _ ≤ 2 ^ 200 * 10 ^ (-p).toNat := by
          have : 2 ^ 40 * 10 ^ (-p).toNat * 2 ^ 149 = 2 ^ 189 * 10 ^ (-p).toNat := by ring
          rw [this]
          exact Nat.mul_le_mul_right _ (by norm_num)
    obtain ⟨k, hk, hb⟩ := ofUnits_bound (m * F32.one) (10 ^ (-p).toNat) hdpos hn
    refine ⟨k, ?_, ?_⟩
    · rw [← hk]; congr 1
    · have : ((m * F32.one : Nat) : ℚ) / ((10 ^ (-p).toNat : Nat) : ℚ)
          = (m : ℚ) * (1 / ((10 ^ (-p).toNat : Nat) : ℚ)) * 2 ^ 149 := by
        unfold F32.one; push_cast; ring
      rw [this] at hb
      exact hb

theorem scan_showMag (k : Nat) (hk : 1 ≤ k) (rest : List Char) (hr : EndsField rest) :
    ∃ m : Nat, ∃ p : Int,
      scanFloat (' ' :: (showMag k ++ rest))
        = (match decValue (m : Int) p with
          | F32.fin j => some (F32.fin j, rest)
          | _ => none)
      ∧ |(m : ℚ) * (10 : ℚ) ^ p - (k : ℚ) / 2 ^ 149| ≤ (k : ℚ) / 2 ^ 149 / 200000 := by
  obtain ⟨h1, h2, h3⟩ := decMant_spec k F32.one hk (by unfold F32.one; exact Nat.one_le_two_pow)
  have hone : ((F32.one : Nat) : ℚ) = 2 ^ 149 := by unfold F32.one; push_cast; rfl
  rw [hone] at h3
  unfold showMag
  simp only
  generalize decMant k F32.one = dx at h1 h2 h3
  obtain ⟨d, x⟩ := dx
  simp only at h1 h2 h3 ⊢
  by_cases hsci : x < -4 ∨ 6 ≤ x
  · simp only [hsci, if_true]
    obtain ⟨m, p, hm1, hm2⟩ := scan_showSci d x h2 rest hr
    exact ⟨m, p, hm1, by rw [hm2]; exact h3⟩
  · simp only [hsci, if_false]
    by_cases hx0 : 0 ≤ x
    · obtain ⟨m, p, hm1, hm2⟩ := scan_showFix_pos d x h2 hx0 (by omega) rest hr
      exact ⟨m, p, hm1, by rw [hm2]; exact h3⟩
    · obtain ⟨m, p, hm1, hm2⟩ := scan_showFix_neg d x (by omega) h2 (by omega) rest hr
      exact ⟨m, p, hm1, by rw [hm2]; exact h3⟩

theorem scan_showFloat (k : Nat) (hk : k ≤ 2 ^ 180) (rest : List Char) (hr : EndsField rest) :
    ∃ k' : Nat,
      scanFloat (' ' :: (showFloat (F32.fin (k : Int)) ++ rest)) = some (F32.fin (k' : Int), rest)
      ∧ |(k' : ℚ) - (k : ℚ)| ≤ 1 / 2 + (k : ℚ) * (1 / 200000 + 1 / 2 ^ 23) := by
  by_cases hk0 : k = 0
  · subst hk0
    refine ⟨0, ?_, by norm_num⟩
    have hlit := scanFloat_literal ['0'] [] [] rest 0
      (by intro c hc; rw [List.mem_singleton] at hc; rw [hc]; decide) (by simp) (by simp)
      (by simpa using endsField_head rest hr) (by simpa using endsField_scanExp rest hr)
    have hv : decValue ((natOfDigits (['0'] ++ []) : Nat) : Int) (0 - (([] : List Char).length : Int))
        = F32.fin 0 := by decide
    rw [hv] at hlit
    simpa [showFloat] using hlit
  · have hk1 : 1 ≤ k := by omega
    obtain ⟨m, p, hm, hb⟩ := scan_showMag k hk1 rest hr
    have hkq : (k : ℚ) ≤ 2 ^ 180 := by exact_mod_cast hk
    have hk0q : (0 : ℚ) ≤ k := by positivity
    rw [abs_le] at hb
    have hv : (0 : ℚ) ≤ (k : ℚ) / 2 ^ 149 := by positivity
    have hvle : (k : ℚ) / 2 ^ 149 ≤ 2 ^ 31 := by
      rw [div_le_iff₀ (by positivity)]
      calc (k : ℚ) ≤ 2 ^ 180 := hkq
        _ = 2 ^ 31 * 2 ^ 149 := by norm_num
    have hP : (m : ℚ) * (10 : ℚ) ^ p ≤ 2 ^ 40 := by
      have : (k : ℚ) / 2 ^ 149 / 200000 ≤ 2 ^ 31 := by
        have : (k : ℚ) / 2 ^ 149 / 200000 ≤ (k : ℚ) / 2 ^ 149 := by
          apply div_le_self hv; norm_num
        linarith
      have h40 : (2 : ℚ) ^ 31 + 2 ^ 31 ≤ 2 ^ 40 := by norm_num
      linarith [hb.2]
    obtain ⟨k', hk', hb'⟩ := decValue_bound m p hP
    refine ⟨k', ?_, ?_⟩
    · have hs : showFloat (F32.fin (k : Int)) = showMag k := by
        have h1 : ¬ ((k : Int) = 0) := by omega
        have h2 : ¬ ((k : Int) < 0) := by omega
        simp only [showFloat, h1, h2, if_false, Int.natAbs_ofNat]
      rw [hs, hm, hk']
    · rw [abs_le] at hb' ⊢
      have e : (m : ℚ) * (10 : ℚ) ^ p * 2 ^ 149
          = (k : ℚ) + ((m : ℚ) * (10 : ℚ) ^ p - (k : ℚ) / 2 ^ 149) * 2 ^ 149 := by
        field_simp
      set t := (m : ℚ) * (10 : ℚ) ^ p - (k : ℚ) / 2 ^ 149 with ht
      have ht1 : t * 2 ^ 149 ≤ (k : ℚ) / 200000 := by
        have := mul_le_mul_of_nonneg_right hb.2 (show (0 : ℚ) ≤ 2 ^ 149 by positivity)
        have e2 : (k : ℚ) / 2 ^ 149 / 200000 * 2 ^ 149 = (k : ℚ) / 200000 := by field_simp; ring
        linarith
      have ht2 : -((k : ℚ) / 200000) ≤ t * 2 ^ 149 := by
        have := mul_le_mul_of_nonneg_right hb.1 (show (0 : ℚ) ≤ 2 ^ 149 by positivity)
        have e2 : -((k : ℚ) / 2 ^ 149 / 200000) * 2 ^ 149 = -((k : ℚ) / 200000) := by field_simp; ring
        linarith
      rw [e] at hb'
      have h24 : ((k : ℚ) + t * 2 ^ 149) / 2 ^ 24 ≤ (k : ℚ) * (1 / 2 ^ 23) := by
        rw [div_le_iff₀ (by positivity)]
        have : (k : ℚ) / 200000 ≤ k := by apply div_le_self hk0q; norm_num
        have h1 : (k : ℚ) * (1 / 2 ^ 23) * 2 ^ 24 = 2 * k := by norm_num; ring
        linarith
      constructor <;> linarith [hb'.1, hb'.2]

/-! ## The arithmetic of the codec -/

theorem ofInt_exact (n : Nat) (h : n < 2 ^ 24) :
    F32.ofInt (n : Int) = F32.fin ((n * 2 ^ 149 : Nat) : Int) := by
  have h1 := ofUnits_exact n 149 1 h (by norm_num) (by
    unfold F32.maxK
    calc n * 2 ^ 149 ≤ 2 ^ 24 * 2 ^ 149 := Nat.mul_le_mul_right _ (le_of_lt h)
      _ ≤ (2 ^ 24 - 1) * 2 ^ 253 := by norm_num)
  unfold F32.ofInt F32.ofFrac F32.one
  rw [← h1]
  congr 1
  push_cast
  ring

theorem div_fin (a b : Nat) (hb : 0 < b) :
    F32.div (F32.fin (a : Int)) (F32.fin (b : Int)) = F32.ofUnits ((a * F32.one : Nat) : Int) b := by
  have hne : ¬ ((b : Int) = 0) := by omega
  have hs : (b : Int).sign = 1 := Int.sign_eq_one_of_pos (by omega)
  simp only [F32.div, hne, if_false, hs, Int.natAbs_ofNat, mul_one]
  congr 1

theorem add_fin (a b : Nat) :
    F32.add (F32.fin (a : Int)) (F32.fin (b : Int)) = F32.ofUnits ((a + b : Nat) : Int) 1 := by
  simp only [F32.add]
  congr 1

theorem exact_max (m j : Nat) (hm : m < 2 ^ 24) (hj : j ≤ 253) : m * 2 ^ j ≤ F32.maxK := by
  unfold F32.maxK
  have h1 : m ≤ 2 ^ 24 - 1 := by omega
  have h2 : 2 ^ j ≤ 2 ^ 253 := Nat.pow_le_pow_right (by norm_num) hj
  exact Nat.mul_le_mul h1 h2

theorem ofUnits_valq (n : Int) (d : Nat) (hd : 0 < d) (hq : |(n : ℚ)| ≤ 2 ^ 200 * (d : ℚ)) :
    ∃ k : Int, F32.ofUnits n d = F32.fin k
      ∧ |(k : ℚ) - (n : ℚ) / d| ≤ 1 / 2 + |(n : ℚ) / d| / 2 ^ 24 := by
  have hn : |n| ≤ 2 ^ 200 * (d : Int) := by
    have : ((|n| : Int) : ℚ) ≤ ((2 ^ 200 * (d : Int) : Int) : ℚ) := by
      push_cast; exact hq
    exact_mod_cast this
  obtain ⟨k, h1, h2, _⟩ := ofUnits_val n d hd hn
  exact ⟨k, h1, h2⟩

theorem sub_fin (a b : Int) :
    F32.sub (F32.fin a) (F32.fin b) = F32.ofUnits (a - b) 1 := by
  simp only [F32.sub, F32.neg, F32.add]
  rw [sub_eq_add_neg]

theorem mul_fin (a b : Int) :
    F32.mul (F32.fin a) (F32.fin b) = F32.ofUnits (a * b) F32.one := by
  simp only [F32.mul]

/-! ## A written line, read back -/

theorem scanInt_showInt (c : Int) (h1 : -(2 ^ 31 : Int) ≤ c) (h2 : c < 2 ^ 31) (e : List Char) :
    scanInt (showInt c ++ ' ' :: e) = some (c, ' ' :: e) := by
  obtain ⟨hne, hdig, hval⟩ := showNat_spec c.natAbs
  obtain ⟨ht1, ht2⟩ := takeWhile_digits (showNat c.natAbs) (' ' :: e) hdig
    (by intro x hx; simp only [List.head?_cons, Option.mem_def, Option.some.injEq] at hx
        rw [← hx]; decide)
  obtain ⟨d0, ds, hds⟩ : ∃ d0 ds, showNat c.natAbs = d0 :: ds := by
    cases hs : showNat c.natAbs with
    | nil => exact absurd hs hne
    | cons d0 ds => exact ⟨d0, ds, rfl⟩
  have hd0 : isDigit d0 = true := hdig d0 (by rw [hds]; simp)
  have hsp : isSpace d0 = false := (digit_not_special d0 hd0).1
  unfold scanInt showInt
  by_cases hc : c < 0
  · simp only [hc, if_true, List.cons_append]
    have hskip : skipWs ('-' :: (showNat c.natAbs ++ ' ' :: e))
        = '-' :: (showNat c.natAbs ++ ' ' :: e) := by
      have : isSpace '-' = false := by decide
      simp only [skipWs, List.dropWhile, this]
    have hsign : scanSign ('-' :: (showNat c.natAbs ++ ' ' :: e))
        = (true, showNat c.natAbs ++ ' ' :: e) := rfl
    simp only [hskip, hsign, ht1, ht2, hne, if_false, hval, if_true]
    have hv : -(c.natAbs : Int) = c := by omega
    rw [hv, if_pos ⟨h1, h2⟩]
  · simp only [hc, if_false]
    have hskip : skipWs (showNat c.natAbs ++ ' ' :: e) = showNat c.natAbs ++ ' ' :: e := by
      rw [hds]
      simp only [skipWs, List.cons_append, List.dropWhile, hsp]
      rfl
    have hsign : scanSign (showNat c.natAbs ++ ' ' :: e)
        = (false, showNat c.natAbs ++ ' ' :: e) := by
      rw [hds, List.cons_append]
      exact scanSign_digit d0 _ hd0
    simp only [hskip, hsign, ht1, ht2, hne, if_false, hval, Bool.false_eq_true]
    have hv : (c.natAbs : Int) = c := by omega
    rw [hv, if_pos ⟨h1, h2⟩]

/-! ## Saving and loading a BoxSet -/

theorem save_load_boxes (a : YoloAnnotator)
    (hcreate : a.canCreate (annotationPath a.imagePath) = true) :
    a.saveAnnotations.loadAnnotations.currentBoxes
      = (a.currentBoxes.map (fun box => formatBox box (F32.ofInt a.currentImage.cols)
          (F32.ofInt a.currentImage.rows))).filterMap
        (fun line => parseLine line (F32.ofInt a.currentImage.cols)
          (F32.ofInt a.currentImage.rows)) := by
  have hfile := saveAnnotations_files a hcreate
  rw [loadAnnotations_boxes _ _ hfile]
  rw [saveAnnotations_ok a hcreate]
  rfl

/-! ## Committing a box and coming back to it -/

theorem loadAnnotations_shape (x : YoloAnnotator) :
    x.loadAnnotations = { x with currentBoxes := x.loadAnnotations.currentBoxes } := by
  unfold YoloAnnotator.loadAnnotations
  cases x.files (annotationPath x.imagePath) <;> rfl

theorem loadCurrentImage_shape (x : YoloAnnotator) :
    x.loadCurrentImage = { x with
      currentImage := x.loadCurrentImage.currentImage
      currentBoxes := x.loadCurrentImage.currentBoxes } := by
  unfold YoloAnnotator.loadCurrentImage
  by_cases h : x.currentImageIndex < x.imageFiles.length
  · by_cases h2 : (x.imread x.imagePath).empty = true
    · simp only [h, if_true, h2]
    · simp only [h, if_true, h2, Bool.false_eq_true, if_false]
      have hs := loadAnnotations_shape ({ x with currentImage := x.imread x.imagePath })
      generalize ({ x with currentImage := x.imread x.imagePath } : YoloAnnotator).loadAnnotations
        = z at hs ⊢
      rw [hs]
  · simp only [h, if_false]

theorem loadCurrentImage_decoded (x : YoloAnnotator) (text : List (List Char))
    (hidx : x.currentImageIndex < x.imageFiles.length)
    (hne : (x.imread x.imagePath).empty = false)
    (hf : x.files (annotationPath x.imagePath) = some text) :
    x.loadCurrentImage.currentBoxes
      = text.filterMap (fun line => parseLine line (F32.ofInt (x.imread x.imagePath).cols)
          (F32.ofInt (x.imread x.imagePath).rows)) := by
  unfold YoloAnnotator.loadCurrentImage
  simp only [hidx, if_true, hne, Bool.false_eq_true, if_false]
  exact loadAnnotations_boxes _ text hf

theorem drag_state (a : YoloAnnotator) (s e : Point)
    (hthr : 5 < wrapInt |e.x - s.x| ∧ 5 < wrapInt |e.y - s.y|) :
    (a.onMouse EVENT_LBUTTONDOWN s.x s.y).onMouse EVENT_LBUTTONUP e.x e.y
      = ({ a with
            startPoint := ⟨s.x, s.y⟩
            endPoint := ⟨e.x, e.y⟩
            isDrawing := false
            currentBoxes := a.currentBoxes ++ [BoundingBox.mk
              ⟨min s.x e.x, min s.y e.y, wrapInt |e.x - s.x|, wrapInt |e.y - s.y|⟩ a.currentClass] }
          : YoloAnnotator).saveAnnotations := by
  simp only [YoloAnnotator.onMouse, EVENT_MOUSEMOVE, EVENT_LBUTTONDOWN, EVENT_LBUTTONUP,
    rect_of_drag]
  simp only [show ¬ ((4 : Int) = 1) by decide, show ¬ ((4 : Int) = 0) by decide, if_false, if_true,
    gt_iff_lt, hthr, and_self]

theorem drag_committed (a : YoloAnnotator) (s e : Point)
    (hthr : 5 < wrapInt |e.x - s.x| ∧ 5 < wrapInt |e.y - s.y|)
    (hcreate : a.canCreate (annotationPath a.imagePath) = true) :
    (a.onMouse EVENT_LBUTTONDOWN s.x s.y).onMouse EVENT_LBUTTONUP e.x e.y
      = { a with
          startPoint := ⟨s.x, s.y⟩
          endPoint := ⟨e.x, e.y⟩
          isDrawing := false
          currentBoxes := a.currentBoxes ++ [BoundingBox.mk
            ⟨min s.x e.x, min s.y e.y, wrapInt |e.x - s.x|, wrapInt |e.y - s.y|⟩ a.currentClass]
          files := fun p => if p = annotationPath a.imagePath then
              some ((a.currentBoxes ++ [BoundingBox.mk
                ⟨min s.x e.x, min s.y e.y, wrapInt |e.x - s.x|, wrapInt |e.y - s.y|⟩ a.currentClass]).map
                (fun box => formatBox box (F32.ofInt a.currentImage.cols)
                  (F32.ofInt a.currentImage.rows)))
            else a.files p
          processedCount := (a.processedCount + 1) % 2 ^ 64 } := by
  rw [drag_state a s e hthr]
  exact saveAnnotations_ok ({ a with
      startPoint := ⟨s.x, s.y⟩
      endPoint := ⟨e.x, e.y⟩
      isDrawing := false
      currentBoxes := a.currentBoxes ++ [BoundingBox.mk
        ⟨min s.x e.x, min s.y e.y, wrapInt |e.x - s.x|, wrapInt |e.y - s.y|⟩ a.currentClass] } : YoloAnnotator)
    hcreate

theorem run_next_cases (x : YoloAnnotator) (t : Int) (y : YoloAnnotator)
    (h : x.run 110 t = some y) :
    y = x ∨ y = ({ x with currentImageIndex := x.currentImageIndex + 1 }
      : YoloAnnotator).loadCurrentImage := by
  simp only [YoloAnnotator.run, show ¬ (110 = 27) by decide, if_false, true_or, if_true] at h
  split at h
  · right; exact (Option.some.inj h).symm
  · left; exact (Option.some.inj h).symm

theorem run_prev_pos (x : YoloAnnotator) (t : Int) (hpos : 0 < x.currentImageIndex) :
    x.run 112 t = some ({ x with currentImageIndex := x.currentImageIndex - 1 }
      : YoloAnnotator).loadCurrentImage := by
  simp only [YoloAnnotator.run, show ¬ (112 = 27) by decide,
    show ¬ ((112 : Nat) = 110 ∨ (112 : Nat) = 78) by decide, if_false, true_or, if_true,
    gt_iff_lt, hpos]

theorem loadCurrentImage_files (x : YoloAnnotator) :
    x.loadCurrentImage.files = x.files := by
  rw [loadCurrentImage_shape]

theorem loadCurrentImage_imread (x : YoloAnnotator) :
    x.loadCurrentImage.imread = x.imread := by
  rw [loadCurrentImage_shape]

theorem next_frame (x : YoloAnnotator) (t : Int) (y : YoloAnnotator)
    (h : x.run 110 t = some y) :
    y.files = x.files ∧ y.imread = x.imread ∧ y.imageFiles = x.imageFiles := by
  rcases run_next_cases x t y h with h | h
  · rw [h]; exact ⟨rfl, rfl, rfl⟩
  · rw [h]
    exact ⟨loadCurrentImage_files _, loadCurrentImage_imread _, loadCurrentImage_imageFiles _⟩

theorem previous_loads (y : YoloAnnotator) (t : Int) (z : YoloAnnotator) (i : Nat)
    (text : List (List Char)) (hi : y.currentImageIndex = i + 1)
    (hidx : i < y.imageFiles.length)
    (hne : (y.imread (y.imageFiles.getD i "")).empty = false)
    (hf : y.files (annotationPath (y.imageFiles.getD i "")) = some text)
    (h : y.run 112 t = some z) :
    z.currentImageIndex = i
    ∧ z.currentBoxes = text.filterMap (fun line =>
        parseLine line (F32.ofInt (y.imread (y.imageFiles.getD i "")).cols)
          (F32.ofInt (y.imread (y.imageFiles.getD i "")).rows)) := by
  rw [run_prev_pos y t (by omega)] at h
  have hz := (Option.some.inj h).symm
  have hsub : y.currentImageIndex - 1 = i := by omega
  rw [hz, hsub]
  refine ⟨loadCurrentImage_index _, ?_⟩
  exact loadCurrentImage_decoded
    ({ y with currentImageIndex := i } : YoloAnnotator) text hidx hne hf

/-! ## Class rotation -/

theorem toInt32_small (n : Nat) (h : n < 2 ^ 31) : toInt32 n = n := by
  unfold toInt32
  have h1 : (n + 2 ^ 31) % 2 ^ 32 = n + 2 ^ 31 := Nat.mod_eq_of_lt (by omega)
  rw [h1]
  push_cast
  ring

theorem changeClass_frame (a : YoloAnnotator) :
    a.changeClass.classNames = a.classNames ∧ a.changeClass.currentBoxes = a.currentBoxes
    ∧ a.changeClass.files = a.files ∧ a.changeClass.processedCount = a.processedCount
    ∧ a.changeClass.currentImageIndex = a.currentImageIndex
    ∧ a.changeClass.imageFiles = a.imageFiles
    ∧ a.changeClass.isDrawing = a.isDrawing := by
  cases a
  exact ⟨rfl, rfl, rfl, rfl, rfl, rfl, rfl⟩

theorem run_changeClass (a : YoloAnnotator) (t : Int) :
    a.run 99 t = some a.changeClass ∧ a.run 67 t = some a.changeClass := by
  cases a
  exact ⟨rfl, rfl⟩

theorem changeClass_value (a : YoloAnnotator) (h0 : 0 ≤ a.currentClass)
    (hi : a.currentClass < a.classNames.length) (h31 : a.classNames.length < 2 ^ 31) :
    a.changeClass.currentClass = (a.currentClass + 1) % a.classNames.length := by
  obtain ⟨i, hi0⟩ := Int.eq_ofNat_of_zero_le h0
  have hlt : i < a.classNames.length := by omega
  have h64 : ((i : Int) + 1) % 2 ^ 64 = ((i + 1 : Nat) : Int) := by
    have : (i + 1) % 2 ^ 64 = i + 1 := Nat.mod_eq_of_lt (by omega)
    omega
  have hmod : (i + 1) % a.classNames.length < 2 ^ 31 :=
    lt_of_lt_of_le (Nat.mod_lt _ (by omega)) (by omega)
  unfold YoloAnnotator.changeClass
  simp only
  rw [hi0, h64, Int.toNat_ofNat, toInt32_small _ hmod]
  push_cast
  rfl

theorem changeClass_iterate (k : Nat) (a : YoloAnnotator) (h0 : 0 ≤ a.currentClass)
    (hi : a.currentClass < a.classNames.length) (h31 : a.classNames.length < 2 ^ 31) :
    (YoloAnnotator.changeClass^[k] a).classNames = a.classNames
    ∧ (YoloAnnotator.changeClass^[k] a).currentBoxes = a.currentBoxes
    ∧ (YoloAnnotator.changeClass^[k] a).files = a.files
    ∧ (YoloAnnotator.changeClass^[k] a).currentClass
        = (a.currentClass + k) % a.classNames.length := by
  have hpos : (0 : Int) < a.classNames.length := lt_of_le_of_lt h0 hi
  induction k with
  | zero =>
    rw [Function.iterate_zero, id_eq, Nat.cast_zero, add_zero]
    exact ⟨rfl, rfl, rfl, (Int.emod_eq_of_lt h0 hi).symm⟩
  | succ k ih =>
    obtain ⟨hn, hb, hf, hc⟩ := ih
    rw [Function.iterate_succ_apply']
    obtain ⟨fn, fb, ff, -⟩ := changeClass_frame (YoloAnnotator.changeClass^[k] a)
    refine ⟨fn.trans hn, fb.trans hb, ff.trans hf, ?_⟩
    have hv := changeClass_value (YoloAnnotator.changeClass^[k] a)
      (by rw [hc]; exact Int.emod_nonneg _ (ne_of_gt hpos))
      (by rw [hc, hn]; exact Int.emod_lt_of_pos _ hpos) (by rw [hn]; exact h31)
    rw [hv, hc, hn, Int.add_emod, Int.emod_emod, ← Int.add_emod, Nat.cast_succ, add_assoc]

/-- C11 (class rotation): with `c` classes, `c < 2 ^ 31` so that every id is an
`int`, and the class cursor at `i`, `0 <= i < c`, the key `c` (or `C`) sets the
cursor to `(i + 1) mod c`, again in `[0, c)`; pressing it `c` times brings the
cursor back to `i`; and however often it is pressed, the BoxSet and the files on
disk stay as they were. -/
theorem C11_class_rotation (a : YoloAnnotator) (typed : Int) (h0 : 0 ≤ a.currentClass)
    (hi : a.currentClass < a.classNames.length) (h31 : a.classNames.length < 2 ^ 31) :
    a.run 99 typed = some a.changeClass ∧ a.run 67 typed = some a.changeClass
    ∧ a.changeClass.currentClass = (a.currentClass + 1) % a.classNames.length
    ∧ 0 ≤ a.changeClass.currentClass
    ∧ a.changeClass.currentClass < a.classNames.length
    ∧ (YoloAnnotator.changeClass^[a.classNames.length] a).currentClass = a.currentClass
    ∧ ∀ k, (YoloAnnotator.changeClass^[k] a).currentBoxes = a.currentBoxes
        ∧ (YoloAnnotator.changeClass^[k] a).files = a.files := by
  have hpos : (0 : Int) < a.classNames.length := lt_of_le_of_lt h0 hi
  have hv := changeClass_value a h0 hi h31
  refine ⟨(run_changeClass a typed).1, (run_changeClass a typed).2, hv, ?_, ?_, ?_, ?_⟩
  · rw [hv]; exact Int.emod_nonneg _ (ne_of_gt hpos)
  · rw [hv]; exact Int.emod_lt_of_pos _ hpos
  · rw [(changeClass_iterate a.classNames.length a h0 hi h31).2.2.2, Int.add_emod_self]
    exact Int.emod_eq_of_lt h0 hi
  · intro k
    exact ⟨(changeClass_iterate k a h0 hi h31).2.1, (changeClass_iterate k a h0 hi h31).2.2.1⟩

/-- C11 at the sample session: three classes, the cursor at class 0. -/
theorem C11_class_rotation_witness :
    sample.run 99 0 = some sample.changeClass ∧ sample.run 67 0 = some sample.changeClass
    ∧ sample.changeClass.currentClass = (sample.currentClass + 1) % sample.classNames.length
    ∧ 0 ≤ sample.changeClass.currentClass
    ∧ sample.changeClass.currentClass < sample.classNames.length
    ∧ (YoloAnnotator.changeClass^[sample.classNames.length] sample).currentClass
        = sample.currentClass
    ∧ ∀ k, (YoloAnnotator.changeClass^[k] sample).currentBoxes = sample.currentBoxes
        ∧ (YoloAnnotator.changeClass^[k] sample).files = sample.files :=
  C11_class_rotation sample 0 (by decide) (by decide) (by decide)

/-! ## The commands, case by case -/

theorem onMouse_down (a : YoloAnnotator) (x y : Int) :
    a.onMouse 1 x y = { a with startPoint := ⟨x, y⟩, endPoint := ⟨x, y⟩, isDrawing := true } := by
  simp [YoloAnnotator.onMouse, EVENT_LBUTTONDOWN]

theorem onMouse_move (a : YoloAnnotator) (x y : Int) :
    a.onMouse 0 x y = if a.isDrawing then { a with endPoint := ⟨x, y⟩ } else a := by
  simp [YoloAnnotator.onMouse, EVENT_LBUTTONDOWN, EVENT_MOUSEMOVE]

theorem onMouse_up (a : YoloAnnotator) (x y : Int) :
    a.onMouse 4 x y
      = if a.isDrawing then
          if 5 < wrapInt |x - a.startPoint.x| ∧ 5 < wrapInt |y - a.startPoint.y| then
            ({ a with
                endPoint := ⟨x, y⟩, isDrawing := false,
                currentBoxes := a.currentBoxes ++ [BoundingBox.mk
                  ⟨min a.startPoint.x x, min a.startPoint.y y,
                    wrapInt |x - a.startPoint.x|, wrapInt |y - a.startPoint.y|⟩ a.currentClass] }
              : YoloAnnotator).saveAnnotations
          else { a with endPoint := ⟨x, y⟩, isDrawing := false }
        else a := by
  simp only [YoloAnnotator.onMouse, EVENT_MOUSEMOVE, EVENT_LBUTTONDOWN, EVENT_LBUTTONUP,
    rect_of_drag]
  simp only [show ¬ ((4:Int) = 1) by decide, show ¬ ((4:Int) = 0) by decide, if_false, if_true,
    gt_iff_lt]

theorem onMouse_other (a : YoloAnnotator) (event x y : Int) (h1 : event ≠ 1) (h0 : event ≠ 0)
    (h4 : event ≠ 4) : a.onMouse event x y = a := by
  simp [YoloAnnotator.onMouse, EVENT_LBUTTONDOWN, EVENT_MOUSEMOVE, EVENT_LBUTTONUP, h1, h0, h4]

theorem run_next (a : YoloAnnotator) (key : Nat) (typed : Int) (hk : key = 110 ∨ key = 78) :
    a.run key typed
      = if a.currentImageIndex < (a.imageFiles.length + 2 ^ 64 - 1) % 2 ^ 64 then
          some ({ a with currentImageIndex := a.currentImageIndex + 1 }
            : YoloAnnotator).loadCurrentImage
        else some a := by
  have h27 : key ≠ 27 := by omega
  simp only [YoloAnnotator.run, h27, hk, if_false, if_true]

theorem run_previous (a : YoloAnnotator) (key : Nat) (typed : Int) (hk : key = 112 ∨ key = 80) :
    a.run key typed
      = if a.currentImageIndex > 0 then
          some ({ a with currentImageIndex := a.currentImageIndex - 1 }
            : YoloAnnotator).loadCurrentImage
        else some a := by
  have h27 : key ≠ 27 := by omega
  have hn : ¬ (key = 110 ∨ key = 78) := by omega
  simp only [YoloAnnotator.run, h27, hn, hk, if_false, if_true]

theorem run_class (a : YoloAnnotator) (key : Nat) (typed : Int) (hk : key = 99 ∨ key = 67) :
    a.run key typed = some a.changeClass := by
  have h27 : key ≠ 27 := by omega
  have hn : ¬ (key = 110 ∨ key = 78) := by omega
  have hp : ¬ (key = 112 ∨ key = 80) := by omega
  unfold YoloAnnotator.changeClass
  simp only [YoloAnnotator.run, h27, hn, hp, hk, if_false, if_true]

theorem run_delete (a : YoloAnnotator) (key : Nat) (typed : Int) (hk : key = 100 ∨ key = 68) :
    a.run key typed
      = if a.currentBoxes ≠ [] then
          some ({ a with currentBoxes := a.currentBoxes.dropLast } : YoloAnnotator).saveAnnotations
        else some a := by
  have h27 : key ≠ 27 := by omega
  have hn : ¬ (key = 110 ∨ key = 78) := by omega
  have hp : ¬ (key = 112 ∨ key = 80) := by omega
  have hc : ¬ (key = 99 ∨ key = 67) := by omega
  simp only [YoloAnnotator.run, h27, hn, hp, hc, hk, if_false, if_true]

theorem run_jump (a : YoloAnnotator) (key : Nat) (typed : Int) (hk : key = 106 ∨ key = 74) :
    a.run key typed
      = if 1 ≤ typed ∧ typed ≤ (a.imageFiles.length : Int) then
          some ({ a.saveAnnotations with currentImageIndex := (typed - 1).toNat }
            : YoloAnnotator).loadCurrentImage
        else some a := by
  have h27 : key ≠ 27 := by omega
  have hn : ¬ (key = 110 ∨ key = 78) := by omega
  have hp : ¬ (key = 112 ∨ key = 80) := by omega
  have hc : ¬ (key = 99 ∨ key = 67) := by omega
  have hd : ¬ (key = 100 ∨ key = 68) := by omega
  simp only [YoloAnnotator.run, h27, hn, hp, hc, hd, hk, if_false, if_true,
    YoloAnnotator.jumpToImage]
  by_cases hv : 1 ≤ typed ∧ typed ≤ (a.imageFiles.length : Int)
  · have hv2 : 0 ≤ typed - 1 ∧ typed - 1 < (a.imageFiles.length : Int) := by omega
    simp only [hv, hv2, and_self, if_true]
  · have hv2 : ¬ (0 ≤ typed - 1 ∧ typed - 1 < (a.imageFiles.length : Int)) := by omega
    simp only [hv, hv2, if_false]

theorem run_other (a : YoloAnnotator) (key : Nat) (typed : Int) (h27 : key ≠ 27)
    (hn : ¬ (key = 110 ∨ key = 78)) (hp : ¬ (key = 112 ∨ key = 80))
    (hc : ¬ (key = 99 ∨ key = 67)) (hd : ¬ (key = 100 ∨ key = 68))
    (hj : ¬ (key = 106 ∨ key = 74)) : a.run key typed = some a := by
  simp only [YoloAnnotator.run, h27, hn, hp, hc, hd, hj, if_false]

/-! ## The processed counter -/

theorem loadCurrentImage_processed (x : YoloAnnotator) :
    x.loadCurrentImage.processedCount = x.processedCount := by
  rw [loadCurrentImage_shape]

theorem saveAnnotations_processed (x : YoloAnnotator) :
    x.saveAnnotations.processedCount
      = if x.canCreate (annotationPath x.imagePath) = true then (x.processedCount + 1) % 2 ^ 64
        else x.processedCount := by
  by_cases h : x.canCreate (annotationPath x.imagePath) = true
  · rw [saveAnnotations_ok x h, if_pos h]
  · rw [saveAnnotations_blocked x h, if_neg h]

theorem step_processed (a a1 : YoloAnnotator) (i : Input) (h : a.step i = some a1) :
    a1.processedCount
      = if a.writesOn i = true then (a.processedCount + 1) % 2 ^ 64 else a.processedCount := by
  cases i with
  | mouse event x y =>
    have ha1 : a1 = a.onMouse event x y := (Option.some.inj h).symm
    by_cases h1 : event = 1
    · rw [ha1, h1, onMouse_down]
      simp [YoloAnnotator.writesOn, YoloAnnotator.savesOn, EVENT_LBUTTONUP]
    by_cases h0 : event = 0
    · rw [ha1, h0, onMouse_move]
      have : (if a.isDrawing = true then ({ a with endPoint := ⟨x, y⟩ } : YoloAnnotator)
          else a).processedCount = a.processedCount := by split <;> rfl
      rw [this]
      simp [YoloAnnotator.writesOn, YoloAnnotator.savesOn, EVENT_LBUTTONUP]
    by_cases h4 : event = 4
    · rw [ha1, h4, onMouse_up]
      by_cases hd : a.isDrawing = true
      · by_cases ht : 5 < wrapInt |x - a.startPoint.x| ∧ 5 < wrapInt |y - a.startPoint.y|
        · rw [if_pos hd, if_pos ht, saveAnnotations_processed]
          simp [YoloAnnotator.writesOn, YoloAnnotator.savesOn, EVENT_LBUTTONUP, hd, ht,
            YoloAnnotator.imagePath]
        · rw [if_pos hd, if_neg ht]
          simp [YoloAnnotator.writesOn, YoloAnnotator.savesOn, EVENT_LBUTTONUP, hd, ht]
      · rw [if_neg hd]
        simp [YoloAnnotator.writesOn, YoloAnnotator.savesOn, EVENT_LBUTTONUP, hd]
    · rw [ha1, onMouse_other a event x y h1 h0 h4]
      simp [YoloAnnotator.writesOn, YoloAnnotator.savesOn, EVENT_LBUTTONUP, h4]
  | key key typed =>
    have hrun : a.run key typed = some a1 := h
    by_cases hn : key = 110 ∨ key = 78
    · have hd : ¬ (key = 100 ∨ key = 68) := by omega
      have hj : ¬ (key = 106 ∨ key = 74) := by omega
      rw [run_next a key typed hn] at hrun
      have hw : a.writesOn (Input.key key typed) = false := by
        simp [YoloAnnotator.writesOn, YoloAnnotator.savesOn, hd, hj]
      rw [hw]
      split at hrun
      · rw [← Option.some.inj hrun, loadCurrentImage_processed]; rfl
      · rw [← Option.some.inj hrun]; rfl
    by_cases hp : key = 112 ∨ key = 80
    · have hd : ¬ (key = 100 ∨ key = 68) := by omega
      have hj : ¬ (key = 106 ∨ key = 74) := by omega
      rw [run_previous a key typed hp] at hrun
      have hw : a.writesOn (Input.key key typed) = false := by
        simp [YoloAnnotator.writesOn, YoloAnnotator.savesOn, hd, hj]
      rw [hw]
      split at hrun
      · rw [← Option.some.inj hrun, loadCurrentImage_processed]; rfl
      · rw [← Option.some.inj hrun]; rfl
    by_cases hc : key = 99 ∨ key = 67
    · have hd : ¬ (key = 100 ∨ key = 68) := by omega
      have hj : ¬ (key = 106 ∨ key = 74) := by omega
      rw [run_class a key typed hc] at hrun
      have hw : a.writesOn (Input.key key typed) = false := by
        simp [YoloAnnotator.writesOn, YoloAnnotator.savesOn, hd, hj]
      rw [hw, ← Option.some.inj hrun, (changeClass_frame a).2.2.2.1]; rfl
    by_cases hd : key = 100 ∨ key = 68
    · have hj : ¬ (key = 106 ∨ key = 74) := by omega
      rw [run_delete a key typed hd] at hrun
      by_cases hb : a.currentBoxes ≠ []
      · rw [if_pos hb] at hrun
        rw [← Option.some.inj hrun, saveAnnotations_processed]
        simp [YoloAnnotator.writesOn, YoloAnnotator.savesOn, hd, hj, hb, YoloAnnotator.imagePath]
      · rw [if_neg hb] at hrun
        rw [← Option.some.inj hrun]
        simp [YoloAnnotator.writesOn, YoloAnnotator.savesOn, hd, hj, hb]
    by_cases hj : key = 106 ∨ key = 74
    · rw [run_jump a key typed hj] at hrun
      by_cases hv : 1 ≤ typed ∧ typed ≤ (a.imageFiles.length : Int)
      · rw [if_pos hv] at hrun
        rw [← Option.some.inj hrun, loadCurrentImage_processed]
        show a.saveAnnotations.processedCount = _
        rw [saveAnnotations_processed]
        simp [YoloAnnotator.writesOn, YoloAnnotator.savesOn, hd, hj, hv]
      · rw [if_neg hv] at hrun
        rw [← Option.some.inj hrun]
        simp [YoloAnnotator.writesOn, YoloAnnotator.savesOn, hd, hj, hv]
    · by_cases h27 : key = 27
      · rw [h27] at hrun
        exact absurd hrun (by simp [YoloAnnotator.run])
      · rw [run_other a key typed h27 hn hp hc hd hj] at hrun
        rw [← Option.some.inj hrun]
        simp [YoloAnnotator.writesOn, YoloAnnotator.savesOn, hd, hj]

theorem step_processed_lt (a a1 : YoloAnnotator) (i : Input) (h : a.step i = some a1)
    (h64 : a.processedCount < 2 ^ 64) : a1.processedCount < 2 ^ 64 := by
  rw [step_processed a a1 i h]
  split
  · exact Nat.mod_lt _ (by decide)
  · exact h64

theorem steps_processed (inputs : List Input) (a a1 : YoloAnnotator)
    (h64 : a.processedCount < 2 ^ 64) (h : YoloAnnotator.steps inputs a = some a1) :
    a1.processedCount = (a.processedCount + YoloAnnotator.writeCount inputs a) % 2 ^ 64 := by
  induction inputs generalizing a with
  | nil =>
    rw [← Option.some.inj h]
    exact (Nat.mod_eq_of_lt h64).symm
  | cons i rest ih =>
    unfold YoloAnnotator.steps at h
    unfold YoloAnnotator.writeCount
    cases hs : a.step i with
    | none => rw [hs] at h; exact absurd h (by simp)
    | some a2 =>
      rw [hs] at h
      simp only at h ⊢
      rw [ih a2 (step_processed_lt a a2 i hs h64) h, step_processed a a2 i hs]
      split
      · rw [Nat.mod_add_mod, add_assoc]
      · rw [zero_add]

/-- C12 as stated fails: on the fresh sample session the command `jumpTo(2)`, which
neither commits nor deletes a box, takes the counter from 0 to 1; and in a
directory that cannot be written a committed box leaves the counter at 0. -/
theorem C12_processed_counter_counterexample :
    sample.processedCount = 0
    ∧ (sample.run 106 2).map (fun s => (s.processedCount, s.currentBoxes)) = some (1, [])
    ∧ ((sampleNoWrite.onMouse EVENT_LBUTTONDOWN 10 10).onMouse EVENT_LBUTTONUP 110 110).currentBoxes
        = [BoundingBox.mk ⟨10, 10, 100, 100⟩ 0]
    ∧ ((sampleNoWrite.onMouse EVENT_LBUTTONDOWN 10 10).onMouse
        EVENT_LBUTTONUP 110 110).processedCount = 0 := by
  refine ⟨by decide, by decide, by decide, by decide⟩

/-- C12 (processed counter), amended: the counter, a `size_t`, goes up by exactly
one (modulo `2 ^ 64`) on every input that writes a label file, that is on a
committed box, on a deletion from a non-empty BoxSet and on a jump to a valid
index, when the label file of the current image can be opened; every other input
leaves it as it was. After a sequence of inputs it is the starting value plus the
number of writes, so it never decreases as long as that sum stays below `2 ^ 64`. -/
theorem C12_processed_counter (inputs : List Input) (a : YoloAnnotator)
    (h64 : a.processedCount < 2 ^ 64) :
    (∀ i a1, a.step i = some a1 →
        a1.processedCount
          = if a.writesOn i = true then (a.processedCount + 1) % 2 ^ 64 else a.processedCount)
    ∧ ∀ a1, YoloAnnotator.steps inputs a = some a1 →
        a1.processedCount = (a.processedCount + YoloAnnotator.writeCount inputs a) % 2 ^ 64
        ∧ (a.processedCount + YoloAnnotator.writeCount inputs a < 2 ^ 64 →
            a.processedCount ≤ a1.processedCount) := by
  refine ⟨fun i a1 h => step_processed a a1 i h, fun a1 h => ?_⟩
  have hs := steps_processed inputs a a1 h64 h
  refine ⟨hs, fun hlt => ?_⟩
  rw [hs, Nat.mod_eq_of_lt hlt]
  exact Nat.le_add_right _ _

/-- C12, amended, on the sample session: a committed box followed by `jumpTo(2)`. -/
theorem C12_processed_counter_witness :
    sample.processedCount < 2 ^ 64
    ∧ (∀ i a1, sample.step i = some a1 →
        a1.processedCount
          = if sample.writesOn i = true then (sample.processedCount + 1) % 2 ^ 64
            else sample.processedCount)
    ∧ ∀ a1, YoloAnnotator.steps
          [Input.mouse 1 10 10, Input.mouse 4 110 110, Input.key 106 2] sample = some a1 →
        a1.processedCount = (sample.processedCount + YoloAnnotator.writeCount
          [Input.mouse 1 10 10, Input.mouse 4 110 110, Input.key 106 2] sample) % 2 ^ 64
        ∧ (sample.processedCount + YoloAnnotator.writeCount
            [Input.mouse 1 10 10, Input.mouse 4 110 110, Input.key 106 2] sample < 2 ^ 64 →
            sample.processedCount ≤ a1.processedCount) :=
  ⟨by decide, C12_processed_counter
    [Input.mouse 1 10 10, Input.mouse 4 110 110, Input.key 106 2] sample (by decide)⟩

theorem same_record (a : YoloAnnotator) :
    a = { a with startPoint := a.startPoint, endPoint := a.endPoint, isDrawing := a.isDrawing } := by
  cases a
  rfl

theorem next_bound (i n : Nat) (h : i < (n + 2 ^ 64 - 1) % 2 ^ 64) (hn : 1 ≤ n) : i + 1 < n := by
  have h1 : (n + 2 ^ 64 - 1) % 2 ^ 64 = (n - 1) % 2 ^ 64 := by
    have : n + 2 ^ 64 - 1 = (n - 1) + 2 ^ 64 := by omega
    rw [this, Nat.add_mod_right]
  rw [h1] at h
  have h2 : (n - 1) % 2 ^ 64 ≤ n - 1 := Nat.mod_le _ _
  omega

/-- Every input is one of six updates of the session. -/
theorem step_cases (a a1 : YoloAnnotator) (i : Input) (h : a.step i = some a1)
    (hidx : a.currentImageIndex < a.imageFiles.length) :
    (∃ s e d, a1 = { a with startPoint := s, endPoint := e, isDrawing := d })
    ∨ (∃ x y, i = Input.mouse 4 x y ∧ a.isDrawing = true
        ∧ (5 < wrapInt |x - a.startPoint.x| ∧ 5 < wrapInt |y - a.startPoint.y|)
        ∧ a1 = ({ a with
            endPoint := ⟨x, y⟩, isDrawing := false,
            currentBoxes := a.currentBoxes ++ [BoundingBox.mk
              ⟨min a.startPoint.x x, min a.startPoint.y y,
                wrapInt |x - a.startPoint.x|, wrapInt |y - a.startPoint.y|⟩ a.currentClass] }
          : YoloAnnotator).saveAnnotations)
    ∨ (∃ k, k < a.imageFiles.length
        ∧ a1 = ({ a with currentImageIndex := k } : YoloAnnotator).loadCurrentImage)
    ∨ a1 = a.changeClass
    ∨ ((a.currentBoxes ≠ [] ∧ ∃ k t, i = Input.key k t ∧ (k = 100 ∨ k = 68))
        ∧ a1 = ({ a with currentBoxes := a.currentBoxes.dropLast } : YoloAnnotator).saveAnnotations)
    ∨ (∃ k, k < a.imageFiles.length
        ∧ a1 = ({ a.saveAnnotations with currentImageIndex := k }
            : YoloAnnotator).loadCurrentImage) := by
  have hsame : ∃ s e d, a = { a with startPoint := s, endPoint := e, isDrawing := d } :=
    ⟨_, _, _, same_record a⟩
  cases i with
  | mouse event x y =>
    have ha1 : a1 = a.onMouse event x y := (Option.some.inj h).symm
    by_cases h1 : event = 1
    · left
      rw [ha1, h1, onMouse_down]
      exact ⟨_, _, _, rfl⟩
    by_cases h0 : event = 0
    · left
      rw [ha1, h0, onMouse_move]
      by_cases hd : a.isDrawing = true
      · rw [if_pos hd]
        exact ⟨a.startPoint, ⟨x, y⟩, a.isDrawing, by cases a; rfl⟩
      · rw [if_neg hd]
        exact hsame
    by_cases h4 : event = 4
    · rw [ha1, h4, onMouse_up]
      by_cases hd : a.isDrawing = true
      · by_cases ht : 5 < wrapInt |x - a.startPoint.x| ∧ 5 < wrapInt |y - a.startPoint.y|
        · right; left
          rw [if_pos hd, if_pos ht]
          exact ⟨x, y, rfl, hd, ht, rfl⟩
        · left
          rw [if_pos hd, if_neg ht]
          exact ⟨a.startPoint, ⟨x, y⟩, false, by cases a; rfl⟩
      · left
        rw [if_neg hd]
        exact hsame
    · left
      rw [ha1, onMouse_other a event x y h1 h0 h4]
      exact hsame
  | key key typed =>
    have hrun : a.run key typed = some a1 := h
    by_cases hn : key = 110 ∨ key = 78
    · rw [run_next a key typed hn] at hrun
      split at hrun
      · rename_i hlt
        right; right; left
        exact ⟨a.currentImageIndex + 1, next_bound _ _ hlt (by omega),
          (Option.some.inj hrun).symm⟩
      · left
        rw [← Option.some.inj hrun]
        exact hsame
    by_cases hp : key = 112 ∨ key = 80
    · rw [run_previous a key typed hp] at hrun
      split at hrun
      · right; right; left
        exact ⟨a.currentImageIndex - 1, by omega, (Option.some.inj hrun).symm⟩
      · left
        rw [← Option.some.inj hrun]
        exact hsame
    by_cases hc : key = 99 ∨ key = 67
    · rw [run_class a key typed hc] at hrun
      right; right; right; left
      exact (Option.some.inj hrun).symm
    by_cases hd : key = 100 ∨ key = 68
    · rw [run_delete a key typed hd] at hrun
      by_cases hb : a.currentBoxes ≠ []
      · rw [if_pos hb] at hrun
        right; right; right; right; left
        exact ⟨⟨hb, key, typed, rfl, hd⟩, (Option.some.inj hrun).symm⟩
      · rw [if_neg hb] at hrun
        left
        rw [← Option.some.inj hrun]
        exact hsame
    by_cases hj : key = 106 ∨ key = 74
    · rw [run_jump a key typed hj] at hrun
      by_cases hv : 1 ≤ typed ∧ typed ≤ (a.imageFiles.length : Int)
      · rw [if_pos hv] at hrun
        right; right; right; right; right
        exact ⟨(typed - 1).toNat, by omega, (Option.some.inj hrun).symm⟩
      · rw [if_neg hv] at hrun
        left
        rw [← Option.some.inj hrun]
        exact hsame
    · by_cases h27 : key = 27
      · rw [h27] at hrun
        exact absurd hrun (by simp [YoloAnnotator.run])
      · rw [run_other a key typed h27 hn hp hc hd hj] at hrun
        left
        rw [← Option.some.inj hrun]
        exact hsame

/-! ## The cursor stays inside the catalog -/

theorem saveAnnotations_shape (x : YoloAnnotator) :
    x.saveAnnotations = { x with
      files := x.saveAnnotations.files
      processedCount := x.saveAnnotations.processedCount } := by
  by_cases h : x.canCreate (annotationPath x.imagePath) = true
  · rw [saveAnnotations_ok x h]
  · rw [saveAnnotations_blocked x h]

theorem saveAnnotations_index (x : YoloAnnotator) :
    x.saveAnnotations.currentImageIndex = x.currentImageIndex
    ∧ x.saveAnnotations.imageFiles = x.imageFiles
    ∧ x.saveAnnotations.classNames = x.classNames
    ∧ x.saveAnnotations.currentClass = x.currentClass := by
  rw [saveAnnotations_shape]
  exact ⟨rfl, rfl, rfl, rfl⟩

theorem step_index (a a1 : YoloAnnotator) (i : Input) (h : a.step i = some a1)
    (hidx : a.currentImageIndex < a.imageFiles.length) :
    a1.imageFiles = a.imageFiles ∧ a1.currentImageIndex < a1.imageFiles.length := by
  rcases step_cases a a1 i h hidx with ⟨s, e, d, h1⟩ | ⟨x, y, -, -, -, h1⟩ | ⟨k, hk, h1⟩ | h1
      | ⟨-, h1⟩ | ⟨k, hk, h1⟩
  · rw [h1]; exact ⟨rfl, hidx⟩
  · rw [h1, (saveAnnotations_index _).1, (saveAnnotations_index _).2.1]
    exact ⟨rfl, hidx⟩
  · rw [h1, loadCurrentImage_index, loadCurrentImage_imageFiles]
    exact ⟨rfl, hk⟩
  · rw [h1, (changeClass_frame a).2.2.2.2.1, (changeClass_frame a).2.2.2.2.2.1]
    exact ⟨rfl, hidx⟩
  · rw [h1, (saveAnnotations_index _).1, (saveAnnotations_index _).2.1]
    exact ⟨rfl, hidx⟩
  · rw [h1, loadCurrentImage_index, loadCurrentImage_imageFiles]
    exact ⟨(saveAnnotations_index a).2.1, by
      show k < a.saveAnnotations.imageFiles.length
      rw [(saveAnnotations_index a).2.1]; exact hk⟩

theorem steps_index (inputs : List Input) (a a1 : YoloAnnotator)
    (hidx : a.currentImageIndex < a.imageFiles.length)
    (h : YoloAnnotator.steps inputs a = some a1) :
    a1.imageFiles = a.imageFiles ∧ a1.currentImageIndex < a1.imageFiles.length := by
  induction inputs generalizing a with
  | nil =>
    rw [← Option.some.inj h]
    exact ⟨rfl, hidx⟩
  | cons i rest ih =>
    unfold YoloAnnotator.steps at h
    cases hs : a.step i with
    | none => rw [hs] at h; exact absurd h (by simp)
    | some a2 =>
      rw [hs] at h
      simp only at h
      obtain ⟨hf, hi⟩ := step_index a a2 i hs hidx
      obtain ⟨hf2, hi2⟩ := ih a2 hi h
      exact ⟨hf2.trans hf, hi2⟩

/-- C19 (cursor in range): from a session whose cursor is inside the catalog, as it
is at index 0 of a non-empty catalog, every sequence of mouse events and keys
leaves the catalog as it was and the cursor inside it, so that
`imageFiles[currentImageIndex]` is an entry of the catalog. -/
theorem C19_cursor_in_range (inputs : List Input) (a : YoloAnnotator)
    (hidx : a.currentImageIndex < a.imageFiles.length) :
    ∀ a1, YoloAnnotator.steps inputs a = some a1 →
      a1.imageFiles = a.imageFiles
      ∧ a1.currentImageIndex < a1.imageFiles.length
      ∧ a1.imageFiles.get? a1.currentImageIndex = some a1.imagePath := by
  intro a1 h
  obtain ⟨hf, hi⟩ := steps_index inputs a a1 hidx h
  refine ⟨hf, hi, ?_⟩
  unfold YoloAnnotator.imagePath
  rw [List.getD_eq_getElem?_getD, List.get?_eq_getElem?, List.getElem?_eq_getElem hi]
  rfl

/-- C19 on the sample session, from index 0 of its three images. -/
theorem C19_cursor_in_range_witness :
    sample.currentImageIndex < sample.imageFiles.length
    ∧ ∀ a1, YoloAnnotator.steps
        [Input.key 110 0, Input.key 110 0, Input.key 110 0, Input.key 106 7, Input.key 112 0]
        sample = some a1 →
      a1.imageFiles = sample.imageFiles
      ∧ a1.currentImageIndex < a1.imageFiles.length
      ∧ a1.imageFiles.get? a1.currentImageIndex = some a1.imagePath :=
  ⟨by decide, C19_cursor_in_range
    [Input.key 110 0, Input.key 110 0, Input.key 110 0, Input.key 106 7, Input.key 112 0]
    sample (by decide)⟩

/-! ## The draw state -/

theorem onMouse_cursor (a : YoloAnnotator) (event x y : Int) :
    (a.onMouse event x y).currentImageIndex = a.currentImageIndex
    ∧ (a.onMouse event x y).currentClass = a.currentClass := by
  by_cases h1 : event = 1
  · rw [h1, onMouse_down]; exact ⟨rfl, rfl⟩
  by_cases h0 : event = 0
  · rw [h0, onMouse_move]
    split <;> exact ⟨rfl, rfl⟩
  by_cases h4 : event = 4
  · rw [h4, onMouse_up]
    split
    · split
      · rw [(saveAnnotations_index _).1, (saveAnnotations_index _).2.2.2]
        exact ⟨rfl, rfl⟩
      · exact ⟨rfl, rfl⟩
    · exact ⟨rfl, rfl⟩
  · rw [onMouse_other a event x y h1 h0 h4]
    exact ⟨rfl, rfl⟩

theorem onMouse_up_idle (a : YoloAnnotator) (x y : Int) (h : a.isDrawing = true) :
    (a.onMouse 4 x y).isDrawing = false := by
  rw [onMouse_up, if_pos h]
  split
  · rw [saveAnnotations_shape]
  · rfl

/-- C17 as stated fails: a press at (50,50) while a drag begun at (10,10) is under
way is not rejected; it restarts the drag at (50,50). -/
theorem C17_draw_state_machine_counterexample :
    (sample.onMouse EVENT_LBUTTONDOWN 10 10).isDrawing = true
    ∧ (sample.onMouse EVENT_LBUTTONDOWN 10 10).startPoint = ⟨10, 10⟩
    ∧ ((sample.onMouse EVENT_LBUTTONDOWN 10 10).onMouse EVENT_LBUTTONDOWN 50 50).startPoint
        = ⟨50, 50⟩
    ∧ ((sample.onMouse EVENT_LBUTTONDOWN 10 10).onMouse EVENT_LBUTTONDOWN 50 50).endPoint
        = ⟨50, 50⟩ := by
  refine ⟨by decide, by decide, by decide, by decide⟩

/-- C17 (draw state machine), amended: a press at `p` yields `Dragging(p, p)` in
either draw state (while Dragging it restarts the drag at `p`) and changes nothing
else; a move and a release take effect only while Dragging and change nothing in
Idle; a move while Dragging sets the end point and nothing else; a release while
Dragging always ends in Idle; and no mouse event changes `currentImageIndex` or the
class cursor. -/
theorem C17_draw_state_machine (a : YoloAnnotator) (event x y : Int) :
    a.onMouse EVENT_LBUTTONDOWN x y
      = { a with startPoint := ⟨x, y⟩, endPoint := ⟨x, y⟩, isDrawing := true }
    ∧ (a.isDrawing = true → a.onMouse EVENT_MOUSEMOVE x y = { a with endPoint := ⟨x, y⟩ })
    ∧ (a.isDrawing = false →
        a.onMouse EVENT_MOUSEMOVE x y = a ∧ a.onMouse EVENT_LBUTTONUP x y = a)
    ∧ (a.isDrawing = true → (a.onMouse EVENT_LBUTTONUP x y).isDrawing = false)
    ∧ (a.onMouse event x y).currentImageIndex = a.currentImageIndex
    ∧ (a.onMouse event x y).currentClass = a.currentClass := by
  refine ⟨onMouse_down a x y, fun h => ?_, fun h => ⟨?_, ?_⟩, fun h => onMouse_up_idle a x y h,
    (onMouse_cursor a event x y).1, (onMouse_cursor a event x y).2⟩
  · show a.onMouse 0 x y = _
    rw [onMouse_move, if_pos h]
  · show a.onMouse 0 x y = _
    rw [onMouse_move, if_neg (by rw [h]; decide)]
  · show a.onMouse 4 x y = _
    rw [onMouse_up, if_neg (by rw [h]; decide)]

/-- C17, amended, on the sample session: Idle before the press at (10,10), Dragging
after it. -/
theorem C17_draw_state_machine_witness :
    sample.isDrawing = false
    ∧ (sample.onMouse EVENT_MOUSEMOVE 30 30 = sample ∧ sample.onMouse EVENT_LBUTTONUP 30 30 = sample)
    ∧ (sample.onMouse EVENT_LBUTTONDOWN 10 10).isDrawing = true
    ∧ (sample.onMouse EVENT_LBUTTONDOWN 10 10).onMouse EVENT_MOUSEMOVE 30 30
        = { sample.onMouse EVENT_LBUTTONDOWN 10 10 with endPoint := ⟨30, 30⟩ }
    ∧ ((sample.onMouse EVENT_LBUTTONDOWN 10 10).onMouse EVENT_LBUTTONUP 30 30).isDrawing = false :=
  ⟨by decide, (C17_draw_state_machine sample 0 30 30).2.2.1 (by decide), by decide,
    (C17_draw_state_machine (sample.onMouse EVENT_LBUTTONDOWN 10 10) 0 30 30).2.1 (by decide),
    (C17_draw_state_machine (sample.onMouse EVENT_LBUTTONDOWN 10 10) 0 30 30).2.2.2.1
      (by decide)⟩

/-! ## Loading the class names -/

theorem readClassNames_eq (text : List (List Char)) (names : List String) :
    readClassNames text names
      = names ++ (text.filter (fun line => decide (line ≠ []))).map String.mk := by
  induction text generalizing names with
  | nil => simp [readClassNames]
  | cons line rest ih =>
    by_cases h : line = []
    · simp [readClassNames, h, ih]
    · simp [readClassNames, h, ih]

theorem loadClassNames_eq (a : YoloAnnotator) (classesFile : String) (text : List (List Char))
    (hf : a.files classesFile = some text) (h0 : a.classNames = []) :
    a.loadClassNames classesFile
      = if (text.filter (fun line => decide (line ≠ []))).map String.mk = [] then
          Except.error LoadError.noClasses
        else Except.ok { a with
          classNames := (text.filter (fun line => decide (line ≠ []))).map String.mk } := by
  unfold YoloAnnotator.loadClassNames
  simp only [hf, Option.getD_some, readClassNames_eq, h0, List.nil_append]

/-- C16 (class registry load): for a classes file of the given lines, read into the
empty `classNames` of a new object, `loadClassNames` throws exactly when no line
is non-empty, and otherwise leaves in `classNames` exactly the non-empty lines, in
file order, so that the name with class id `k` is the `k`-th non-empty line. -/
theorem C16_class_registry (a : YoloAnnotator) (classesFile : String) (text : List (List Char))
    (hf : a.files classesFile = some text) (h0 : a.classNames = []) :
    (a.loadClassNames classesFile = Except.error LoadError.noClasses ↔ ∀ line ∈ text, line = [])
    ∧ ((∃ line ∈ text, line ≠ []) →
        a.loadClassNames classesFile = Except.ok { a with
          classNames := (text.filter (fun line => decide (line ≠ []))).map String.mk })
    ∧ ∀ a1, a.loadClassNames classesFile = Except.ok a1 →
        a1.classNames = (text.filter (fun line => decide (line ≠ []))).map String.mk
        ∧ ∀ k, a1.classNames.get? k
            = ((text.filter (fun line => decide (line ≠ []))).get? k).map String.mk := by
  have hload := loadClassNames_eq a classesFile text hf h0
  have hiff : (text.filter (fun line => decide (line ≠ []))).map String.mk = []
      ↔ ∀ line ∈ text, line = [] := by
    rw [List.map_eq_nil_iff, List.filter_eq_nil_iff]
    constructor
    · intro h line hl
      have := h line hl
      simpa using this
    · intro h line hl
      simp [h line hl]
  refine ⟨?_, ?_, ?_⟩
  · rw [hload]
    constructor
    · intro h
      by_cases hc : (text.filter (fun line => decide (line ≠ []))).map String.mk = []
      · exact hiff.mp hc
      · rw [if_neg hc] at h
        cases h
    · intro h
      rw [if_pos (hiff.mpr h)]
  · rintro ⟨line, hl, hne⟩
    rw [hload, if_neg]
    intro hc
    exact hne (hiff.mp hc line hl)
  · intro a1 h1
    rw [hload] at h1
    by_cases hc : (text.filter (fun line => decide (line ≠ []))).map String.mk = []
    · rw [if_pos hc] at h1
      cases h1
    · rw [if_neg hc] at h1
      have : a1 = { a with
          classNames := (text.filter (fun line => decide (line ≠ []))).map String.mk } := by
        injection h1 with h1
        exact h1.symm
      rw [this]
      refine ⟨rfl, fun k => ?_⟩
      show ((text.filter (fun line => decide (line ≠ []))).map String.mk).get? k = _
      rw [List.get?_eq_getElem?, List.get?_eq_getElem?, List.getElem?_map]

/-- C16 on a classes file of four lines, the second one empty, read by a new
object. -/
theorem C16_class_registry_witness :
    (YoloAnnotator.fresh (fun _ => ⟨640, 480⟩) (fun _ => true) classesWorld).loadClassNames
        "classes.txt"
      = Except.ok { YoloAnnotator.fresh (fun _ => ⟨640, 480⟩) (fun _ => true) classesWorld with
          classNames := ["cat", "dog", "bird"] } :=
  (C16_class_registry (YoloAnnotator.fresh (fun _ => ⟨640, 480⟩) (fun _ => true) classesWorld)
    "classes.txt" ["cat".toList, [], "dog".toList, "bird".toList] (by decide) (by decide)).2.1
    ⟨"cat".toList, by decide, by decide⟩

/-! ## Discovering the catalog -/

theorem pushImages_eq (entries imageFiles : List String) :
    pushImages entries imageFiles
      = imageFiles ++ entries.filter (fun p => decide (isImagePath p)) := by
  induction entries generalizing imageFiles with
  | nil => simp [pushImages]
  | cons entry rest ih =>
    by_cases h : isImagePath entry
    · have h2 := h
      unfold isImagePath at h2
      simp only [List.mem_cons, List.mem_singleton, List.not_mem_nil, or_false] at h2
      simp only [pushImages, h2, if_true, ih, List.filter_cons, h, decide_True,
        List.append_assoc, List.singleton_append]
    · have h2 := h
      unfold isImagePath at h2
      simp only [List.mem_cons, List.mem_singleton, List.not_mem_nil, or_false] at h2
      simp only [pushImages, h2, if_false, ih, List.filter_cons, h, decide_False]
      rfl

theorem loadImagesFromDirectory_eq (a : YoloAnnotator) (entries : List String)
    (h0 : a.imageFiles = []) :
    a.loadImagesFromDirectory entries
      = if entries.filter (fun p => decide (isImagePath p)) = [] then
          Except.error LoadError.noImages
        else Except.ok ({ a with
          imageFiles := sortPaths (entries.filter (fun p => decide (isImagePath p))) }
            : YoloAnnotator).loadCurrentImage := by
  unfold YoloAnnotator.loadImagesFromDirectory
  simp only [pushImages_eq, h0, List.nil_append]

theorem sortPaths_perm (l : List String) : (sortPaths l).Perm l :=
  List.perm_insertionSort _ l

theorem sortPaths_sorted (l : List String) :
    List.Sorted (fun s t : String => s ≤ t) (sortPaths l) := by
  haveI : IsTotal String (fun s t : String => s.toList ≤ t.toList) :=
    ⟨fun s t => le_total s.toList t.toList⟩
  haveI : IsTrans String (fun s t : String => s.toList ≤ t.toList) :=
    ⟨fun _ _ _ h1 h2 => le_trans h1 h2⟩
  have h := List.sorted_insertionSort (fun s t : String => s.toList ≤ t.toList) l
  exact List.Pairwise.imp (fun {s t} hst => String.le_iff_toList_le.mpr hst) h

theorem sortPaths_unique (l c : List String) (hp : c.Perm l)
    (hs : List.Sorted (fun s t : String => s ≤ t) c) : c = sortPaths l :=
  List.eq_of_perm_of_sorted (hp.trans (sortPaths_perm l).symm) hs (sortPaths_sorted l)

/-- C14 (catalog discovery): for every list of directory entries, read into the
empty `imageFiles` of a new object, `loadImagesFromDirectory` throws exactly when no
entry has an extension that is `.jpg`, `.jpeg`, `.png` or `.bmp` in lower case;
otherwise the catalog is a rearrangement of exactly the entries that have one, each
as often as it is listed, in ascending order of the path strings, and it is the
only list with these two properties. -/
theorem C14_catalog_discovery (a : YoloAnnotator) (entries : List String)
    (h0 : a.imageFiles = []) :
    (a.loadImagesFromDirectory entries = Except.error LoadError.noImages
      ↔ ∀ p ∈ entries, ¬ isImagePath p)
    ∧ ((∃ p ∈ entries, isImagePath p) → ∃ a1, a.loadImagesFromDirectory entries = Except.ok a1)
    ∧ ∀ a1, a.loadImagesFromDirectory entries = Except.ok a1 →
        a1.imageFiles.Perm (entries.filter (fun p => decide (isImagePath p)))
        ∧ (∀ p, p ∈ a1.imageFiles ↔ p ∈ entries ∧ isImagePath p)
        ∧ (∀ p, isImagePath p → a1.imageFiles.count p = entries.count p)
        ∧ List.Sorted (fun s t : String => s ≤ t) a1.imageFiles
        ∧ ∀ c : List String, c.Perm (entries.filter (fun p => decide (isImagePath p))) →
            List.Sorted (fun s t : String => s ≤ t) c → c = a1.imageFiles := by
  have hload := loadImagesFromDirectory_eq a entries h0
  have hiff : entries.filter (fun p => decide (isImagePath p)) = []
      ↔ ∀ p ∈ entries, ¬ isImagePath p := by
    rw [List.filter_eq_nil_iff]
    constructor
    · intro h p hp
      simpa using h p hp
    · intro h p hp
      simpa using h p hp
  refine ⟨?_, ?_, ?_⟩
  · rw [hload]
    constructor
    · intro h
      by_cases hc : entries.filter (fun p => decide (isImagePath p)) = []
      · exact hiff.mp hc
      · rw [if_neg hc] at h
        cases h
    · intro h
      rw [if_pos (hiff.mpr h)]
  · rintro ⟨p, hp, hadm⟩
    rw [hload, if_neg (fun hc => hiff.mp hc p hp hadm)]
    exact ⟨_, rfl⟩
  · intro a1 h1
    rw [hload] at h1
    by_cases hc : entries.filter (fun p => decide (isImagePath p)) = []
    · rw [if_pos hc] at h1
      cases h1
    · rw [if_neg hc] at h1
      have hfiles : a1.imageFiles
          = sortPaths (entries.filter (fun p => decide (isImagePath p))) := by
        injection h1 with h1
        rw [← h1, loadCurrentImage_imageFiles]
      have hperm : a1.imageFiles.Perm (entries.filter (fun p => decide (isImagePath p))) := by
        rw [hfiles]
        exact sortPaths_perm _
      refine ⟨hperm, fun p => ?_, fun p hp => ?_, ?_, fun c hcp hcs => ?_⟩
      · rw [hperm.mem_iff, List.mem_filter, decide_eq_true_eq]
      · rw [hperm.count_eq, List.count_filter]
        exact decide_eq_true hp
      · rw [hfiles]
        exact sortPaths_sorted _
      · rw [hfiles]
        exact sortPaths_unique _ c hcp hcs

/-- C14 on a directory of seven entries, read by a new object: three are images. -/
theorem C14_catalog_discovery_witness :
    (∃ a1, (YoloAnnotator.fresh (fun _ => ⟨640, 480⟩) (fun _ => true)
        classesWorld).loadImagesFromDirectory sampleEntries = Except.ok a1)
    ∧ ((YoloAnnotator.fresh (fun _ => ⟨640, 480⟩) (fun _ => true)
        classesWorld).loadImagesFromDirectory sampleEntries).toOption.map
          (fun s => s.imageFiles) = some ["d/a.jpg", "d/b.Jpeg", "d/c.PNG"] :=
  ⟨(C14_catalog_discovery (YoloAnnotator.fresh (fun _ => ⟨640, 480⟩) (fun _ => true) classesWorld)
    sampleEntries (by decide)).2.1 ⟨"d/a.jpg", by decide, by decide⟩, by decide⟩

/-! ## The label path -/

theorem findLastOf_append (xs ys : List Char) (c : Char) :
    findLastOf (xs ++ ys) c
      = match findLastOf ys c with
        | some i => some (xs.length + i)
        | none => findLastOf xs c := by
  induction xs with
  | nil =>
    cases h : findLastOf ys c <;> simp [findLastOf, h]
  | cons x xs ih =>
    rw [List.cons_append, findLastOf, ih]
    cases h : findLastOf ys c with
    | some i => simp only [List.length_cons]; congr 1; omega
    | none => simp only [findLastOf]

theorem findLastOf_lt (l : List Char) (c : Char) (i : Nat) (h : findLastOf l c = some i) :
    i < l.length := by
  induction l generalizing i with
  | nil => simp [findLastOf] at h
  | cons x xs ih =>
    rw [findLastOf] at h
    cases hx : findLastOf xs c with
    | some j =>
      rw [hx] at h
      simp only [Option.some.injEq] at h
      have := ih j hx
      simp only [List.length_cons]
      omega
    | none =>
      rw [hx] at h
      simp only at h
      split at h
      · simp only [Option.some.injEq] at h
        simp only [List.length_cons]
        omega
      · cases h

theorem filename_suffix (path : List Char) :
    ∃ dir, path = dir ++ filename path := by
  unfold filename
  cases h : findLastOf path '/' with
  | none => exact ⟨[], rfl⟩
  | some i => exact ⟨path.take (i + 1), (List.take_append_drop _ _).symm⟩

theorem extension_dot (path : List Char) (hne : extension path ≠ []) :
    ∃ i, findLastOf (filename path) '.' = some (i + 1)
      ∧ extension path = (filename path).drop (i + 1) := by
  unfold extension at hne ⊢
  split at hne
  · exact absurd rfl hne
  · rename_i hdots
    rw [if_neg hdots]
    cases h : findLastOf (filename path) '.' with
    | none => rw [h] at hne; exact absurd rfl hne
    | some j =>
      cases j with
      | zero => rw [h] at hne; exact absurd rfl hne
      | succ i => exact ⟨i, rfl, rfl⟩

theorem annotationPath_extension (p : String) (hne : extension p.toList ≠ []) :
    p.toList = p.toList.take (p.toList.length - (extension p.toList).length) ++ extension p.toList
    ∧ annotationPath p
        = String.mk (p.toList.take (p.toList.length - (extension p.toList).length)
            ++ ['.', 't', 'x', 't']) := by
  obtain ⟨i, hdot, hext⟩ := extension_dot p.toList hne
  obtain ⟨dir, hdir⟩ := filename_suffix p.toList
  have hlt := findLastOf_lt _ _ _ hdot
  have hlast : findLastOf p.toList '.' = some (dir.length + (i + 1)) := by
    conv_lhs => rw [hdir]
    rw [findLastOf_append, hdot]
  have hlen : p.toList.length = dir.length + (filename p.toList).length := by
    conv_lhs => rw [hdir]
    rw [List.length_append]
  have hk : p.toList.length - (extension p.toList).length = dir.length + (i + 1) := by
    rw [hext, List.length_drop, hlen]
    omega
  have hdrop : extension p.toList = p.toList.drop (dir.length + (i + 1)) := by
    rw [hext]
    conv_rhs => rw [hdir]
    rw [List.drop_append]
  refine ⟨?_, ?_⟩
  · rw [hk, hdrop, List.take_append_drop]
  · unfold annotationPath
    rw [hlast, hk]

/-- C15 (label path derivation): when the current image path is one admitted to the
catalog, its extension is the end of the path, and the path that `saveAnnotations`
writes and `loadAnnotations` reads is the image path with that extension removed
and `.txt` appended, wherever else the path has a period. -/
theorem C15_label_path (a : YoloAnnotator) (hadm : isImagePath a.imagePath) :
    a.imagePath.toList
      = a.imagePath.toList.take
          (a.imagePath.toList.length - (extension a.imagePath.toList).length)
        ++ extension a.imagePath.toList
    ∧ annotationPath a.imagePath = labelPathOf a.imagePath
    ∧ (a.canCreate (labelPathOf a.imagePath) = true →
        a.saveAnnotations.files (labelPathOf a.imagePath) = some a.labelText)
    ∧ (a.files (labelPathOf a.imagePath) = none → a.loadAnnotations.currentBoxes = [])
    ∧ ∀ text, a.files (labelPathOf a.imagePath) = some text →
        a.loadAnnotations.currentBoxes
          = text.filterMap (fun line =>
              parseLine line (F32.ofInt a.currentImage.cols) (F32.ofInt a.currentImage.rows)) := by
  have hne : extension a.imagePath.toList ≠ [] := by
    intro h
    unfold isImagePath at hadm
    rw [h] at hadm
    exact absurd hadm (by decide)
  obtain ⟨hsplit, hpath⟩ := annotationPath_extension a.imagePath hne
  have hlabel : annotationPath a.imagePath = labelPathOf a.imagePath := hpath
  refine ⟨hsplit, hlabel, fun hc => ?_, fun hf => ?_, fun text hf => ?_⟩
  · rw [← hlabel] at hc ⊢
    rw [saveAnnotations_ok a hc]
    simp only [if_true]
  · rw [← hlabel] at hf
    unfold YoloAnnotator.loadAnnotations
    rw [hf]
  · rw [← hlabel] at hf
    exact loadAnnotations_boxes a text hf

/-- C15 on the image `dir.v2/img.JPG`: the label file is `dir.v2/img.txt`. -/
theorem C15_label_path_witness :
    isImagePath sampleDotted.imagePath
    ∧ annotationPath sampleDotted.imagePath = labelPathOf sampleDotted.imagePath
    ∧ labelPathOf sampleDotted.imagePath = "dir.v2/img.txt" :=
  ⟨by decide, (C15_label_path sampleDotted (by decide)).2.1, by decide⟩

/-! ## Rounding to 24 bits: order -/

theorem lgAux_lt (f n : Nat) (hf : n ≤ f) : n < 2 ^ (lgAux f n + 1) := by
  induction f generalizing n with
  | zero =>
    have : n = 0 := by omega
    rw [this]
    simp [lgAux]
  | succ f ih =>
    unfold lgAux
    by_cases h2 : n < 2
    · rw [if_pos h2]
      simpa using h2
    · rw [if_neg h2]
      have := ih (n / 2) (by omega)
      rw [pow_succ]
      omega

theorem lg_lt (n : Nat) : n < 2 ^ (lg n + 1) := lgAux_lt n n (le_refl n)

theorem lg_eq (n k : Nat) (h1 : 2 ^ k ≤ n) (h2 : n < 2 ^ (k + 1)) : lg n = k := by
  have hn : 1 ≤ n := le_trans (Nat.one_le_two_pow) h1
  have h3 := lg_le n hn
  have h4 := lg_lt n
  have h5 : lg n < k + 1 := by
    by_contra hc
    have : 2 ^ (k + 1) ≤ 2 ^ lg n := Nat.pow_le_pow_right (by norm_num) (by omega)
    omega
  have h6 : k < lg n + 1 := by
    by_contra hc
    have : 2 ^ (lg n + 1) ≤ 2 ^ k := Nat.pow_le_pow_right (by norm_num) (by omega)
    omega
  omega

theorem lg_mono (a b : Nat) (h : a ≤ b) (ha : 1 ≤ a) : lg a ≤ lg b := by
  have h1 := lg_le a ha
  have h2 := lg_lt b
  by_contra hc
  have : 2 ^ (lg b + 1) ≤ 2 ^ lg a := Nat.pow_le_pow_right (by norm_num) (by omega)
  omega

theorem rhe_le (a b c : Nat) (hb : 0 < b) (h : a ≤ c * b) : rhe a b ≤ c := by
  unfold rhe
  simp only
  have hq : a / b ≤ c := Nat.div_le_of_le_mul (by rw [Nat.mul_comm]; exact h)
  have hdm := Nat.div_add_mod a b
  by_cases hqc : a / b = c
  · have hr : a % b = 0 := by
      have : b * (a / b) = c * b := by rw [hqc, Nat.mul_comm]
      omega
    rw [hr]
    simp [hb, hqc]
  · have : a / b + 1 ≤ c := by omega
    split
    · omega
    · split
      · omega
      · split <;> omega

theorem rhe_ge (a b c : Nat) (hb : 0 < b) (h : c * b ≤ a) : c ≤ rhe a b := by
  unfold rhe
  simp only
  have hq : c ≤ a / b := (Nat.le_div_iff_mul_le hb).mpr h
  split
  · exact hq
  · split
    · omega
    · split <;> omega

theorem rhe_spec (a b : Nat) (hb : 0 < b) :
    2 * a ≤ 2 * (rhe a b * b) + b ∧ 2 * (rhe a b * b) ≤ 2 * a + b
    ∧ (2 * a = 2 * (rhe a b * b) + b → rhe a b % 2 = 0) := by
  have hdiv := Nat.div_add_mod a b
  have hmod := Nat.mod_lt a hb
  unfold rhe
  simp only
  split_ifs with h1 h2 h3
  · rw [Nat.mul_comm (a / b) b]
    refine ⟨by omega, by omega, fun h => by omega⟩
  · rw [Nat.add_mul, Nat.one_mul, Nat.mul_comm (a / b) b]
    refine ⟨by omega, by omega, fun h => by omega⟩
  · rw [Nat.mul_comm (a / b) b]
    refine ⟨by omega, by omega, fun _ => h3⟩
  · rw [Nat.add_mul, Nat.one_mul, Nat.mul_comm (a / b) b]
    refine ⟨by omega, by omega, fun h => by omega⟩

/-- The value `n` units, at least `2 ^ 23`, rounds to `m * 2 ^ j` with `j = lg n - 23`
and `2 ^ 23 <= m <= 2 ^ 24`, within half of `2 ^ j`, a tie above going to an even `m`. -/
theorem round_spec (n : Nat) (hn : 2 ^ 23 ≤ n) :
    ∃ m : Nat, F32.roundMag n 1 = m * 2 ^ (lg n - 23) ∧ 2 ^ 23 ≤ m ∧ m ≤ 2 ^ 24
      ∧ 2 * n ≤ 2 * (m * 2 ^ (lg n - 23)) + 2 ^ (lg n - 23)
      ∧ 2 * (m * 2 ^ (lg n - 23)) ≤ 2 * n + 2 ^ (lg n - 23)
      ∧ (2 * n = 2 * (m * 2 ^ (lg n - 23)) + 2 ^ (lg n - 23) → m % 2 = 0) := by
  have hpos : 0 < 2 ^ (lg n - 23) := by positivity
  have hn1 : 1 ≤ n := le_trans (by norm_num) hn
  have hlg : 23 ≤ lg n := by
    by_contra hc
    have h1 := lg_lt n
    have : 2 ^ (lg n + 1) ≤ 2 ^ 23 := Nat.pow_le_pow_right (by norm_num) (by omega)
    omega
  obtain ⟨s1, s2, s3⟩ := rhe_spec n (2 ^ (lg n - 23)) hpos
  refine ⟨rhe n (2 ^ (lg n - 23)), ?_, ?_, ?_, s1, s2, s3⟩
  · unfold F32.roundMag
    simp only [Nat.div_one, Nat.one_mul]
  · apply rhe_ge _ _ _ hpos
    rw [← pow_add]
    have : 23 + (lg n - 23) = lg n := by omega
    rw [this]
    exact lg_le n hn1
  · apply rhe_le _ _ _ hpos
    rw [← pow_add]
    have : 24 + (lg n - 23) = lg n + 1 := by omega
    rw [this]
    exact le_of_lt (lg_lt n)

theorem rhe_near (a b c e : Nat) (hb : 0 < b) (ha : a = e + b * c) (he : 2 * e ≤ b)
    (htie : 2 * e = b → c % 2 = 0) : rhe a b = c := by
  have helt : e < b := by omega
  have hq : a / b = c := by
    rw [ha, Nat.add_mul_div_left _ _ hb, Nat.div_eq_of_lt helt, Nat.zero_add]
  have hr : a % b = e := by
    rw [ha, Nat.add_mul_mod_self_left, Nat.mod_eq_of_lt helt]
  unfold rhe
  simp only [hq, hr]
  split
  · rfl
  · rw [if_neg (by omega), if_pos (htie (by omega))]

theorem roundMag_small (n : Nat) (hn : n < 2 ^ 24) : F32.roundMag n 1 = n := by
  have h := roundMag_exact n 0 1 hn (by norm_num)
  simpa using h

/-- A value at most half a step above `m * 2 ^ j`, a representable value whose step
is `2 ^ j`, does not round above it, a tie counting only when `m` is even. -/
theorem round_le_of_near (n m j : Nat) (hm1 : 2 ^ 23 ≤ m) (hm2 : m ≤ 2 ^ 24)
    (h : 2 * n ≤ 2 * (m * 2 ^ j) + 2 ^ j)
    (htie : 2 * n = 2 * (m * 2 ^ j) + 2 ^ j → m % 2 = 0) :
    F32.roundMag n 1 ≤ m * 2 ^ j := by
  have hj : 0 < 2 ^ j := by positivity
  have hM1 : 2 ^ (23 + j) ≤ m * 2 ^ j := by
    rw [pow_add]; exact Nat.mul_le_mul_right _ hm1
  have hM2 : m * 2 ^ j ≤ 2 ^ (24 + j) := by
    rw [pow_add]; exact Nat.mul_le_mul_right _ hm2
  by_cases hsmall : n < 2 ^ 23
  · rw [roundMag_small n (by omega)]
    have : 2 ^ 23 ≤ m * 2 ^ j := le_trans hm1 (Nat.le_mul_of_pos_right _ hj)
    omega
  have hn1 : 1 ≤ n := by omega
  have hroundMag : F32.roundMag n 1 = rhe n (2 ^ (lg n - 23)) * 2 ^ (lg n - 23) := by
    unfold F32.roundMag
    simp only [Nat.div_one, Nat.one_mul]
  have hlg23 : 23 ≤ lg n := by
    by_contra hc
    have h1 := lg_lt n
    have : 2 ^ (lg n + 1) ≤ 2 ^ 23 := Nat.pow_le_pow_right (by norm_num) (by omega)
    omega
  rw [hroundMag]
  by_cases hle : n ≤ m * 2 ^ j
  · -- the grid of `n` divides `m * 2 ^ j`
    by_cases hlg : lg n ≤ j + 23
    · obtain ⟨t, ht⟩ : ∃ t, j = (lg n - 23) + t := ⟨j - (lg n - 23), by omega⟩
      have hM : m * 2 ^ j = (m * 2 ^ t) * 2 ^ (lg n - 23) := by
        conv_lhs => rw [ht, pow_add]
        ring
      rw [hM]
      exact Nat.mul_le_mul_right _ (rhe_le _ _ _ (by positivity) (by rw [← hM]; exact hle))
    · have h1 : 2 ^ (j + 24) ≤ n := by
        have := lg_le n hn1
        have : 2 ^ (j + 24) ≤ 2 ^ lg n := Nat.pow_le_pow_right (by norm_num) (by omega)
        omega
      have h2 : n = 2 ^ (24 + j) := by
        rw [Nat.add_comm] at h1
        omega
      have hlgn : lg n = 24 + j := lg_eq n (24 + j) (by omega) (by rw [h2, pow_succ]; omega)
      have hM : m * 2 ^ j = 2 ^ 23 * 2 ^ (lg n - 23) := by
        rw [hlgn, ← pow_add]
        have : 23 + (24 + j - 23) = 24 + j := by omega
        rw [this]
        omega
      rw [hM]
      exact Nat.mul_le_mul_right _ (rhe_le _ _ _ (by positivity) (by rw [← hM]; exact hle))
  · -- `n` lies in the half step above `m * 2 ^ j`
    have hgt : m * 2 ^ j < n := by omega
    by_cases hm : m < 2 ^ 24
    · have hlt : n < 2 ^ (24 + j) := by
        have h3 : (m + 1) * 2 ^ j ≤ 2 ^ (24 + j) := by
          rw [pow_add]; exact Nat.mul_le_mul_right _ (by omega)
        rw [Nat.add_mul, Nat.one_mul] at h3
        omega
      have hlgn : lg n = 23 + j :=
        lg_eq n (23 + j) (by omega) (by rw [show 23 + j + 1 = 24 + j by omega]; exact hlt)
      have hjj : lg n - 23 = j := by omega
      rw [hjj]
      have hr : rhe n (2 ^ j) = m :=
        rhe_near n (2 ^ j) m (n - m * 2 ^ j) hj
          (by rw [Nat.mul_comm (2 ^ j) m]; omega) (by omega)
          (fun ht => htie (by omega))
      rw [hr]
    · have hm24 : m = 2 ^ 24 := by omega
      have hMv : m * 2 ^ j = 2 ^ (24 + j) := by rw [hm24, pow_add]
      have hpow : 2 ^ (24 + j + 1) = 2 * 2 ^ (24 + j) := by rw [pow_succ]; ring
      have hjle : 2 ^ j ≤ 2 ^ (24 + j) := Nat.pow_le_pow_right (by norm_num) (by omega)
      have hlgn : lg n = 24 + j := lg_eq n (24 + j) (by omega) (by omega)
      have hjj : lg n - 23 = j + 1 := by omega
      rw [hjj]
      have hq : 2 ^ (24 + j) = 2 ^ (j + 1) * 2 ^ 23 := by
        rw [← pow_add]; congr 1; omega
      have hq2 : 2 ^ (j + 1) = 2 * 2 ^ j := by rw [pow_succ]; ring
      have hr : rhe n (2 ^ (j + 1)) = 2 ^ 23 :=
        rhe_near n (2 ^ (j + 1)) (2 ^ 23) (n - m * 2 ^ j) (by positivity)
          (by rw [← hq]; omega) (by omega) (fun ht => by omega)
      rw [hr, hMv, hq, Nat.mul_comm]

theorem round_mono (a b : Nat) (h : a ≤ b) (hb : 2 ^ 23 ≤ b) :
    F32.roundMag a 1 ≤ F32.roundMag b 1 := by
  obtain ⟨m, hM, hm1, hm2, hup, -, htie⟩ := round_spec b hb
  rw [hM]
  exact round_le_of_near a m _ hm1 hm2 (by omega) (fun ht => htie (by omega))

theorem lg_le_of_le_pow (n k : Nat) (h : n ≤ 2 ^ k) : lg n ≤ k := by
  by_cases hn : n = 0
  · rw [hn]
    simp [lg, lgAux]
  · have h1 := lg_le n (by omega)
    by_contra hc
    have : 2 ^ (k + 1) ≤ 2 ^ lg n := Nat.pow_le_pow_right (by norm_num) (by omega)
    have : 2 ^ (k + 1) = 2 * 2 ^ k := by rw [pow_succ]; ring
    have : 0 < 2 ^ k := by positivity
    omega

/-- A quotient of at most `2 ^ k` units does not round above `2 ^ k`. -/
theorem roundMag_le_pow (a b k : Nat) (hb : 0 < b) (h : a ≤ b * 2 ^ k) :
    F32.roundMag a b ≤ 2 ^ k := by
  unfold F32.roundMag
  simp only
  have hq : a / b ≤ 2 ^ k := Nat.div_le_of_le_mul h
  have hs : lg (a / b) - 23 ≤ k := le_trans (Nat.sub_le _ _) (lg_le_of_le_pow _ _ hq)
  generalize lg (a / b) - 23 = s at hs
  obtain ⟨t, ht⟩ : ∃ t, k = s + t := ⟨k - s, by omega⟩
  have hk : 2 ^ k = 2 ^ t * 2 ^ s := by rw [ht, pow_add, Nat.mul_comm]
  rw [hk]
  apply Nat.mul_le_mul_right
  apply rhe_le _ _ _ (Nat.mul_pos hb (by positivity))
  calc a ≤ b * 2 ^ k := h
    _ = 2 ^ t * (b * 2 ^ s) := by rw [hk]; ring

theorem ofUnits_nat (n d : Nat) (h : F32.roundMag n d ≤ F32.maxK) :
    F32.ofUnits (n : Int) d = F32.fin ((F32.roundMag n d : Nat) : Int) := by
  unfold F32.ofUnits
  simp only [Int.natAbs_ofNat]
  have h1 : ¬ F32.maxK < F32.roundMag n d := by omega
  have h2 : ¬ ((n : Nat) : Int) < 0 := not_lt.mpr (Int.ofNat_nonneg _)
  simp only [h1, h2, if_false]

theorem pow_le_maxK (k : Nat) (hk : k ≤ 200) : 2 ^ k ≤ F32.maxK := by
  have h1 : 2 ^ k ≤ 2 ^ 200 := Nat.pow_le_pow_right (by norm_num) hk
  have h2 : 2 ^ 200 ≤ F32.maxK := by
    unfold F32.maxK
    calc 2 ^ 200 ≤ 1 * 2 ^ 253 := by
          rw [Nat.one_mul]; exact Nat.pow_le_pow_right (by norm_num) (by norm_num)
      _ ≤ (2 ^ 24 - 1) * 2 ^ 253 := Nat.mul_le_mul_right _ (by norm_num)
  exact le_trans h1 h2

/-- The `float` of a non-negative `int`: the rounding of its number of units. -/
theorem ofInt_round (n : Nat) (hn : n < 2 ^ 31) :
    F32.ofInt (n : Int) = F32.fin ((F32.roundMag (n * F32.one) 1 : Nat) : Int)
    ∧ F32.roundMag (n * F32.one) 1 ≤ 2 ^ 180 := by
  have hle : F32.roundMag (n * F32.one) 1 ≤ 2 ^ 180 := by
    apply roundMag_le_pow _ _ _ (by norm_num)
    rw [Nat.one_mul]
    unfold F32.one
    calc n * 2 ^ 149 ≤ 2 ^ 31 * 2 ^ 149 := Nat.mul_le_mul_right _ (le_of_lt hn)
      _ = 2 ^ 180 := by rw [← pow_add]
  refine ⟨?_, hle⟩
  have h := ofUnits_nat (n * F32.one) 1 (le_trans hle (pow_le_maxK 180 (by norm_num)))
  unfold F32.ofInt F32.ofFrac
  rw [← h]
  congr 1

theorem roundMag_exact_le (m j d : Nat) (hm : m ≤ 2 ^ 24) (hd : 0 < d) :
    F32.roundMag (m * 2 ^ j * d) d = m * 2 ^ j := by
  by_cases h : m < 2 ^ 24
  · exact roundMag_exact m j d h hd
  · have hm24 : m = 2 ^ 24 := by omega
    have e : m * 2 ^ j = 2 ^ 23 * 2 ^ (j + 1) := by
      rw [hm24, ← pow_add, ← pow_add]
      congr 1
      omega
    rw [e]
    exact roundMag_exact (2 ^ 23) (j + 1) d (by norm_num) hd

/-- The units of a positive `int` round to an even number of units, and halving it
in binary32 is exact. -/
theorem half_round (w : Nat) (hw : 1 ≤ w) :
    ∃ half : Nat, F32.roundMag (w * F32.one) 1 = 2 * half
      ∧ F32.roundMag (2 * half * F32.one) (2 * F32.one) = half := by
  have hone : F32.one = 2 ^ 149 := rfl
  have hwu : 2 ^ 149 ≤ w * F32.one := by
    rw [hone]
    exact Nat.le_mul_of_pos_left _ hw
  have h23 : 2 ^ 23 ≤ w * F32.one :=
    le_trans (Nat.pow_le_pow_right (by norm_num) (by norm_num)) hwu
  obtain ⟨m, hM, -, hm2, -, -, -⟩ := round_spec (w * F32.one) h23
  have hlg : 149 ≤ lg (w * F32.one) := by
    by_contra hc
    have h1 := lg_lt (w * F32.one)
    have : 2 ^ (lg (w * F32.one) + 1) ≤ 2 ^ 149 :=
      Nat.pow_le_pow_right (by norm_num) (by omega)
    omega
  obtain ⟨j, hj⟩ : ∃ j, lg (w * F32.one) - 23 = j + 1 := ⟨lg (w * F32.one) - 24, by omega⟩
  rw [hj] at hM
  refine ⟨m * 2 ^ j, ?_, ?_⟩
  · rw [hM, pow_succ]
    ring
  · have e : 2 * (m * 2 ^ j) * F32.one = m * 2 ^ j * (2 * F32.one) := by ring
    rw [e]
    exact roundMag_exact_le m j (2 * F32.one) hm2 (by rw [hone]; positivity)

/-- The heart of the range of `cx`: in binary32, `float(x) + float(w) / 2` does not
exceed `float(W)` when `x + w <= W`. -/
theorem center_round (x w W half : Nat) (hw : 1 ≤ w) (hxw : x + w ≤ W) (hW : W < 2 ^ 31)
    (hhalf : F32.roundMag (w * F32.one) 1 = 2 * half) :
    F32.roundMag (F32.roundMag (x * F32.one) 1 + half) 1 ≤ F32.roundMag (W * F32.one) 1 := by
  have hone : F32.one = 2 ^ 149 := rfl
  have hWpos : 1 ≤ W := by omega
  have hWu : 2 ^ 149 ≤ W * F32.one := by
    rw [hone]; exact Nat.le_mul_of_pos_left _ hWpos
  have hwu : 2 ^ 149 ≤ w * F32.one := by
    rw [hone]; exact Nat.le_mul_of_pos_left _ hw
  have h149 : (2 : Nat) ^ 23 ≤ 2 ^ 149 := Nat.pow_le_pow_right (by norm_num) (by norm_num)
  have hsum : x * F32.one + w * F32.one ≤ W * F32.one := by
    rw [← Nat.add_mul]; exact Nat.mul_le_mul_right _ hxw
  have hWlt : W * F32.one < 2 ^ 180 := by
    rw [hone]
    calc W * 2 ^ 149 < 2 ^ 31 * 2 ^ 149 := Nat.mul_lt_mul_of_pos_right hW (by positivity)
      _ = 2 ^ 180 := by rw [← pow_add]
  -- the image width
  obtain ⟨mW, hM, hm1, hm2, hup, -, htie⟩ := round_spec (W * F32.one) (le_trans h149 hWu)
  have hqW : 2 ^ (lg (W * F32.one) - 23) ≤ 2 ^ 156 := by
    apply Nat.pow_le_pow_right (by norm_num)
    rcases lg_lt_of_lt _ _ hWlt with h | h
    · omega
    · omega
  have hqpos : 0 < 2 ^ (lg (W * F32.one) - 23) := by positivity
  -- the left edge
  have hA : 2 * F32.roundMag (x * F32.one) 1
      ≤ 2 * (x * F32.one) + 2 ^ (lg (W * F32.one) - 23) := by
    by_cases hx : x = 0
    · rw [hx, Nat.zero_mul, roundMag_small 0 (by norm_num)]
      exact Nat.zero_le _
    · have hxu : 2 ^ 149 ≤ x * F32.one := by
        rw [hone]; exact Nat.le_mul_of_pos_left _ (by omega)
      obtain ⟨mx, hAx, -, -, -, hdn, -⟩ := round_spec (x * F32.one) (le_trans h149 hxu)
      have hq : 2 ^ (lg (x * F32.one) - 23) ≤ 2 ^ (lg (W * F32.one) - 23) := by
        apply Nat.pow_le_pow_right (by norm_num)
        have := lg_mono (x * F32.one) (W * F32.one) (by omega) (by omega)
        omega
      rw [hAx]
      omega
  have hAM : F32.roundMag (x * F32.one) 1 ≤ F32.roundMag (W * F32.one) 1 :=
    round_mono _ _ (by omega) (le_trans h149 hWu)
  rw [hM] at hAM ⊢
  -- the width
  by_cases hw24 : w < 2 ^ 24
  · have hB : F32.roundMag (w * F32.one) 1 = w * F32.one := by
      have := roundMag_exact w 149 1 hw24 (by norm_num)
      rw [Nat.mul_one] at this
      rw [hone]
      exact this
    by_cases hbig : 2 ^ (lg (W * F32.one) - 23) ≤ w * F32.one
    · exact round_le_of_near _ mW _ hm1 hm2 (by omega) (fun ht => htie (by omega))
    · exact round_le_of_near _ mW _ hm1 hm2 (by omega) (fun ht => by omega)
  · have hwbig : 2 ^ 173 ≤ w * F32.one := by
      rw [hone]
      calc 2 ^ 173 = 2 ^ 24 * 2 ^ 149 := by rw [← pow_add]
        _ ≤ w * 2 ^ 149 := Nat.mul_le_mul_right _ (by omega)
    obtain ⟨mw, hBw, -, -, -, hdn, -⟩ := round_spec (w * F32.one) (le_trans h149 hwu)
    have hqw : 2 ^ 23 * 2 ^ (lg (w * F32.one) - 23) ≤ w * F32.one := by
      rw [← pow_add]
      have h1 := lg_le (w * F32.one) (by omega)
      have h2 : 173 ≤ lg (w * F32.one) := by
        by_contra hc
        have h3 := lg_lt (w * F32.one)
        have : 2 ^ (lg (w * F32.one) + 1) ≤ 2 ^ 173 :=
          Nat.pow_le_pow_right (by norm_num) (by omega)
        omega
      have : 23 + (lg (w * F32.one) - 23) = lg (w * F32.one) := by omega
      rw [this]
      exact h1
    rw [hBw] at hhalf
    exact round_le_of_near _ mW _ hm1 hm2 (by omega) (fun ht => htie (by omega))

/-- One axis of `saveAnnotations` (lines 191 and 193): for `0 <= x`, `0 < w` and
`x + w <= W < 2 ^ 31` the centre `(x + w / 2.0f) / W` and the extent `w / W` are
finite binary32 values between 0 and 1. -/
theorem axis_range (x w W : Nat) (hw : 1 ≤ w) (hxw : x + w ≤ W) (hW : W < 2 ^ 31) :
    ∃ k1 k2 : Nat,
      F32.div (F32.add (F32.ofInt (x : Int)) (F32.div (F32.ofInt (w : Int)) (F32.ofInt 2)))
          (F32.ofInt (W : Int)) = F32.fin (k1 : Int)
      ∧ k1 ≤ F32.one
      ∧ F32.div (F32.ofInt (w : Int)) (F32.ofInt (W : Int)) = F32.fin (k2 : Int)
      ∧ k2 ≤ F32.one := by
  have hone : F32.one = 2 ^ 149 := rfl
  have h149 : (2 : Nat) ^ 23 ≤ 2 ^ 149 := Nat.pow_le_pow_right (by norm_num) (by norm_num)
  have hWu : 2 ^ 149 ≤ W * F32.one := by
    rw [hone]; exact Nat.le_mul_of_pos_left _ (by omega)
  obtain ⟨hxr, -⟩ := ofInt_round x (by omega)
  obtain ⟨hwr, -⟩ := ofInt_round w (by omega)
  obtain ⟨hWr, hWle⟩ := ofInt_round W hW
  obtain ⟨half, hhalf, hhalf2⟩ := half_round w hw
  have hcen := center_round x w W half hw hxw hW hhalf
  have hwW : F32.roundMag (w * F32.one) 1 ≤ F32.roundMag (W * F32.one) 1 :=
    round_mono _ _ (Nat.mul_le_mul_right _ (by omega)) (le_trans h149 hWu)
  have hMpos : 0 < F32.roundMag (W * F32.one) 1 := by
    obtain ⟨m, hM, hm1, -, -, -, -⟩ := round_spec (W * F32.one) (le_trans h149 hWu)
    rw [hM]
    exact Nat.mul_pos (by omega) (by positivity)
  generalize F32.roundMag (W * F32.one) 1 = M at hWr hWle hcen hwW hMpos
  generalize F32.roundMag (x * F32.one) 1 = A at hxr hcen
  generalize F32.roundMag (w * F32.one) 1 = B at hwr hhalf hwW
  have hmax : ∀ n, n ≤ M → n ≤ F32.maxK :=
    fun n hn => le_trans (le_trans hn hWle) (pow_le_maxK 180 (by norm_num))
  have hunit : F32.one ≤ F32.maxK := by rw [hone]; exact pow_le_maxK 149 (by norm_num)
  -- the quotients
  have hq1 : F32.roundMag (F32.roundMag (A + half) 1 * F32.one) M ≤ F32.one := by
    rw [hone]
    exact roundMag_le_pow _ _ 149 hMpos (Nat.mul_le_mul_right _ hcen)
  have hq2 : F32.roundMag (B * F32.one) M ≤ F32.one := by
    rw [hone]
    exact roundMag_le_pow _ _ 149 hMpos (Nat.mul_le_mul_right _ hwW)
  refine ⟨F32.roundMag (F32.roundMag (A + half) 1 * F32.one) M, F32.roundMag (B * F32.one) M,
    ?_, hq1, ?_, hq2⟩
  · have h2 : F32.ofInt 2 = F32.fin ((2 * F32.one : Nat) : Int) := by
      rw [show (2 : Int) = ((2 : Nat) : Int) by rfl, ofInt_exact 2 (by norm_num)]
      rfl
    rw [hxr, hwr, hWr, h2, div_fin _ _ (by rw [hone]; positivity), hhalf,
      ofUnits_nat _ _ (by rw [hhalf2]; exact hmax _ (by omega)), hhalf2, add_fin,
      ofUnits_nat _ _ (hmax _ hcen), div_fin _ _ hMpos,
      ofUnits_nat _ _ (le_trans hq1 hunit)]
  · rw [hwr, hWr, div_fin _ _ hMpos, ofUnits_nat _ _ (le_trans hq2 hunit)]

theorem inUnit_val (v : F32) (h : v.inUnit) : 0 ≤ F32.val v ∧ F32.val v ≤ 1 := by
  cases v with
  | fin k =>
    obtain ⟨h0, h1⟩ := h
    unfold F32.val
    have hk0 : (0 : ℚ) ≤ (k : ℚ) := by exact_mod_cast h0
    have hk1 : (k : ℚ) ≤ 2 ^ 149 := by
      have : ((F32.one : Nat) : Int) = 2 ^ 149 := by unfold F32.one; norm_cast
      rw [this] at h1
      exact_mod_cast h1
    exact ⟨div_nonneg hk0 (by positivity), (div_le_one (by positivity)).mpr hk1⟩
  | inf s => exact absurd h (by unfold F32.inUnit; exact not_false)
  | nan => exact absurd h (by unfold F32.inUnit; exact not_false)

/-- C18 (normalized range): for a box inside the image (`x, y >= 0`, `width,
height > 0`, `x + width <= W`, `y + height <= H`, with `W` and `H` in the range of
`int`), the four `float` values `x`, `y`, `w`, `h` that `saveAnnotations` computes
and writes are finite and lie in `[0, 1]`; and nothing clamps them: for the box
`(600, 10, 100, 100)` on a 640x480 image the first value is above 1. -/
theorem C18_normalized_range (rect : Rect) (cols rows : Int)
    (hx : 0 ≤ rect.x) (hy : 0 ≤ rect.y) (hw : 0 < rect.width) (hh : 0 < rect.height)
    (hxw : rect.x + rect.width ≤ cols) (hyh : rect.y + rect.height ≤ rows)
    (hW : cols < 2 ^ 31) (hH : rows < 2 ^ 31) :
    ((toNormalized rect (F32.ofInt cols) (F32.ofInt rows)).1.inUnit
      ∧ (toNormalized rect (F32.ofInt cols) (F32.ofInt rows)).2.1.inUnit
      ∧ (toNormalized rect (F32.ofInt cols) (F32.ofInt rows)).2.2.1.inUnit
      ∧ (toNormalized rect (F32.ofInt cols) (F32.ofInt rows)).2.2.2.inUnit)
    ∧ (∀ v, v = (toNormalized rect (F32.ofInt cols) (F32.ofInt rows)).1
          ∨ v = (toNormalized rect (F32.ofInt cols) (F32.ofInt rows)).2.1
          ∨ v = (toNormalized rect (F32.ofInt cols) (F32.ofInt rows)).2.2.1
          ∨ v = (toNormalized rect (F32.ofInt cols) (F32.ofInt rows)).2.2.2 →
        0 ≤ F32.val v ∧ F32.val v ≤ 1)
    ∧ ∃ box : Rect, ¬ (toNormalized box (F32.ofInt 640) (F32.ofInt 480)).1.inUnit := by
  obtain ⟨x, hxn⟩ := Int.eq_ofNat_of_zero_le hx
  obtain ⟨y, hyn⟩ := Int.eq_ofNat_of_zero_le hy
  obtain ⟨w, hwn⟩ := Int.eq_ofNat_of_zero_le (le_of_lt hw)
  obtain ⟨h, hhn⟩ := Int.eq_ofNat_of_zero_le (le_of_lt hh)
  obtain ⟨W, hWn⟩ := Int.eq_ofNat_of_zero_le (show (0 : Int) ≤ cols by omega)
  obtain ⟨H, hHn⟩ := Int.eq_ofNat_of_zero_le (show (0 : Int) ≤ rows by omega)
  obtain ⟨k1, k2, e1, b1, e2, b2⟩ := axis_range x w W (by omega) (by omega) (by omega)
  obtain ⟨k3, k4, e3, b3, e4, b4⟩ := axis_range y h H (by omega) (by omega) (by omega)
  have hall : (toNormalized rect (F32.ofInt cols) (F32.ofInt rows)).1.inUnit
      ∧ (toNormalized rect (F32.ofInt cols) (F32.ofInt rows)).2.1.inUnit
      ∧ (toNormalized rect (F32.ofInt cols) (F32.ofInt rows)).2.2.1.inUnit
      ∧ (toNormalized rect (F32.ofInt cols) (F32.ofInt rows)).2.2.2.inUnit := by
    unfold toNormalized
    simp only
    rw [hxn, hyn, hwn, hhn, hWn, hHn, e1, e2, e3, e4]
    unfold F32.inUnit
    simp only
    exact ⟨⟨Int.ofNat_nonneg _, by exact_mod_cast b1⟩, ⟨Int.ofNat_nonneg _, by exact_mod_cast b3⟩,
      ⟨Int.ofNat_nonneg _, by exact_mod_cast b2⟩, ⟨Int.ofNat_nonneg _, by exact_mod_cast b4⟩⟩
  refine ⟨hall, ?_, ⟨⟨600, 10, 100, 100⟩, by decide⟩⟩
  intro v hv
  rcases hv with hv | hv | hv | hv
  · rw [hv]; exact inUnit_val _ hall.1
  · rw [hv]; exact inUnit_val _ hall.2.1
  · rw [hv]; exact inUnit_val _ hall.2.2.1
  · rw [hv]; exact inUnit_val _ hall.2.2.2

/-- C18 on the box `(10, 10, 100, 100)` of a 640x480 image. -/
theorem C18_normalized_range_witness :
    (toNormalized ⟨10, 10, 100, 100⟩ (F32.ofInt 640) (F32.ofInt 480)).1.inUnit
    ∧ (toNormalized ⟨10, 10, 100, 100⟩ (F32.ofInt 640) (F32.ofInt 480)).2.1.inUnit
    ∧ (toNormalized ⟨10, 10, 100, 100⟩ (F32.ofInt 640) (F32.ofInt 480)).2.2.1.inUnit
    ∧ (toNormalized ⟨10, 10, 100, 100⟩ (F32.ofInt 640) (F32.ofInt 480)).2.2.2.inUnit :=
  (C18_normalized_range ⟨10, 10, 100, 100⟩ 640 480 (by decide) (by decide) (by decide)
    (by decide) (by decide) (by decide) (by decide) (by decide)).1

/-! ## Disk mirrors memory -/

theorem within1_refl (b : BoundingBox) : BoundingBox.within1 b b := by
  unfold BoundingBox.within1 Rect.within1
  simp

theorem forall₂_within1_refl (l : List BoundingBox) : List.Forall₂ BoundingBox.within1 l l := by
  induction l with
  | nil => exact List.Forall₂.nil
  | cons b l ih => exact List.Forall₂.cons (within1_refl b) ih

theorem loadAnnotations_forgets (x : YoloAnnotator) (boxes : List BoundingBox) :
    ({ x with currentBoxes := boxes } : YoloAnnotator).loadAnnotations = x.loadAnnotations := by
  unfold YoloAnnotator.loadAnnotations
  rfl

theorem loadAnnotations_twice (x : YoloAnnotator) :
    x.loadAnnotations.loadAnnotations = x.loadAnnotations := by
  conv_lhs => rw [loadAnnotations_shape x]
  exact loadAnnotations_forgets x _

theorem loadAnnotations_mirror (x : YoloAnnotator) : x.loadAnnotations.diskMirrorsMemory := by
  unfold YoloAnnotator.diskMirrorsMemory
  rw [loadAnnotations_twice]
  exact forall₂_within1_refl _

theorem loadCurrentImage_mirror (x : YoloAnnotator)
    (hidx : x.currentImageIndex < x.imageFiles.length)
    (hdec : (x.imread x.imagePath).empty = false) : x.loadCurrentImage.diskMirrorsMemory := by
  unfold YoloAnnotator.loadCurrentImage
  simp only [hidx, if_true, hdec, Bool.false_eq_true, if_false]
  exact loadAnnotations_mirror _

theorem imagePath_mem (x : YoloAnnotator) (hidx : x.currentImageIndex < x.imageFiles.length) :
    x.imagePath ∈ x.imageFiles := by
  unfold YoloAnnotator.imagePath
  rw [List.getD_eq_getElem?_getD, List.getElem?_eq_getElem hidx]
  exact List.getElem_mem _

theorem loadAnnotations_boxes_eq (x y : YoloAnnotator) (hf : x.files = y.files)
    (hp : x.imagePath = y.imagePath) (hi : x.currentImage = y.currentImage) :
    x.loadAnnotations.currentBoxes = y.loadAnnotations.currentBoxes := by
  unfold YoloAnnotator.loadAnnotations
  rw [hf, hp, hi]
  cases y.files (annotationPath y.imagePath) <;> rfl

theorem mirror_congr (x y : YoloAnnotator) (hf : x.files = y.files)
    (hp : x.imagePath = y.imagePath) (hi : x.currentImage = y.currentImage)
    (hb : x.currentBoxes = y.currentBoxes) (h : y.diskMirrorsMemory) : x.diskMirrorsMemory := by
  unfold YoloAnnotator.diskMirrorsMemory at h ⊢
  rw [loadAnnotations_boxes_eq x y hf hp hi, hb]
  exact h

theorem changeClass_image (a : YoloAnnotator) :
    a.changeClass.currentImage = a.currentImage ∧ a.changeClass.imread = a.imread
    ∧ a.changeClass.canCreate = a.canCreate := by
  cases a
  exact ⟨rfl, rfl, rfl⟩

theorem changeClass_mirror (a : YoloAnnotator) (h : a.diskMirrorsMemory) :
    a.changeClass.diskMirrorsMemory := by
  obtain ⟨-, fb, ff, -, fi, fm, -⟩ := changeClass_frame a
  refine mirror_congr _ a ff ?_ (changeClass_image a).1 fb h
  unfold YoloAnnotator.imagePath
  rw [fi, fm]


/-! ## Signed values -/

theorem ofUnits_exact_int (m : Int) (j d : Nat) (hm : |m| < 2 ^ 24) (hd : 0 < d)
    (hj : j ≤ 253) :
    F32.ofUnits (m * 2 ^ j * d) d = F32.fin (m * 2 ^ j) := by
  have hn : m.natAbs < 2 ^ 24 := by
    have : ((m.natAbs : Nat) : Int) < 2 ^ 24 := by rw [Int.natCast_natAbs]; exact hm
    exact_mod_cast this
  have h1 := ofUnits_exact m.natAbs j d hn hd (exact_max _ j hn hj)
  rcases le_or_lt 0 m with h0 | h0
  · have e : (m.natAbs : Int) = m := Int.natAbs_of_nonneg h0
    have e1 : ((m.natAbs * 2 ^ j * d : Nat) : Int) = m * 2 ^ j * d := by
      push_cast; rw [abs_of_nonneg h0]
    have e2 : ((m.natAbs * 2 ^ j : Nat) : Int) = m * 2 ^ j := by
      push_cast; rw [abs_of_nonneg h0]
    rw [e1, e2] at h1
    exact h1
  · have e : (m.natAbs : Int) = -m := by omega
    have h2 := ofUnits_neg _ _ _ h1
    have e1 : -((m.natAbs * 2 ^ j * d : Nat) : Int) = m * 2 ^ j * d := by
      push_cast; rw [abs_of_neg h0]; ring
    have e2 : -((m.natAbs * 2 ^ j : Nat) : Int) = m * 2 ^ j := by
      push_cast; rw [abs_of_neg h0]; ring
    rw [e1, e2] at h2
    exact h2

theorem ofInt_exact_int (n : Int) (h : |n| < 2 ^ 24) :
    F32.ofInt n = F32.fin (n * 2 ^ 149) := by
  have h1 := ofUnits_exact_int n 149 1 h (by norm_num) (by norm_num)
  unfold F32.ofInt F32.ofFrac F32.one
  rw [← h1]
  congr 1
  push_cast
  ring

theorem div_fin_int (a : Int) (b : Nat) (hb : 0 < b) :
    F32.div (F32.fin a) (F32.fin (b : Int)) = F32.ofUnits (a * (F32.one : Int)) b := by
  have hne : ¬ ((b : Int) = 0) := by omega
  have hs : (b : Int).sign = 1 := Int.sign_eq_one_of_pos (by omega)
  simp only [F32.div, hne, if_false, hs, Int.natAbs_ofNat, mul_one]

theorem add_fin_int (a b : Int) :
    F32.add (F32.fin a) (F32.fin b) = F32.ofUnits (a + b) 1 := by
  simp only [F32.add]

theorem ofInt_two : F32.ofInt 2 = F32.fin ((2 * F32.one : Nat) : Int) := by
  rw [show (2 : Int) = ((2 : Nat) : Int) by rfl, ofInt_exact 2 (by norm_num)]
  rfl

theorem half_exact_int (w : Int) (h : |w| < 2 ^ 24) :
    F32.div (F32.ofInt w) (F32.ofInt 2) = F32.fin (w * 2 ^ 148) := by
  rw [ofInt_two, ofInt_exact_int w h, div_fin_int _ _ (by unfold F32.one; positivity)]
  have h1 := ofUnits_exact_int w 148 (2 * F32.one) h (by unfold F32.one; positivity)
    (by norm_num)
  have e : w * 2 ^ 149 * (F32.one : Int) = w * 2 ^ 148 * ((2 * F32.one : Nat) : Int) := by
    rw [show (149 : Nat) = 148 + 1 by rfl, pow_succ, Nat.cast_mul]
    generalize ((F32.one : Nat) : Int) = u
    rw [Nat.cast_ofNat]
    ring
  rw [e, h1]

theorem sum_exact_int (x w : Int) (hx : |x| < 2 ^ 24) (hw : |w| < 2 ^ 24)
    (h : |2 * x + w| < 2 ^ 24) :
    F32.add (F32.ofInt x) (F32.div (F32.ofInt w) (F32.ofInt 2))
      = F32.fin ((2 * x + w) * 2 ^ 148) := by
  rw [ofInt_exact_int x hx, half_exact_int w hw, add_fin_int]
  have h1 := ofUnits_exact_int (2 * x + w) 148 1 h (by norm_num) (by norm_num)
  have e : x * 2 ^ 149 + w * 2 ^ 148 = (2 * x + w) * 2 ^ 148 * ((1 : Nat) : Int) := by
    rw [show (149 : Nat) = 148 + 1 by rfl, pow_succ, Nat.cast_one]
    ring
  rw [e, h1]

/-- The `float` of a positive `int` image size: a positive number of units between
`2 ^ 149` and `2 ^ 180`. -/
theorem ofInt_size (W : Nat) (hW1 : 1 ≤ W) (hW2 : W < 2 ^ 31) :
    ∃ M : Nat, F32.ofInt (W : Int) = F32.fin (M : Int) ∧ 2 ^ 149 ≤ M ∧ M ≤ 2 ^ 180 := by
  obtain ⟨h1, h2⟩ := ofInt_round W hW2
  refine ⟨_, h1, ?_, h2⟩
  have hone : F32.one = 2 ^ 149 := rfl
  have hU : F32.roundMag (1 * F32.one) 1 = 2 ^ 149 := by
    have := roundMag_exact 1 149 1 (by norm_num) (by norm_num)
    rw [Nat.mul_one] at this
    rw [hone]
    exact this
  rw [← hU]
  apply round_mono
  · exact Nat.mul_le_mul_right _ hW1
  · rw [hone]
    exact le_trans (Nat.pow_le_pow_right (by norm_num) (by norm_num : 23 ≤ 149))
      (Nat.le_mul_of_pos_left _ hW1)

theorem padDigits_head (w n : Nat) :
    ∃ d tl, padDigits (w + 1) n = d :: tl ∧ isDigit d = true := by
  have hlen := padDigits_length (w + 1) n
  have hdig := padDigits_digits (w + 1) n
  cases hp : padDigits (w + 1) n with
  | nil => rw [hp] at hlen; simp at hlen
  | cons d tl => exact ⟨d, tl, rfl, hdig d (by rw [hp]; simp)⟩

theorem showMag_head (k : Nat) : ∃ d tl, showMag k = d :: tl ∧ isDigit d = true := by
  unfold showMag
  simp only
  generalize decMant k F32.one = dx
  obtain ⟨dm, x⟩ := dx
  obtain ⟨d, tl, hp, hd⟩ := padDigits_head 5 dm
  simp only
  split
  · unfold showSci
    simp only [hp, List.take_succ_cons, List.take_zero, List.cons_append, List.nil_append]
    exact ⟨d, _, rfl, hd⟩
  · unfold showFix
    simp only [hp]
    split
    · simp only [List.take_succ_cons, List.cons_append]
      exact ⟨d, _, rfl, hd⟩
    · exact ⟨'0', _, rfl, by decide⟩

theorem decValue_neg (m p j : Int) (h : decValue m p = F32.fin j) :
    decValue (-m) p = F32.fin (-j) := by
  unfold decValue F32.ofFrac at h ⊢
  split at h
  · rename_i hp
    rw [if_pos hp]
    have := ofUnits_neg _ _ _ h
    rw [← this]
    congr 1
    ring
  · rename_i hp
    rw [if_neg hp]
    have := ofUnits_neg _ _ _ h
    rw [← this]
    congr 1
    ring

theorem scanFloat_minus (d : Char) (tl rest : List Char) (hd : isDigit d = true) (j : Int)
    (h : scanFloat (' ' :: d :: tl) = some (F32.fin j, rest)) :
    scanFloat (' ' :: '-' :: d :: tl) = some (F32.fin (-j), rest) := by
  have hsp : isSpace d = false := (digit_not_special d hd).1
  have hskip1 : skipWs (' ' :: d :: tl) = d :: tl := by
    have h1 : isSpace ' ' = true := by decide
    simp only [skipWs, List.dropWhile, h1, hsp]
  have hskip2 : skipWs (' ' :: '-' :: d :: tl) = '-' :: d :: tl := by
    have h1 : isSpace ' ' = true := by decide
    have h2 : isSpace '-' = false := by decide
    simp only [skipWs, List.dropWhile, h1, h2]
  have hs1 : scanSign (d :: tl) = (false, d :: tl) := scanSign_digit d tl hd
  have hs2 : scanSign ('-' :: d :: tl) = (true, d :: tl) := rfl
  unfold scanFloat at h ⊢
  simp only [hskip1, hs1] at h
  simp only [hskip2, hs2]
  split at h
  · cases h
  · rename_i hne
    rw [if_neg hne]
    cases he : scanExp (scanFrac ((d :: tl).dropWhile isDigit)).2 with
    | none => rw [he] at h; cases h
    | some er =>
      obtain ⟨e, r⟩ := er
      rw [he] at h
      simp only [Bool.false_eq_true, if_false] at h
      simp only [if_true]
      cases hv : decValue ((natOfDigits ((d :: tl).takeWhile isDigit
          ++ (scanFrac ((d :: tl).dropWhile isDigit)).1) : Nat) : Int)
          (e - (((scanFrac ((d :: tl).dropWhile isDigit)).1.length : Nat) : Int)) with
      | fin k =>
        rw [hv] at h
        simp only [Option.some.injEq, Prod.mk.injEq, F32.fin.injEq] at h
        rw [decValue_neg _ _ _ hv]
        simp only [Option.some.injEq, Prod.mk.injEq, F32.fin.injEq]
        exact ⟨by rw [h.1], h.2⟩
      | inf s => rw [hv] at h; cases h
      | nan => rw [hv] at h; cases h

/-- A written `float` of magnitude at most `2 ^ 180` units, read back: the value
read differs by the six-digit rounding of the text and the rounding to binary32. -/
theorem scan_showFloat_int (k : Int) (hk : |k| ≤ 2 ^ 180) (rest : List Char)
    (hr : EndsField rest) :
    ∃ k' : Int,
      scanFloat (' ' :: (showFloat (F32.fin k) ++ rest)) = some (F32.fin k', rest)
      ∧ |(k' : ℚ) - (k : ℚ)| ≤ 1 / 2 + |(k : ℚ)| * (1 / 200000 + 1 / 2 ^ 23) := by
  rcases le_or_lt 0 k with h0 | h0
  · obtain ⟨n, rfl⟩ := Int.eq_ofNat_of_zero_le h0
    have hn : n ≤ 2 ^ 180 := by
      rw [abs_of_nonneg h0] at hk
      exact_mod_cast hk
    obtain ⟨k', h1, h2⟩ := scan_showFloat n hn rest hr
    refine ⟨(k' : Int), h1, ?_⟩
    rw [Int.cast_natCast, Int.cast_natCast, abs_of_nonneg (by positivity : (0 : ℚ) ≤ (n : ℚ))]
    exact h2
  · obtain ⟨n, hn⟩ := Int.eq_ofNat_of_zero_le (show 0 ≤ -k by omega)
    have hkn : k = -(n : Int) := by omega
    have hn1 : 1 ≤ n := by omega
    have hn2 : n ≤ 2 ^ 180 := by
      rw [abs_of_neg h0, hn] at hk
      exact_mod_cast hk
    obtain ⟨k', h1, h2⟩ := scan_showFloat n hn2 rest hr
    have hsn : showFloat (F32.fin (n : Int)) = showMag n := by
      have e1 : ¬ ((n : Int) = 0) := by omega
      have e2 : ¬ ((n : Int) < 0) := by omega
      simp only [showFloat, e1, e2, if_false, Int.natAbs_ofNat]
    have hsk : showFloat (F32.fin k) = '-' :: showMag n := by
      have e1 : ¬ (k = 0) := by omega
      have e3 : k.natAbs = n := by omega
      simp only [showFloat, e1, h0, if_false, if_true, e3]
    obtain ⟨d, tl, hd, hdig⟩ := showMag_head n
    rw [hsn, hd, List.cons_append] at h1
    refine ⟨-(k' : Int), ?_, ?_⟩
    · rw [hsk, hd, List.cons_append, List.cons_append]
      exact scanFloat_minus d _ rest hdig _ h1
    · have e : ((-(k' : Int) : Int) : ℚ) - ((k : Int) : ℚ) = -((k' : ℚ) - (n : ℚ)) := by
        rw [hkn]; push_cast; ring
      have e2 : |((k : Int) : ℚ)| = (n : ℚ) := by
        rw [hkn]; push_cast; rw [abs_neg, abs_of_nonneg (by positivity)]
      rw [e, abs_neg, e2]
      exact h2

/-! ## The arithmetic of the codec, for boxes on either side of the border -/

theorem abs_bound (k v e E : ℚ) (h : |k - v| ≤ e) (hv : |v| ≤ E) : |k| ≤ E + e := by
  have := abs_sub_abs_le_abs_sub k v
  linarith

theorem scaled_err (k v W r : ℚ) (hW : 0 < W) (h : |k - v| ≤ 1 / 2 + |v| * r) :
    |k * W - v * W| ≤ W / 2 + |v * W| * r := by
  have e1 : k * W - v * W = (k - v) * W := by ring
  rw [e1, abs_mul, abs_mul, abs_of_pos hW]
  have := mul_le_mul_of_nonneg_right h (le_of_lt hW)
  linarith

/-- The error of a value of magnitude at most `E` that is rounded to a `float`,
written with six digits and read back, all scaled by the image size. -/
theorem read_back2 (u X eps c c' E : ℚ) (hu : 0 ≤ u) (he : eps ≤ u / 1000)
    (hX : |X| ≤ E)
    (h1 : |c - X| ≤ eps + |X| * (1 / 2 ^ 24))
    (h2 : |c' - c| ≤ eps + |c| * (1 / 200000 + 1 / 2 ^ 23)) :
    |c' - X| ≤ u / 400 + E * (52 / 10 ^ 7) := by
  have hc := abs_bound c X _ E h1 hX
  have h3 := abs_sub_le c' c X
  have hX0 := abs_nonneg X
  norm_num at h1 h2 hc ⊢
  linarith

theorem pixel_core (u X Bw eps c' d' h t : ℚ) (hu : 0 ≤ u) (he : eps ≤ u / 1000)
    (hB : |Bw| ≤ 65536 * u) (hD : |X - Bw / 2| ≤ 65536 * u)
    (hc : |c' - X| ≤ 514 / 1000 * u) (hd : |d' - Bw| ≤ 344 / 1000 * u)
    (h5 : |h - d' / 2| ≤ eps + |d' / 2| * (1 / 2 ^ 24))
    (h6 : |t - (c' - h)| ≤ eps + |c' - h| * (1 / 2 ^ 24)) :
    |t - (X - Bw / 2)| ≤ 3 / 4 * u ∧ |t| ≤ 65537 * u := by
  have hd' := abs_bound d' Bw _ _ hd hB
  have e0 : |d' / 2| = |d'| / 2 := by rw [abs_div]; norm_num
  rw [e0] at h5
  have e1 : |h - Bw / 2| ≤ |h - d' / 2| + |d' / 2 - Bw / 2| := abs_sub_le _ _ _
  have e2 : |d' / 2 - Bw / 2| = |d' - Bw| / 2 := by
    rw [show d' / 2 - Bw / 2 = (d' - Bw) / 2 by ring, abs_div]; norm_num
  rw [e2] at e1
  have e3 : |c' - h - (X - Bw / 2)| ≤ |c' - X| + |h - Bw / 2| := by
    have := abs_sub (c' - X) (h - Bw / 2)
    rw [show c' - X - (h - Bw / 2) = c' - h - (X - Bw / 2) by ring] at this
    exact this
  have e4 := abs_bound (c' - h) (X - Bw / 2) _ _ e3 hD
  have e5 : |t - (X - Bw / 2)| ≤ |t - (c' - h)| + |c' - h - (X - Bw / 2)| := abs_sub_le _ _ _
  have r1 : |t - (X - Bw / 2)| ≤ 3 / 4 * u := by
    norm_num at h5 h6 ⊢
    linarith
  exact ⟨r1, by have := abs_bound t (X - Bw / 2) _ _ r1 hD; linarith⟩

theorem pixel_last (u v kp t : ℚ) (hu2 : 1 ≤ u / 1000) (hv : |v| ≤ 65536 * u)
    (ht : |t - v| ≤ 3 / 4 * u) (h7 : |kp - t| ≤ 1 / 2 + |t| * (1 / 2 ^ 24)) : |kp - v| < u := by
  have h1 := abs_bound t v _ _ ht hv
  have h2 : |kp - v| ≤ |kp - t| + |t - v| := abs_sub_le _ _ _
  norm_num at h7 ⊢
  linarith

/-! ## The four operations on finite values -/

theorem oneq : ((F32.one : Nat) : ℚ) = 2 ^ 149 := by
  unfold F32.one
  push_cast
  rfl

theorem valq (n : Int) (d : Nat) (v : ℚ) (hd : 0 < d) (hv : (n : ℚ) / d = v)
    (hq : |v| ≤ 2 ^ 200) :
    ∃ k : Int, F32.ofUnits n d = F32.fin k ∧ |(k : ℚ) - v| ≤ 1 / 2 + |v| * (1 / 2 ^ 24) := by
  have hdq : (0 : ℚ) < d := by exact_mod_cast hd
  have h1 : |(n : ℚ)| ≤ 2 ^ 200 * (d : ℚ) := by
    have e : (n : ℚ) = v * d := by rw [← hv]; field_simp
    rw [e, abs_mul, abs_of_pos hdq]
    exact mul_le_mul_of_nonneg_right hq (le_of_lt hdq)
  obtain ⟨k, h2, h3⟩ := ofUnits_valq n d hd h1
  rw [hv] at h3
  rw [← div_eq_mul_one_div]
  exact ⟨k, h2, h3⟩

theorem div_val (a : Int) (M : Nat) (hM : 0 < M) (hq : |(a : ℚ) / ((M : ℚ) / 2 ^ 149)| ≤ 2 ^ 200) :
    ∃ k : Int, F32.div (F32.fin a) (F32.fin (M : Int)) = F32.fin k
      ∧ |(k : ℚ) - (a : ℚ) / ((M : ℚ) / 2 ^ 149)|
          ≤ 1 / 2 + |(a : ℚ) / ((M : ℚ) / 2 ^ 149)| * (1 / 2 ^ 24) := by
  rw [div_fin_int a M hM]
  have hMq : (0 : ℚ) < M := by exact_mod_cast hM
  refine valq _ M _ hM ?_ hq
  rw [Int.cast_mul, Int.cast_natCast, oneq]
  field_simp

theorem half_val (a : Int) (hq : |(a : ℚ) / 2| ≤ 2 ^ 200) :
    ∃ k : Int, F32.div (F32.fin a) (F32.ofInt 2) = F32.fin k
      ∧ |(k : ℚ) - (a : ℚ) / 2| ≤ 1 / 2 + |(a : ℚ) / 2| * (1 / 2 ^ 24) := by
  rw [ofInt_two]
  have hpos : 0 < 2 * F32.one := by unfold F32.one; positivity
  obtain ⟨k, h1, h2⟩ := div_val a (2 * F32.one) hpos (by
    have e : (a : ℚ) / (((2 * F32.one : Nat) : ℚ) / 2 ^ 149) = (a : ℚ) / 2 := by
      rw [Nat.cast_mul, oneq]; field_simp
    rw [e]; exact hq)
  have e : (a : ℚ) / (((2 * F32.one : Nat) : ℚ) / 2 ^ 149) = (a : ℚ) / 2 := by
    rw [Nat.cast_mul, oneq]; field_simp
  rw [e] at h2
  exact ⟨k, h1, h2⟩

theorem sub_val (a b : Int) (hq : |(a : ℚ) - (b : ℚ)| ≤ 2 ^ 200) :
    ∃ k : Int, F32.sub (F32.fin a) (F32.fin b) = F32.fin k
      ∧ |(k : ℚ) - ((a : ℚ) - (b : ℚ))| ≤ 1 / 2 + |(a : ℚ) - (b : ℚ)| * (1 / 2 ^ 24) := by
  rw [sub_fin]
  refine valq _ 1 _ (by norm_num) ?_ hq
  push_cast
  ring

theorem mul_val (a : Int) (M : Nat) (hq : |(a : ℚ) * ((M : ℚ) / 2 ^ 149)| ≤ 2 ^ 200) :
    ∃ k : Int, F32.mul (F32.fin a) (F32.fin (M : Int)) = F32.fin k
      ∧ |(k : ℚ) - (a : ℚ) * ((M : ℚ) / 2 ^ 149)|
          ≤ 1 / 2 + |(a : ℚ) * ((M : ℚ) / 2 ^ 149)| * (1 / 2 ^ 24) := by
  rw [mul_fin]
  refine valq _ F32.one _ (by unfold F32.one; positivity) ?_ hq
  rw [Int.cast_mul, Int.cast_natCast, oneq]
  ring

theorem unscale (k W E : ℚ) (hW : 1 ≤ W) (h : |k * W| ≤ E) : |k| ≤ E := by
  rw [abs_mul, abs_of_pos (by linarith : (0 : ℚ) < W)] at h
  have := mul_le_mul_of_nonneg_left hW (abs_nonneg k)
  linarith

theorem tdiv_near_int (kp x U : Int) (hU : 0 < U)
    (h1 : (x - 1) * U < kp) (h2 : kp < (x + 1) * U) :
    x - 1 ≤ kp.tdiv U ∧ kp.tdiv U ≤ x + 1 := by
  rcases le_or_lt 0 kp with h0 | h0
  · rw [Int.tdiv_eq_ediv h0 (le_of_lt hU)]
    constructor
    · rw [Int.le_ediv_iff_mul_le hU]; omega
    · have : kp / U < x + 1 := by rw [Int.ediv_lt_iff_lt_mul hU]; exact h2
      omega
  · have h5 : kp.tdiv U = -((-kp).tdiv U) := by
      rw [Int.neg_tdiv, neg_neg]
    rw [h5, Int.tdiv_eq_ediv (by omega) (le_of_lt hU)]
    have e1 : -x - 1 ≤ -kp / U := by
      rw [Int.le_ediv_iff_mul_le hU]
      have : (-x - 1) * U = -((x + 1) * U) := by ring
      omega
    have e2 : -kp / U < -x + 1 := by
      rw [Int.ediv_lt_iff_lt_mul hU]
      have : (-x + 1) * U = -((x - 1) * U) := by ring
      omega
    constructor <;> omega

theorem toInt_near_int (kp x : Int) (hx : |x| ≤ 65536)
    (h : |(kp : ℚ) - (x : ℚ) * 2 ^ 149| < 2 ^ 149) :
    |F32.toInt (F32.fin kp) - x| ≤ 1 := by
  rw [abs_lt] at h
  rw [abs_le] at hx
  have h1 : (x - 1) * 2 ^ 149 < kp := by
    have : (((x - 1) * 2 ^ 149 : Int) : ℚ) < (kp : ℚ) := by push_cast; linarith [h.1]
    exact_mod_cast this
  have h2 : kp < (x + 1) * 2 ^ 149 := by
    have : (kp : ℚ) < (((x + 1) * 2 ^ 149 : Int) : ℚ) := by push_cast; linarith [h.2]
    exact_mod_cast this
  obtain ⟨h3, h4⟩ := tdiv_near_int kp x (2 ^ 149) (by positivity) h1 h2
  have hone : ((F32.one : Nat) : Int) = 2 ^ 149 := by unfold F32.one; push_cast
  unfold F32.toInt
  simp only [hone]
  have hr : -(2 ^ 31 : Int) ≤ kp.tdiv (2 ^ 149) ∧ kp.tdiv (2 ^ 149) < 2 ^ 31 := by
    constructor
    · have : -(2 ^ 31 : Int) ≤ x - 1 := by norm_num; omega
      omega
    · have : x + 1 < (2 ^ 31 : Int) := by norm_num; omega
      omega
  rw [if_pos hr, abs_le]
  constructor <;> omega

/-! ## One axis of a box, saved and read back -/

theorem size_facts (M : Nat) (hM1 : 2 ^ 149 ≤ M) (hM2 : M ≤ 2 ^ 180) :
    (1 : ℚ) ≤ (M : ℚ) / 2 ^ 149 ∧ (M : ℚ) / 2 ^ 149 / 2 ≤ (2 : ℚ) ^ 149 / 1000 := by
  have h1 : ((2 ^ 149 : Nat) : ℚ) ≤ (M : ℚ) := by exact_mod_cast hM1
  have h2 : (M : ℚ) ≤ ((2 ^ 180 : Nat) : ℚ) := by exact_mod_cast hM2
  rw [Nat.cast_pow, Nat.cast_ofNat] at h1 h2
  constructor
  · rw [le_div_iff₀ (by positivity)]
    linarith
  · rw [div_div, div_le_iff₀ (by positivity)]
    have : (2 : ℚ) ^ 180 ≤ 2 ^ 149 / 1000 * (2 ^ 149 * 2) := by norm_num
    linarith

theorem box_facts (x w : Int) (hx : |x| ≤ 65536) (hw : |w| ≤ 65536) :
    |((2 * x + w : Int) : ℚ) * 2 ^ 148| ≤ 98304 * 2 ^ 149
    ∧ |(w : ℚ) * 2 ^ 149| ≤ 65536 * 2 ^ 149
    ∧ |(x : ℚ) * 2 ^ 149| ≤ 65536 * 2 ^ 149
    ∧ ((2 * x + w : Int) : ℚ) * 2 ^ 148 - (w : ℚ) * 2 ^ 149 / 2 = (x : ℚ) * 2 ^ 149 := by
  have hxq : |(x : ℚ)| ≤ 65536 := by exact_mod_cast hx
  have hwq : |(w : ℚ)| ≤ 65536 := by exact_mod_cast hw
  rw [abs_le] at hxq hwq
  refine ⟨?_, ?_, ?_, ?_⟩
  · rw [abs_le]; push_cast; constructor <;> linarith
  · rw [abs_le]; constructor <;> linarith
  · rw [abs_le]; constructor <;> linarith
  · push_cast; ring

theorem axis_save2 (x w : Int) (M : Nat) (hx : |x| ≤ 65536) (hw : |w| ≤ 65536)
    (hM1 : 2 ^ 149 ≤ M) (hM2 : M ≤ 2 ^ 180) :
    ∃ kc kw : Int,
      F32.div (F32.add (F32.ofInt x) (F32.div (F32.ofInt w) (F32.ofInt 2))) (F32.fin (M : Int))
        = F32.fin kc
      ∧ F32.div (F32.ofInt w) (F32.fin (M : Int)) = F32.fin kw
      ∧ |(kc : ℚ) * ((M : ℚ) / 2 ^ 149) - ((2 * x + w : Int) : ℚ) * 2 ^ 148|
          ≤ (M : ℚ) / 2 ^ 149 / 2 + |((2 * x + w : Int) : ℚ) * 2 ^ 148| * (1 / 2 ^ 24)
      ∧ |(kw : ℚ) * ((M : ℚ) / 2 ^ 149) - (w : ℚ) * 2 ^ 149|
          ≤ (M : ℚ) / 2 ^ 149 / 2 + |(w : ℚ) * 2 ^ 149| * (1 / 2 ^ 24) := by
  obtain ⟨hW1, -⟩ := size_facts M hM1 hM2
  obtain ⟨hX, hB, -, -⟩ := box_facts x w hx hw
  have hW0 : (0 : ℚ) < (M : ℚ) / 2 ^ 149 := by linarith
  have hM0 : 0 < M := lt_of_lt_of_le (by positivity) hM1
  have hx1 := abs_le.mp hx
  have hw1 := abs_le.mp hw
  have hs : |2 * x + w| < 2 ^ 24 := by
    rw [abs_lt]; constructor <;> norm_num <;> omega
  rw [sum_exact_int x w (lt_of_le_of_lt hx (by norm_num)) (lt_of_le_of_lt hw (by norm_num)) hs,
    ofInt_exact_int w (lt_of_le_of_lt hw (by norm_num))]
  have c1 : (98304 : ℚ) * 2 ^ 149 ≤ 2 ^ 200 := by norm_num
  have c2 : (65536 : ℚ) * 2 ^ 149 ≤ 2 ^ 200 := by norm_num
  have q1 : |(((2 * x + w) * 2 ^ 148 : Int) : ℚ) / ((M : ℚ) / 2 ^ 149)| ≤ 2 ^ 200 := by
    rw [abs_div, abs_of_pos hW0, div_le_iff₀ hW0]
    have e : (((2 * x + w) * 2 ^ 148 : Int) : ℚ) = ((2 * x + w : Int) : ℚ) * 2 ^ 148 := by
      push_cast; ring
    rw [e]
    have : (2 : ℚ) ^ 200 * 1 ≤ 2 ^ 200 * ((M : ℚ) / 2 ^ 149) :=
      mul_le_mul_of_nonneg_left hW1 (by positivity)
    rw [mul_one] at this
    exact le_trans hX (le_trans c1 this)
  have q2 : |((w * 2 ^ 149 : Int) : ℚ) / ((M : ℚ) / 2 ^ 149)| ≤ 2 ^ 200 := by
    rw [abs_div, abs_of_pos hW0, div_le_iff₀ hW0]
    have e : ((w * 2 ^ 149 : Int) : ℚ) = (w : ℚ) * 2 ^ 149 := by push_cast; ring
    rw [e]
    have : (2 : ℚ) ^ 200 * 1 ≤ 2 ^ 200 * ((M : ℚ) / 2 ^ 149) :=
      mul_le_mul_of_nonneg_left hW1 (by positivity)
    rw [mul_one] at this
    exact le_trans hB (le_trans c2 this)
  obtain ⟨kc, hkc, hbc⟩ := div_val _ M hM0 q1
  obtain ⟨kw, hkw, hbw⟩ := div_val _ M hM0 q2
  refine ⟨kc, kw, hkc, hkw, ?_, ?_⟩
  · have := scaled_err _ _ _ _ hW0 hbc
    have e : (((2 * x + w) * 2 ^ 148 : Int) : ℚ) / ((M : ℚ) / 2 ^ 149) * ((M : ℚ) / 2 ^ 149)
        = ((2 * x + w : Int) : ℚ) * 2 ^ 148 := by
      rw [div_mul_cancel₀ _ (ne_of_gt hW0)]; push_cast; ring
    rw [e] at this
    exact this
  · have := scaled_err _ _ _ _ hW0 hbw
    have e : ((w * 2 ^ 149 : Int) : ℚ) / ((M : ℚ) / 2 ^ 149) * ((M : ℚ) / 2 ^ 149)
        = (w : ℚ) * 2 ^ 149 := by
      rw [div_mul_cancel₀ _ (ne_of_gt hW0)]; push_cast; ring
    rw [e] at this
    exact this

theorem axis_direct2 (x w : Int) (M : Nat) (hx : |x| ≤ 65536) (hw : |w| ≤ 65536)
    (hM1 : 2 ^ 149 ≤ M) (hM2 : M ≤ 2 ^ 180) :
    ∃ kc kw : Int,
      F32.div (F32.add (F32.ofInt x) (F32.div (F32.ofInt w) (F32.ofInt 2))) (F32.fin (M : Int))
        = F32.fin kc
      ∧ F32.div (F32.ofInt w) (F32.fin (M : Int)) = F32.fin kw
      ∧ |(kc : ℚ) * ((M : ℚ) / 2 ^ 149) - ((2 * x + w : Int) : ℚ) * 2 ^ 148|
          ≤ 514 / 1000 * 2 ^ 149
      ∧ |(kw : ℚ) * ((M : ℚ) / 2 ^ 149) - (w : ℚ) * 2 ^ 149| ≤ 344 / 1000 * 2 ^ 149 := by
  obtain ⟨kc, kw, hkc, hkw, hbc, hbw⟩ := axis_save2 x w M hx hw hM1 hM2
  obtain ⟨-, he⟩ := size_facts M hM1 hM2
  obtain ⟨hX, hB, -, -⟩ := box_facts x w hx hw
  refine ⟨kc, kw, hkc, hkw, ?_, ?_⟩
  · norm_num at hbc he hX ⊢
    linarith
  · norm_num at hbw he hB ⊢
    linarith

theorem int_le_of_abs (k : Int) (E : ℚ) (h : |(k : ℚ)| ≤ E) (hE : E ≤ 2 ^ 180) :
    |k| ≤ 2 ^ 180 := by
  have : ((|k| : Int) : ℚ) ≤ ((2 ^ 180 : Int) : ℚ) := by
    push_cast
    exact le_trans h hE
  exact_mod_cast this

theorem axis_text2 (x w : Int) (M : Nat) (hx : |x| ≤ 65536) (hw : |w| ≤ 65536)
    (hM1 : 2 ^ 149 ≤ M) (hM2 : M ≤ 2 ^ 180)
    (r1 r2 : List Char) (h1 : EndsField r1) (h2 : EndsField r2) :
    ∃ kc' kw' : Int,
      scanFloat (' ' :: (showFloat (F32.div (F32.add (F32.ofInt x)
          (F32.div (F32.ofInt w) (F32.ofInt 2))) (F32.fin (M : Int))) ++ r1))
        = some (F32.fin kc', r1)
      ∧ scanFloat (' ' :: (showFloat (F32.div (F32.ofInt w) (F32.fin (M : Int))) ++ r2))
        = some (F32.fin kw', r2)
      ∧ |(kc' : ℚ) * ((M : ℚ) / 2 ^ 149) - ((2 * x + w : Int) : ℚ) * 2 ^ 148|
          ≤ 514 / 1000 * 2 ^ 149
      ∧ |(kw' : ℚ) * ((M : ℚ) / 2 ^ 149) - (w : ℚ) * 2 ^ 149| ≤ 344 / 1000 * 2 ^ 149 := by
  obtain ⟨kc, kw, hkc, hkw, hbc, hbw⟩ := axis_save2 x w M hx hw hM1 hM2
  obtain ⟨hW1, he⟩ := size_facts M hM1 hM2
  obtain ⟨hX, hB, -, -⟩ := box_facts x w hx hw
  have hW0 : (0 : ℚ) < (M : ℚ) / 2 ^ 149 := by linarith
  have hu : (0 : ℚ) ≤ 2 ^ 149 := by positivity
  -- the magnitudes written
  have m1 : |(kc : ℚ)| ≤ 98304 * 2 ^ 149
      + ((M : ℚ) / 2 ^ 149 / 2 + |((2 * x + w : Int) : ℚ) * 2 ^ 148| * (1 / 2 ^ 24)) :=
    unscale _ _ _ hW1 (abs_bound _ _ _ _ hbc hX)
  have m2 : |(kw : ℚ)| ≤ 65536 * 2 ^ 149
      + ((M : ℚ) / 2 ^ 149 / 2 + |(w : ℚ) * 2 ^ 149| * (1 / 2 ^ 24)) :=
    unscale _ _ _ hW1 (abs_bound _ _ _ _ hbw hB)
  have n1 : |kc| ≤ 2 ^ 180 := int_le_of_abs kc _ m1 (by
    norm_num at he hX ⊢
    linarith)
  have n2 : |kw| ≤ 2 ^ 180 := int_le_of_abs kw _ m2 (by
    norm_num at he hB ⊢
    linarith)
  obtain ⟨kc', hs1, hb1⟩ := scan_showFloat_int kc n1 r1 h1
  obtain ⟨kw', hs2, hb2⟩ := scan_showFloat_int kw n2 r2 h2
  have g1 := scaled_err _ _ _ _ hW0 hb1
  have g2 := scaled_err _ _ _ _ hW0 hb2
  refine ⟨kc', kw', ?_, ?_, ?_, ?_⟩
  · rw [hkc]; exact hs1
  · rw [hkw]; exact hs2
  · have := read_back2 (2 ^ 149) _ _ _ _ _ hu he hX hbc g1
    refine le_trans this ?_
    norm_num
  · have := read_back2 (2 ^ 149) _ _ _ _ _ hu he hB hbw g2
    refine le_trans this ?_
    norm_num

theorem axis_back2 (x w : Int) (M : Nat) (kc' kw' : Int) (hx : |x| ≤ 65536) (hw : |w| ≤ 65536)
    (hM1 : 2 ^ 149 ≤ M) (hM2 : M ≤ 2 ^ 180)
    (hc : |(kc' : ℚ) * ((M : ℚ) / 2 ^ 149) - ((2 * x + w : Int) : ℚ) * 2 ^ 148|
      ≤ 514 / 1000 * 2 ^ 149)
    (hwb : |(kw' : ℚ) * ((M : ℚ) / 2 ^ 149) - (w : ℚ) * 2 ^ 149| ≤ 344 / 1000 * 2 ^ 149) :
    |F32.toInt (F32.mul (F32.sub (F32.fin kc') (F32.div (F32.fin kw') (F32.ofInt 2)))
        (F32.fin (M : Int))) - x| ≤ 1
    ∧ |F32.toInt (F32.mul (F32.fin kw') (F32.fin (M : Int))) - w| ≤ 1 := by
  obtain ⟨hW1, he⟩ := size_facts M hM1 hM2
  obtain ⟨hX, hB, hxb, hD⟩ := box_facts x w hx hw
  have hW0 : (0 : ℚ) < (M : ℚ) / 2 ^ 149 := by linarith
  have hu : (0 : ℚ) ≤ 2 ^ 149 := by positivity
  have hu2 : (1 : ℚ) ≤ 2 ^ 149 / 1000 := by norm_num
  have c200 : (98306 : ℚ) * 2 ^ 149 ≤ 2 ^ 200 := by norm_num
  -- the magnitudes read
  have sc := abs_bound _ _ _ _ hc hX
  have sw := abs_bound _ _ _ _ hwb hB
  have mc := unscale _ _ _ hW1 sc
  have mw := unscale _ _ _ hW1 sw
  -- the halved width
  have q5 : |(kw' : ℚ) / 2| ≤ 2 ^ 200 := by
    rw [abs_div, abs_of_pos (by norm_num : (0 : ℚ) < 2)]
    have := abs_nonneg (kw' : ℚ)
    linarith
  obtain ⟨kh, hkh, hbh⟩ := half_val kw' q5
  have g5 := scaled_err _ _ _ _ hW0 hbh
  have e5 : (kw' : ℚ) / 2 * ((M : ℚ) / 2 ^ 149) = (kw' : ℚ) * ((M : ℚ) / 2 ^ 149) / 2 := by ring
  rw [e5] at g5
  have sh5 : |(kw' : ℚ) * ((M : ℚ) / 2 ^ 149) / 2| ≤ 32769 * 2 ^ 149 := by
    rw [abs_div, abs_of_pos (by norm_num : (0 : ℚ) < 2)]
    linarith
  have sh := abs_bound _ _ _ _ g5 sh5
  have mh := unscale _ _ _ hW1 sh
  -- the difference
  have q6 : |(kc' : ℚ) - (kh : ℚ)| ≤ 2 ^ 200 := by
    have := abs_sub (kc' : ℚ) (kh : ℚ)
    norm_num at he mh mc sh5 ⊢
    linarith
  obtain ⟨kt, hkt, hbt⟩ := sub_val kc' kh q6
  have g6 := scaled_err _ _ _ _ hW0 hbt
  have e6 : ((kc' : ℚ) - (kh : ℚ)) * ((M : ℚ) / 2 ^ 149)
      = (kc' : ℚ) * ((M : ℚ) / 2 ^ 149) - (kh : ℚ) * ((M : ℚ) / 2 ^ 149) := by ring
  rw [e6] at g6
  have hD2 : |((2 * x + w : Int) : ℚ) * 2 ^ 148 - (w : ℚ) * 2 ^ 149 / 2| ≤ 65536 * 2 ^ 149 := by
    rw [hD]; exact hxb
  obtain ⟨p1, p2⟩ := pixel_core (2 ^ 149) _ _ _ _ _ _ _ hu he hB hD2 hc hwb g5 g6
  rw [hD] at p1
  -- the products
  have q7 : |(kt : ℚ) * ((M : ℚ) / 2 ^ 149)| ≤ 2 ^ 200 := by linarith
  obtain ⟨kp, hkp, hbp⟩ := mul_val kt M q7
  have r1 := pixel_last (2 ^ 149) _ kp _ hu2 hxb p1 hbp
  have q8 : |(kw' : ℚ) * ((M : ℚ) / 2 ^ 149)| ≤ 2 ^ 200 := by
    norm_num at sw ⊢
    linarith
  obtain ⟨kq, hkq, hbq⟩ := mul_val kw' M q8
  have p3 : |(kw' : ℚ) * ((M : ℚ) / 2 ^ 149) - (w : ℚ) * 2 ^ 149| ≤ 3 / 4 * 2 ^ 149 := by
    refine le_trans hwb ?_
    norm_num
  have r2 := pixel_last (2 ^ 149) _ kq _ hu2 hB p3 hbq
  rw [hkh, hkt, hkp, hkq]
  exact ⟨toInt_near_int kp x hx r1, toInt_near_int kq w hw r2⟩

/-! ## A written line, read back: boxes on either side of the border -/

theorem line_back2 (c x y w h : Int) (W H : Nat)
    (hc1 : -(2 ^ 31 : Int) ≤ c) (hc2 : c < 2 ^ 31)
    (hW1 : 1 ≤ W) (hW2 : W < 2 ^ 31) (hH1 : 1 ≤ H) (hH2 : H < 2 ^ 31)
    (hx : |x| ≤ 65536) (hy : |y| ≤ 65536) (hw : |w| ≤ 65536) (hh : |h| ≤ 65536) :
    ∃ r : Rect,
      parseLine (formatBox (BoundingBox.mk ⟨x, y, w, h⟩ c) (F32.ofInt W) (F32.ofInt H))
          (F32.ofInt W) (F32.ofInt H) = some (BoundingBox.mk r c)
      ∧ |r.x - x| ≤ 1 ∧ |r.y - y| ≤ 1 ∧ |r.width - w| ≤ 1 ∧ |r.height - h| ≤ 1 := by
  obtain ⟨M, hM, hM1, hM2⟩ := ofInt_size W hW1 hW2
  obtain ⟨N, hN, hN1, hN2⟩ := ofInt_size H hH1 hH2
  rw [hM, hN]
  -- the four written numbers
  set fx := showFloat (F32.div (F32.add (F32.ofInt x)
    (F32.div (F32.ofInt w) (F32.ofInt 2))) (F32.fin (M : Int))) with hfx
  set fy := showFloat (F32.div (F32.add (F32.ofInt y)
    (F32.div (F32.ofInt h) (F32.ofInt 2))) (F32.fin (N : Int))) with hfy
  set fw := showFloat (F32.div (F32.ofInt w) (F32.fin (M : Int))) with hfw
  set fh := showFloat (F32.div (F32.ofInt h) (F32.fin (N : Int))) with hfh
  have hline : formatBox (BoundingBox.mk ⟨x, y, w, h⟩ c) (F32.fin (M : Int)) (F32.fin (N : Int))
      = showInt c ++ ' ' :: (fx ++ ' ' :: (fy ++ ' ' :: (fw ++ ' ' :: (fh ++ [])))) := by
    simp only [formatBox, toNormalized, List.append_assoc, List.cons_append, List.append_nil]
  obtain ⟨kx, kw, sx, sw, bx, bw⟩ := axis_text2 x w M hx hw hM1 hM2
    (' ' :: (fy ++ ' ' :: (fw ++ ' ' :: (fh ++ [])))) (' ' :: (fh ++ []))
    (Or.inr ⟨_, rfl⟩) (Or.inr ⟨_, rfl⟩)
  obtain ⟨ky, kh, sy, sh, b_y, bh⟩ := axis_text2 y h N hy hh hN1 hN2
    (' ' :: (fw ++ ' ' :: (fh ++ []))) [] (Or.inr ⟨_, rfl⟩) (Or.inl rfl)
  obtain ⟨px, pw⟩ := axis_back2 x w M kx kw hx hw hM1 hM2 bx bw
  obtain ⟨py, ph⟩ := axis_back2 y h N ky kh hy hh hN1 hN2 b_y bh
  refine ⟨toPixel (F32.fin kx) (F32.fin ky) (F32.fin kw) (F32.fin kh) (F32.fin (M : Int))
    (F32.fin (N : Int)), ?_, px, py, pw, ph⟩
  rw [hline]
  unfold parseLine
  rw [scanInt_showInt c hc1 hc2]
  simp only [sx, sy, sw, sh]

theorem textRoundTrip_bounded (box : BoundingBox) (cols rows : Int) (hb : box.bounded)
    (hW1 : 0 < cols) (hW2 : cols < 2 ^ 31) (hH1 : 0 < rows) (hH2 : rows < 2 ^ 31) :
    ∃ b, textRoundTrip box cols rows = some b ∧ BoundingBox.within1 b box := by
  obtain ⟨⟨x, y, w, h⟩, c⟩ := box
  obtain ⟨⟨h1, h2, h3, h4⟩, hc1, hc2⟩ := hb
  simp only at h1 h2 h3 h4 hc1 hc2
  obtain ⟨W, rfl⟩ := Int.eq_ofNat_of_zero_le (le_of_lt hW1)
  obtain ⟨H, rfl⟩ := Int.eq_ofNat_of_zero_le (le_of_lt hH1)
  obtain ⟨r, hr, e1, e2, e3, e4⟩ := line_back2 c x y w h W H hc1 hc2 (by omega) (by omega)
    (by omega) (by omega) h1 h2 h3 h4
  exact ⟨BoundingBox.mk r c, hr, rfl, e1, e2, e3, e4⟩

theorem codecRoundTrip_bounded (rect : Rect) (cols rows : Int) (hb : rect.bounded)
    (hW1 : 0 < cols) (hW2 : cols < 2 ^ 31) (hH1 : 0 < rows) (hH2 : rows < 2 ^ 31) :
    Rect.within1 (codecRoundTrip rect cols rows) rect := by
  obtain ⟨x, y, w, h⟩ := rect
  obtain ⟨h1, h2, h3, h4⟩ := hb
  simp only at h1 h2 h3 h4
  obtain ⟨W, rfl⟩ := Int.eq_ofNat_of_zero_le (le_of_lt hW1)
  obtain ⟨H, rfl⟩ := Int.eq_ofNat_of_zero_le (le_of_lt hH1)
  obtain ⟨M, hM, hM1, hM2⟩ := ofInt_size W (by omega) (by omega)
  obtain ⟨N, hN, hN1, hN2⟩ := ofInt_size H (by omega) (by omega)
  obtain ⟨kx, kw, sx, sw, bx, bw⟩ := axis_direct2 x w M h1 h3 hM1 hM2
  obtain ⟨ky, kh, sy, sh, b_y, bh⟩ := axis_direct2 y h N h2 h4 hN1 hN2
  obtain ⟨px, pw⟩ := axis_back2 x w M kx kw h1 h3 hM1 hM2 bx bw
  obtain ⟨py, ph⟩ := axis_back2 y h N ky kh h2 h4 hN1 hN2 b_y bh
  unfold codecRoundTrip toNormalized
  rw [hM, hN]
  simp only [sx, sw, sy, sh]
  exact ⟨px, py, pw, ph⟩

theorem lines_back2 (cols rows : Int) (l : List BoundingBox)
    (hW1 : 0 < cols) (hW2 : cols < 2 ^ 31) (hH1 : 0 < rows) (hH2 : rows < 2 ^ 31)
    (hl : ∀ b ∈ l, BoundingBox.bounded b) :
    List.Forall₂ BoundingBox.within1
      ((l.map (fun box => formatBox box (F32.ofInt cols) (F32.ofInt rows))).filterMap
        (fun line => parseLine line (F32.ofInt cols) (F32.ofInt rows))) l := by
  induction l with
  | nil => exact List.Forall₂.nil
  | cons b l ih =>
    obtain ⟨b', hb', hwithin⟩ := textRoundTrip_bounded b cols rows
      (hl b (List.mem_cons_self _ _)) hW1 hW2 hH1 hH2
    unfold textRoundTrip at hb'
    rw [List.map_cons, List.filterMap_cons, hb']
    exact List.Forall₂.cons hwithin (ih (fun c hc => hl c (List.mem_cons_of_mem _ hc)))

/-- C1 (codec round trip), amended: for every pixel box whose x, y, width and
height have magnitude at most 65536 (inside the image, across its border or
outside it; any width and height, also at most 5) and every image size with
0 < W, H in the range of `int`, converting the box to normalized coordinates with
the formulas of `saveAnnotations` and back with the formulas of `loadAnnotations`
gives a box whose x, y, width and height each differ from the original by at most
1 pixel, both on the `float` values and through the written line of six
significant digits (there with the class id, an `int`, kept). -/
theorem C1_round_trip (rect : Rect) (classId cols rows : Int)
    (hx : |rect.x| ≤ 65536) (hy : |rect.y| ≤ 65536)
    (hw : |rect.width| ≤ 65536) (hh : |rect.height| ≤ 65536)
    (hW1 : 0 < cols) (hW2 : cols < 2 ^ 31) (hH1 : 0 < rows) (hH2 : rows < 2 ^ 31)
    (hc1 : -(2 ^ 31 : Int) ≤ classId) (hc2 : classId < 2 ^ 31) :
    Rect.within1 (codecRoundTrip rect cols rows) rect
    ∧ textRoundTripOk (BoundingBox.mk rect classId) cols rows := by
  refine ⟨codecRoundTrip_bounded rect cols rows ⟨hx, hy, hw, hh⟩ hW1 hW2 hH1 hH2, ?_⟩
  obtain ⟨b, hb, hwithin⟩ := textRoundTrip_bounded (BoundingBox.mk rect classId) cols rows
    ⟨⟨hx, hy, hw, hh⟩, hc1, hc2⟩ hW1 hW2 hH1 hH2
  unfold textRoundTripOk
  rw [hb]
  exact hwithin

/-- Witness of C1: the box (-3, -4, 10, 11), across the top left corner of a
640 x 480 image. -/
theorem C1_round_trip_witness :
    Rect.within1 (codecRoundTrip ⟨-3, -4, 10, 11⟩ 640 480) ⟨-3, -4, 10, 11⟩
    ∧ textRoundTripOk (BoundingBox.mk ⟨-3, -4, 10, 11⟩ 0) 640 480 :=
  C1_round_trip ⟨-3, -4, 10, 11⟩ 0 640 480 (by decide) (by decide) (by decide) (by decide)
    (by decide) (by decide) (by decide) (by decide) (by decide) (by decide)

/-- C2 (save then load), amended: for every BoxSet whose boxes have fields of
magnitude at most 65536 (inside the image, across its border or outside it) and
class ids in the range of `int`, and every image size with 0 < W, H in the range of
`int`, when the label file can be opened for writing, `saveAnnotations` followed by
`loadAnnotations` for the same image yields a BoxSet with the same number of
boxes, in the same order, with the same classId at every position and every box
within 1 pixel of the saved one in each of x, y, width, height. -/
theorem C2_save_load (a : YoloAnnotator)
    (hcreate : a.canCreate (annotationPath a.imagePath) = true)
    (hW1 : 0 < a.currentImage.cols) (hW2 : a.currentImage.cols < 2 ^ 31)
    (hH1 : 0 < a.currentImage.rows) (hH2 : a.currentImage.rows < 2 ^ 31)
    (hboxes : ∀ b ∈ a.currentBoxes, BoundingBox.bounded b) :
    a.saveAnnotations.loadAnnotations.currentBoxes.length = a.currentBoxes.length
    ∧ List.Forall₂ BoundingBox.within1
        a.saveAnnotations.loadAnnotations.currentBoxes a.currentBoxes := by
  have h := lines_back2 a.currentImage.cols a.currentImage.rows a.currentBoxes hW1 hW2 hH1 hH2
    hboxes
  rw [save_load_boxes a hcreate]
  exact ⟨h.length_eq, h⟩

/-- Witness of C2: the session holding three boxes of different classes on a
640 x 480 image, two of them across its border. -/
theorem C2_save_load_witness :
    sampleSpill.saveAnnotations.loadAnnotations.currentBoxes.length
      = sampleSpill.currentBoxes.length
    ∧ List.Forall₂ BoundingBox.within1
        sampleSpill.saveAnnotations.loadAnnotations.currentBoxes sampleSpill.currentBoxes :=
  C2_save_load sampleSpill (by decide) (by decide) (by decide) (by decide) (by decide)
    (by decide)

/-! ## Committing a box and coming back to it: drags on either side of the border -/

theorem drag_bounded (sx ex : Int) (hs : |sx| ≤ 32768) (he : |ex| ≤ 32768) :
    |min sx ex| ≤ 65536 ∧ wrapInt |ex - sx| = |ex - sx| ∧ |(|ex - sx|)| ≤ 65536 := by
  rw [abs_le] at hs he
  have h1 : |ex - sx| ≤ 65536 := by rw [abs_le]; constructor <;> omega
  have h0 : 0 ≤ |ex - sx| := abs_nonneg _
  refine ⟨?_, wrapInt_small _ (by norm_num; omega) (by norm_num; omega), ?_⟩
  · rcases le_total sx ex with h | h
    · rw [min_eq_left h, abs_le]; constructor <;> omega
    · rw [min_eq_right h, abs_le]; constructor <;> omega
  · rw [abs_abs]; exact h1

/-- C9 (persist on switch), amended: starting on an image of the catalog whose
BoxSet is empty, whose file decodes to the current image (of positive size) and
whose label file can be opened for writing, a drag between two points with
coordinates of magnitude at most 32768 (inside the image or past its border) that
passes the threshold commits one box; after `next()` the label file of the original
image holds exactly one record, the normalized form of that box with its class id;
and if `next()` moved the cursor, `previous()` comes back to the original image
with a BoxSet of exactly one box, of the same class id and within 1 pixel of the
committed one. -/
theorem C9_persist_on_switch (a : YoloAnnotator) (s e : Point) (t1 t2 : Int)
    (hempty : a.currentBoxes = [])
    (hcreate : a.canCreate (annotationPath a.imagePath) = true)
    (hidx : a.currentImageIndex < a.imageFiles.length)
    (himg : a.imread a.imagePath = a.currentImage)
    (hW : 0 < a.currentImage.cols ∧ a.currentImage.cols < 2 ^ 31)
    (hH : 0 < a.currentImage.rows ∧ a.currentImage.rows < 2 ^ 31)
    (hs : |s.x| ≤ 32768 ∧ |s.y| ≤ 32768) (he : |e.x| ≤ 32768 ∧ |e.y| ≤ 32768)
    (hthr : 5 < |e.x - s.x| ∧ 5 < |e.y - s.y|)
    (hclass : -(2 ^ 31 : Int) ≤ a.currentClass ∧ a.currentClass < 2 ^ 31) :
    ((a.onMouse EVENT_LBUTTONDOWN s.x s.y).onMouse EVENT_LBUTTONUP e.x e.y).currentBoxes
      = [BoundingBox.mk ⟨min s.x e.x, min s.y e.y, |e.x - s.x|, |e.y - s.y|⟩ a.currentClass]
    ∧ ∀ a2, ((a.onMouse EVENT_LBUTTONDOWN s.x s.y).onMouse EVENT_LBUTTONUP e.x e.y).run 110 t1
          = some a2 →
        a2.files (annotationPath a.imagePath)
          = some [formatBox
              (BoundingBox.mk ⟨min s.x e.x, min s.y e.y, |e.x - s.x|, |e.y - s.y|⟩ a.currentClass)
              (F32.ofInt a.currentImage.cols) (F32.ofInt a.currentImage.rows)]
        ∧ (a2.currentImageIndex = a.currentImageIndex + 1 →
            ∀ a3, a2.run 112 t2 = some a3 →
              a3.currentImageIndex = a.currentImageIndex
              ∧ List.Forall₂ BoundingBox.within1 a3.currentBoxes
                  [BoundingBox.mk ⟨min s.x e.x, min s.y e.y, |e.x - s.x|, |e.y - s.y|⟩
                    a.currentClass]) := by
  obtain ⟨bx, wx, bw⟩ := drag_bounded s.x e.x hs.1 he.1
  obtain ⟨b_y, wy, bh⟩ := drag_bounded s.y e.y hs.2 he.2
  have hthr2 : 5 < wrapInt |e.x - s.x| ∧ 5 < wrapInt |e.y - s.y| := by
    rw [wx, wy]; exact hthr
  rw [drag_committed a s e hthr2 hcreate, hempty, wx, wy]
  refine ⟨rfl, ?_⟩
  intro a2 h2
  obtain ⟨hfiles, hread, himgs⟩ := next_frame _ t1 a2 h2
  have hfile : a2.files (annotationPath a.imagePath)
      = some [formatBox
          (BoundingBox.mk ⟨min s.x e.x, min s.y e.y, |e.x - s.x|, |e.y - s.y|⟩ a.currentClass)
          (F32.ofInt a.currentImage.cols) (F32.ofInt a.currentImage.rows)] := by
    rw [hfiles]
    simp only [if_true, List.nil_append, List.map_cons, List.map_nil]
  refine ⟨hfile, ?_⟩
  intro hmoved a3 h3
  have hpath : a2.imageFiles.getD a.currentImageIndex "" = a.imagePath := by
    rw [himgs]; rfl
  have hdec : a2.imread (a2.imageFiles.getD a.currentImageIndex "") = a.currentImage := by
    rw [hpath, hread]; exact himg
  have hne : (a2.imread (a2.imageFiles.getD a.currentImageIndex "")).empty = false := by
    rw [hdec]
    unfold Mat.empty
    simp only [Bool.or_eq_false_iff, beq_eq_false_iff_ne, ne_eq]
    exact ⟨by omega, by omega⟩
  obtain ⟨hback, hboxes⟩ := previous_loads a2 t2 a3 a.currentImageIndex _ hmoved
    (by rw [himgs]; exact hidx) hne (by rw [hpath]; exact hfile) h3
  refine ⟨hback, ?_⟩
  rw [hboxes, hdec]
  exact lines_back2 a.currentImage.cols a.currentImage.rows
    [BoundingBox.mk ⟨min s.x e.x, min s.y e.y, |e.x - s.x|, |e.y - s.y|⟩ a.currentClass]
    hW.1 hW.2 hH.1 hH.2
    (fun b hb => by
      rw [List.mem_singleton] at hb
      rw [hb]
      exact ⟨⟨bx, b_y, bw, bh⟩, hclass.1, hclass.2⟩)

/-- C9, amended, at the sample state: the drag (600,400)->(700,500), released past
the bottom right corner of the 640x480 image `a.jpg`. -/
theorem C9_persist_on_switch_witness :
    ((sample.onMouse EVENT_LBUTTONDOWN 600 400).onMouse EVENT_LBUTTONUP 700 500).currentBoxes
      = [BoundingBox.mk ⟨600, 400, 100, 100⟩ 0]
    ∧ ∀ a2, ((sample.onMouse EVENT_LBUTTONDOWN 600 400).onMouse EVENT_LBUTTONUP 700 500).run 110 0
          = some a2 →
        a2.files "a.txt"
          = some [formatBox (BoundingBox.mk ⟨600, 400, 100, 100⟩ 0) (F32.ofInt 640) (F32.ofInt 480)]
        ∧ (a2.currentImageIndex = 1 →
            ∀ a3, a2.run 112 0 = some a3 →
              a3.currentImageIndex = 0
              ∧ List.Forall₂ BoundingBox.within1 a3.currentBoxes
                  [BoundingBox.mk ⟨600, 400, 100, 100⟩ 0]) :=
  C9_persist_on_switch sample ⟨600, 400⟩ ⟨700, 500⟩ 0 0 (by decide) (by decide) (by decide)
    (by decide) (by decide) (by decide) (by decide) (by decide) (by decide) (by decide)

/-! ## Disk mirrors memory along a sequence of inputs -/

theorem saveAnnotations_mirror2 (x : YoloAnnotator)
    (hcreate : x.canCreate (annotationPath x.imagePath) = true)
    (hW : 0 < x.currentImage.cols ∧ x.currentImage.cols < 2 ^ 31)
    (hH : 0 < x.currentImage.rows ∧ x.currentImage.rows < 2 ^ 31)
    (hb : ∀ b ∈ x.currentBoxes, BoundingBox.bounded b) :
    x.saveAnnotations.diskMirrorsMemory := by
  unfold YoloAnnotator.diskMirrorsMemory
  rw [save_load_boxes x hcreate, saveAnnotations_currentBoxes]
  exact lines_back2 _ _ _ hW.1 hW.2 hH.1 hH.2 hb

theorem saveAnnotations_ready (x : YoloAnnotator) (h : x.storeReady) :
    x.saveAnnotations.storeReady := by
  rw [saveAnnotations_shape]
  exact h

theorem loadCurrentImage_canCreate (x : YoloAnnotator) :
    x.loadCurrentImage.canCreate = x.canCreate := by
  rw [loadCurrentImage_shape]

theorem loadCurrentImage_image (x : YoloAnnotator)
    (hidx : x.currentImageIndex < x.imageFiles.length) :
    x.loadCurrentImage.currentImage = x.imread x.imagePath := by
  unfold YoloAnnotator.loadCurrentImage
  simp only [hidx, if_true]
  split
  · rfl
  · rw [loadAnnotations_shape]

theorem decodes_of_ready (x : YoloAnnotator) (h : x.storeReady)
    (hidx : x.currentImageIndex < x.imageFiles.length) :
    (x.imread x.imagePath).empty = false := by
  obtain ⟨-, hdec, -, -, -⟩ := h
  obtain ⟨hc, hr⟩ := hdec _ (imagePath_mem x hidx)
  unfold Mat.empty
  simp only [Bool.or_eq_false_iff, beq_eq_false_iff_ne, ne_eq]
  exact ⟨by omega, by omega⟩

theorem loadCurrentImage_ready (x : YoloAnnotator) (k : Nat) (hk : k < x.imageFiles.length)
    (h : x.storeReady) :
    ({ x with currentImageIndex := k } : YoloAnnotator).loadCurrentImage.storeReady := by
  obtain ⟨-, hdec, hcr, -, -⟩ := h
  have hmem := imagePath_mem ({ x with currentImageIndex := k } : YoloAnnotator) hk
  unfold YoloAnnotator.storeReady
  rw [loadCurrentImage_index, loadCurrentImage_imageFiles, loadCurrentImage_imread,
    loadCurrentImage_canCreate,
    loadCurrentImage_image ({ x with currentImageIndex := k } : YoloAnnotator) hk]
  exact ⟨hk, hdec, hcr, (hdec _ hmem).1, (hdec _ hmem).2⟩

theorem step_ready (a a1 : YoloAnnotator) (i : Input) (h : a.step i = some a1)
    (hr : a.storeReady) : a1.storeReady := by
  have hidx := hr.1
  rcases step_cases a a1 i h hidx with ⟨s, e, d, h1⟩ | ⟨x, y, -, -, -, h1⟩ | ⟨k, hk, h1⟩ | h1
      | ⟨-, h1⟩ | ⟨k, hk, h1⟩
  · rw [h1]; exact hr
  · rw [h1]; exact saveAnnotations_ready _ hr
  · rw [h1]; exact loadCurrentImage_ready a k hk hr
  · rw [h1]
    obtain ⟨-, -, -, -, fi, fm, -⟩ := changeClass_frame a
    obtain ⟨gi, gr, gc⟩ := changeClass_image a
    unfold YoloAnnotator.storeReady
    rw [fi, fm, gi, gr, gc]
    exact hr
  · rw [h1]; exact saveAnnotations_ready _ hr
  · rw [h1]
    exact loadCurrentImage_ready a.saveAnnotations k
      (by rw [(saveAnnotations_index a).2.1]; exact hk) (saveAnnotations_ready a hr)

theorem step_mirror2 (a a1 : YoloAnnotator) (i : Input) (h : a.step i = some a1)
    (hr : a.storeReady) (hm : a.diskMirrorsMemory)
    (hb : a.editsOn i = true → ∀ b ∈ a1.currentBoxes, BoundingBox.bounded b) :
    a1.diskMirrorsMemory := by
  have hidx := hr.1
  obtain ⟨-, hdec, hcr, hW, hH⟩ := hr
  have hcreate : a.canCreate (annotationPath a.imagePath) = true :=
    hcr _ (imagePath_mem a hidx)
  rcases step_cases a a1 i h hidx with ⟨s, e, d, h1⟩ | ⟨x, y, hi, hd, ht, h1⟩ | ⟨k, hk, h1⟩ | h1
      | ⟨⟨hne, key, typed, hi, hkey⟩, h1⟩ | ⟨k, hk, h1⟩
  · rw [h1]
    exact mirror_congr _ a rfl rfl rfl rfl hm
  · have hedit : a.editsOn i = true := by
      rw [hi]
      simp only [YoloAnnotator.editsOn, EVENT_LBUTTONUP, hd, decide_True, Bool.and_self, ht,
        and_self]
    have hb1 := hb hedit
    rw [h1, saveAnnotations_currentBoxes] at hb1
    rw [h1]
    exact saveAnnotations_mirror2 _ hcreate hW hH hb1
  · rw [h1]
    exact loadCurrentImage_mirror _ hk
      (decodes_of_ready ({ a with currentImageIndex := k } : YoloAnnotator)
        ⟨hk, hdec, hcr, hW, hH⟩ hk)
  · rw [h1]
    exact changeClass_mirror a hm
  · have hedit : a.editsOn i = true := by
      rw [hi]
      simp only [YoloAnnotator.editsOn, hkey, decide_True, ne_eq, hne, not_false_eq_true,
        Bool.and_self]
    have hb1 := hb hedit
    rw [h1, saveAnnotations_currentBoxes] at hb1
    rw [h1]
    exact saveAnnotations_mirror2 _ hcreate hW hH hb1
  · rw [h1, saveAnnotations_shape a]
    exact loadCurrentImage_mirror _ hk
      (decodes_of_ready ({ a with currentImageIndex := k } : YoloAnnotator)
        ⟨hk, hdec, hcr, hW, hH⟩ hk)

theorem steps_mirror (inputs : List Input) :
    ∀ a : YoloAnnotator, a.storeReady → a.diskMirrorsMemory → a.boundedEdits inputs →
      ∀ a1, a.steps inputs = some a1 → a1.storeReady ∧ a1.diskMirrorsMemory := by
  induction inputs with
  | nil =>
    intro a hr hm _ a1 h
    have : a = a1 := Option.some.inj h
    rw [← this]
    exact ⟨hr, hm⟩
  | cons i rest ih =>
    intro a hr hm hb a1 h
    unfold YoloAnnotator.steps at h
    unfold YoloAnnotator.boundedEdits at hb
    cases hs : a.step i with
    | none => rw [hs] at h; cases h
    | some a2 =>
      rw [hs] at h hb
      exact ih a2 (step_ready a a2 i hs hr) (step_mirror2 a a2 i hs hr hm hb.1) hb.2 a1 h

/-- C20 as stated fails: every image of the sample session decodes to 640x480 and no
label file is on disk, but in a directory that cannot be written the box committed
by the drag (10,10)->(110,110) is in memory only: the label file of the image stays
absent and loads as the empty BoxSet. And where the directory can be written, the
box committed by the drag (123456789,10)->(123456889,110) loads from its label file
197 pixels off. -/
theorem C20_disk_mirrors_memory_counterexample :
    ((sampleNoWrite.onMouse EVENT_LBUTTONDOWN 10 10).onMouse EVENT_LBUTTONUP 110 110).currentBoxes
      = [BoundingBox.mk ⟨10, 10, 100, 100⟩ 0]
    ∧ ((sampleNoWrite.onMouse EVENT_LBUTTONDOWN 10 10).onMouse
        EVENT_LBUTTONUP 110 110).loadAnnotations.currentBoxes = []
    ∧ ¬ ((sampleNoWrite.onMouse EVENT_LBUTTONDOWN 10 10).onMouse
        EVENT_LBUTTONUP 110 110).diskMirrorsMemory
    ∧ ((sample.onMouse EVENT_LBUTTONDOWN 123456789 10).onMouse
        EVENT_LBUTTONUP 123456889 110).currentBoxes = [farBox]
    ∧ ((sample.onMouse EVENT_LBUTTONDOWN 123456789 10).onMouse
        EVENT_LBUTTONUP 123456889 110).loadAnnotations.currentBoxes
      = [BoundingBox.mk ⟨123456592, 10, 100, 99⟩ 0]
    ∧ ¬ ((sample.onMouse EVENT_LBUTTONDOWN 123456789 10).onMouse
        EVENT_LBUTTONUP 123456889 110).diskMirrorsMemory := by
  refine ⟨by decide, by decide, fun h => ?_, by decide, by decide, fun h => ?_⟩
  · have hlen := List.Forall₂.length_eq h
    revert hlen
    decide
  · unfold YoloAnnotator.diskMirrorsMemory at h
    rw [show ((sample.onMouse EVENT_LBUTTONDOWN 123456789 10).onMouse
          EVENT_LBUTTONUP 123456889 110).loadAnnotations.currentBoxes
        = [BoundingBox.mk ⟨123456592, 10, 100, 99⟩ 0] by decide,
      show ((sample.onMouse EVENT_LBUTTONDOWN 123456789 10).onMouse
          EVENT_LBUTTONUP 123456889 110).currentBoxes = [farBox] by decide] at h
    cases h with
    | cons h1 _ =>
      revert h1
      decide

/-- C20 (disk mirrors memory), amended: in a session where every image of the
catalog decodes with positive dimensions and the label file of every image can be
opened for writing, starting from a state in which disk mirrors memory, after every
sequence of mouse events and keys in which each edit of the BoxSet (a committed
box, a deletion) leaves boxes with fields of magnitude at most 65536 (inside the
image, across its border or outside it), disk mirrors memory: loading the label
file of the current image gives the boxes in memory, in the same number and order,
with the same class ids and within 1 pixel, an absent file counting as the empty
BoxSet. -/
theorem C20_disk_mirrors_memory (a : YoloAnnotator) (inputs : List Input)
    (hr : a.storeReady) (hm : a.diskMirrorsMemory) (hb : a.boundedEdits inputs) :
    ∀ a1, a.steps inputs = some a1 → a1.diskMirrorsMemory :=
  fun a1 h => (steps_mirror inputs a hr hm hb a1 h).2

/-- C20, amended, on the sample session: a box committed past the bottom right
corner of the image, a class change, a second box, a deletion, and a move to the
next image and back. -/
theorem C20_disk_mirrors_memory_witness :
    sample.storeReady
    ∧ sample.boundedEdits [Input.mouse 1 600 400, Input.mouse 4 700 500, Input.key 99 0,
        Input.mouse 1 10 10, Input.mouse 4 110 110, Input.key 100 0, Input.key 110 0,
        Input.key 112 0]
    ∧ ∀ a1, sample.steps [Input.mouse 1 600 400, Input.mouse 4 700 500, Input.key 99 0,
        Input.mouse 1 10 10, Input.mouse 4 110 110, Input.key 100 0, Input.key 110 0,
        Input.key 112 0] = some a1 → a1.diskMirrorsMemory :=
  ⟨by decide, by decide,
    C20_disk_mirrors_memory sample _ (by decide)
      (by
        unfold YoloAnnotator.diskMirrorsMemory
        rw [show sample.loadAnnotations.currentBoxes = [] by decide,
          show sample.currentBoxes = [] by decide]
        exact List.Forall₂.nil)
      (by decide)⟩

/-! ## Well-formed fields are read -/

theorem space_facts (c : Char) (h : isSpace c = true) :
    isDigit c = false ∧ c ≠ '.' ∧ c ≠ 'e' ∧ c ≠ 'E' ∧ c ≠ '-' ∧ c ≠ '+' := by
  refine ⟨?_, ?_, ?_, ?_, ?_, ?_⟩
  · cases hd : isDigit c
    · rfl
    · rw [(digit_not_special c hd).1] at h
      cases h
  all_goals (rintro rfl; revert h; decide)

theorem skipWs_sep (s l : List Char) (hs : ∀ c ∈ s, isSpace c = true) :
    skipWs (s ++ l) = skipWs l := by
  induction s with
  | nil => rfl
  | cons c s ih =>
    have hc : isSpace c = true := hs c (by simp)
    have := ih (fun x hx => hs x (List.mem_cons_of_mem _ hx))
    unfold skipWs at this ⊢
    simp only [List.cons_append, List.dropWhile, hc]
    exact this

theorem scanFloat_congr (a b : List Char) (h : skipWs a = skipWs b) :
    scanFloat a = scanFloat b := by
  unfold scanFloat
  rw [h]

theorem scanFloat_sep (s l : List Char) (hs : ∀ c ∈ s, isSpace c = true) :
    scanFloat (s ++ l) = scanFloat (' ' :: l) := by
  apply scanFloat_congr
  rw [skipWs_sep s l hs]
  exact (skipWs_sep [' '] l (by decide)).symm

theorem scanExp_boundary (rest : List Char) (hb : ∀ c ∈ rest.head?, isSpace c = true) :
    scanExp rest = some (0, rest) := by
  cases rest with
  | nil => rfl
  | cons c r =>
    obtain ⟨-, -, h1, h2, -, -⟩ := space_facts c (hb c (by simp))
    simp only [scanExp, h1, h2, or_self, if_false]

theorem digitVal_le (c : Char) (h : isDigit c = true) : digitVal c ≤ 9 := by
  unfold isDigit at h
  unfold digitVal
  have := of_decide_eq_true h
  omega

theorem natOfDigits_lt (ds : List Char) (h : ∀ c ∈ ds, isDigit c = true) :
    natOfDigits ds < 10 ^ ds.length := by
  induction ds using List.reverseRecOn with
  | nil => simp [natOfDigits]
  | append_singleton l c ih =>
    have h1 : natOfDigits (l ++ [c]) = 10 * natOfDigits l + digitVal c := by
      simp [natOfDigits, List.foldl_append]
    have h2 := ih (fun x hx => h x (List.mem_append_left _ hx))
    have h3 := digitVal_le c (h c (by simp))
    rw [h1, List.length_append, List.length_singleton, pow_succ]
    omega

theorem number_value (ip fp : List Char) (hlen : ip.length ≤ 12)
    (hip : ∀ c ∈ ip, isDigit c = true) (hfp : ∀ c ∈ fp, isDigit c = true) :
    (natOfDigits (ip ++ fp) : ℚ) * (10 : ℚ) ^ ((0 : Int) - (fp.length : Int)) ≤ 2 ^ 40 := by
  have h1 := natOfDigits_lt ip hip
  have h2 := natOfDigits_lt fp hfp
  have h3 : (10 : Nat) ^ ip.length ≤ 10 ^ 12 := Nat.pow_le_pow_right (by norm_num) hlen
  have h4 : natOfDigits (ip ++ fp) ≤ 10 ^ 12 * 10 ^ fp.length := by
    rw [natOfDigits_append]
    have : (natOfDigits ip + 1) * 10 ^ fp.length ≤ 10 ^ 12 * 10 ^ fp.length :=
      Nat.mul_le_mul_right _ (by omega)
    rw [Nat.add_mul, Nat.one_mul] at this
    omega
  have h5 : (natOfDigits (ip ++ fp) : ℚ) ≤ 10 ^ 12 * 10 ^ fp.length := by exact_mod_cast h4
  have hpos : (0 : ℚ) < 10 ^ fp.length := by positivity
  rw [zero_sub, zpow_neg, zpow_natCast, ← div_eq_mul_inv, div_le_iff₀ hpos]
  have c1 : (10 : ℚ) ^ 12 ≤ 2 ^ 40 := by norm_num
  have := mul_le_mul_of_nonneg_right c1 (le_of_lt hpos)
  linarith

theorem scanFloat_plus (d : Char) (tl : List Char) (hd : isDigit d = true) :
    scanFloat (' ' :: '+' :: d :: tl) = scanFloat (' ' :: d :: tl) := by
  have hsp : isSpace d = false := (digit_not_special d hd).1
  have hskip1 : skipWs (' ' :: d :: tl) = d :: tl := by
    have h1 : isSpace ' ' = true := by decide
    simp only [skipWs, List.dropWhile, h1, hsp]
  have hskip2 : skipWs (' ' :: '+' :: d :: tl) = '+' :: d :: tl := by
    have h1 : isSpace ' ' = true := by decide
    have h2 : isSpace '+' = false := by decide
    simp only [skipWs, List.dropWhile, h1, h2]
  have hs1 : scanSign (d :: tl) = (false, d :: tl) := scanSign_digit d tl hd
  have hs2 : scanSign ('+' :: d :: tl) = (false, d :: tl) := rfl
  unfold scanFloat
  simp only [hskip1, hskip2, hs1, hs2]

/-- A well-formed number field is read, up to the whitespace or line end after it. -/
theorem scanFloat_number (t : Literal) (s rest : List Char) (ht : t.isNumber)
    (hs : isSeparator s) (hb : ∀ c ∈ rest.head?, isSpace c = true) :
    ∃ k : Int, scanFloat (s ++ (t.text ++ rest)) = some (F32.fin k, rest) := by
  obtain ⟨hsign, hne, hlen, hip, hfp⟩ := ht
  rw [scanFloat_sep s _ hs.2]
  have hhead : ∀ c ∈ ([] ++ rest).head?, isDigit c = false ∧ c ≠ '.' := by
    intro c hc
    obtain ⟨h1, h2, -⟩ := space_facts c (hb c hc)
    exact ⟨h1, h2⟩
  have hplain := scanFloat_literal t.ip t.fp [] rest 0 hip hne hfp hhead
    (scanExp_boundary rest hb)
  obtain ⟨k, hk, -⟩ := decValue_bound (natOfDigits (t.ip ++ t.fp))
    ((0 : Int) - (t.fp.length : Int)) (number_value t.ip t.fp hlen hip hfp)
  rw [hk] at hplain
  simp only [List.nil_append] at hplain
  obtain ⟨d, tl, hd⟩ : ∃ d tl, t.ip = d :: tl := by
    cases hi : t.ip with
    | nil => exact absurd hi hne
    | cons d tl => exact ⟨d, tl, rfl⟩
  have hdig : isDigit d = true := hip d (by rw [hd]; simp)
  have htext : t.ip ++ ((if t.fp = [] then [] else '.' :: t.fp) ++ rest)
      = d :: (tl ++ ((if t.fp = [] then [] else '.' :: t.fp) ++ rest)) := by
    rw [hd]; rfl
  rw [htext] at hplain
  unfold Literal.text
  rw [List.append_assoc, List.append_assoc, htext]
  rcases hsign with h | h | h
  · rw [h, List.nil_append]
    exact ⟨(k : Int), hplain⟩
  · rw [h]
    exact ⟨-(k : Int), scanFloat_minus d _ rest hdig _ hplain⟩
  · rw [h]
    refine ⟨(k : Int), ?_⟩
    rw [show ['+'] ++ d :: (tl ++ ((if t.fp = [] then [] else '.' :: t.fp) ++ rest))
      = '+' :: d :: (tl ++ ((if t.fp = [] then [] else '.' :: t.fp) ++ rest)) by rfl,
      scanFloat_plus d _ hdig]
    exact hplain

/-- A well-formed integer field at the start of a line is read as its value. -/
theorem scanInt_integer (t : Literal) (rest : List Char) (ht : t.isInteger)
    (hb : ∀ c ∈ rest.head?, isSpace c = true) :
    scanInt (t.text ++ rest) = some (t.intValue, rest) := by
  obtain ⟨⟨hsign, hne, -, hip, -⟩, hfp, hlen⟩ := ht
  have hv := natOfDigits_lt t.ip hip
  have h9 : (10 : Nat) ^ t.ip.length ≤ 10 ^ 9 := Nat.pow_le_pow_right (by norm_num) hlen
  have hvz : ((natOfDigits t.ip : Nat) : Int) < 10 ^ 9 := by
    have : natOfDigits t.ip < 10 ^ 9 := lt_of_lt_of_le hv h9
    exact_mod_cast this
  obtain ⟨ht1, ht2⟩ := takeWhile_digits t.ip rest hip
    (fun c hc => (space_facts c (hb c hc)).1)
  obtain ⟨d, tl, hd⟩ : ∃ d tl, t.ip = d :: tl := by
    cases hi : t.ip with
    | nil => exact absurd hi hne
    | cons d tl => exact ⟨d, tl, rfl⟩
  have hdig : isDigit d = true := hip d (by rw [hd]; simp)
  have hsp : isSpace d = false := (digit_not_special d hdig).1
  have hskipd : skipWs (t.ip ++ rest) = t.ip ++ rest := by
    rw [hd]
    simp only [skipWs, List.cons_append, List.dropWhile, hsp]
    rfl
  have hsignd : scanSign (t.ip ++ rest) = (false, t.ip ++ rest) := by
    rw [hd, List.cons_append]
    exact scanSign_digit d _ hdig
  unfold Literal.text Literal.intValue
  rw [hfp]
  simp only [if_true, List.append_nil]
  unfold scanInt
  rcases hsign with h | h | h
  · rw [h, List.nil_append]
    simp only [hskipd, hsignd, ht1, ht2, hne, if_false, Bool.false_eq_true,
      show ¬ (([] : List Char) = ['-']) by decide]
    rw [if_pos ⟨by omega, by omega⟩]
  · rw [h]
    have hskip : skipWs (['-'] ++ (t.ip ++ rest)) = '-' :: (t.ip ++ rest) := by
      have : isSpace '-' = false := by decide
      simp only [skipWs, List.cons_append, List.nil_append, List.dropWhile, this]
      rfl
    have hsg : scanSign ('-' :: (t.ip ++ rest)) = (true, t.ip ++ rest) := rfl
    rw [List.append_assoc]
    simp only [hskip, hsg, ht1, ht2, hne, if_false, if_true]
    rw [if_pos ⟨by omega, by omega⟩]
  · rw [h]
    have hskip : skipWs (['+'] ++ (t.ip ++ rest)) = '+' :: (t.ip ++ rest) := by
      have : isSpace '+' = false := by decide
      simp only [skipWs, List.cons_append, List.nil_append, List.dropWhile, this]
      rfl
    have hsg : scanSign ('+' :: (t.ip ++ rest)) = (false, t.ip ++ rest) := rfl
    rw [List.append_assoc]
    simp only [hskip, hsg, ht1, ht2, hne, if_false, Bool.false_eq_true,
      show ¬ (['+'] = ['-']) by decide]
    rw [if_pos ⟨by omega, by omega⟩]

theorem fields_boundary (nums : List (List Char × Literal)) (tail : List Char)
    (h : ∀ f ∈ nums, isSeparator f.1 ∧ f.2.isNumber)
    (ht : ∀ c ∈ tail.head?, isSpace c = true) :
    ∀ c ∈ (fieldsText nums ++ tail).head?, isSpace c = true := by
  cases nums with
  | nil => exact ht
  | cons f rest =>
    obtain ⟨⟨hne, hsp⟩, -⟩ := h f (List.mem_cons_self _ _)
    intro c hc
    unfold fieldsText at hc
    cases hf : f.1 with
    | nil => exact absurd hf hne
    | cons x xs =>
      rw [hf] at hc
      simp only [List.cons_append, List.head?_cons, Option.mem_def, Option.some.injEq] at hc
      rw [← hc]
      exact hsp x (by rw [hf]; simp)

theorem scanFloat_field (f : List Char × Literal) (rest : List (List Char × Literal))
    (tail : List Char) (h : ∀ g ∈ f :: rest, isSeparator g.1 ∧ g.2.isNumber)
    (ht : ∀ c ∈ tail.head?, isSpace c = true) :
    ∃ k : Int, scanFloat (fieldsText (f :: rest) ++ tail)
      = some (F32.fin k, fieldsText rest ++ tail) := by
  obtain ⟨hs, hn⟩ := h f (List.mem_cons_self _ _)
  have e : fieldsText (f :: rest) ++ tail = f.1 ++ (f.2.text ++ (fieldsText rest ++ tail)) := by
    simp only [fieldsText, List.append_assoc]
  rw [e]
  exact scanFloat_number f.2 f.1 _ hn hs
    (fields_boundary rest tail (fun g hg => h g (List.mem_cons_of_mem _ hg)) ht)

/-- A line that starts with five well-formed fields gives a box with the class id
of its first field, the same box whatever follows the fifth field after
whitespace. -/
theorem parse_full (c : Literal) (f1 f2 f3 f4 : List Char × Literal) (tail : List Char)
    (w h : F32) (hwf : wellFormedFields c [f1, f2, f3, f4])
    (ht : ∀ x ∈ tail.head?, isSpace x = true) :
    ∃ rect, parseLine (lineOf c [f1, f2, f3, f4] ++ tail) w h
      = some (BoundingBox.mk rect c.intValue) := by
  obtain ⟨hc, hn⟩ := hwf
  have e : lineOf c [f1, f2, f3, f4] ++ tail = c.text ++ (fieldsText [f1, f2, f3, f4] ++ tail) := by
    simp only [lineOf, List.append_assoc]
  have h1 := scanInt_integer c _ hc (fields_boundary _ tail hn ht)
  have hn2 : ∀ g ∈ [f2, f3, f4], isSeparator g.1 ∧ g.2.isNumber :=
    fun g hg => hn g (List.mem_cons_of_mem _ hg)
  have hn3 : ∀ g ∈ [f3, f4], isSeparator g.1 ∧ g.2.isNumber :=
    fun g hg => hn2 g (List.mem_cons_of_mem _ hg)
  have hn4 : ∀ g ∈ [f4], isSeparator g.1 ∧ g.2.isNumber :=
    fun g hg => hn3 g (List.mem_cons_of_mem _ hg)
  obtain ⟨kx, sx⟩ := scanFloat_field f1 _ tail hn ht
  obtain ⟨ky, sy⟩ := scanFloat_field f2 _ tail hn2 ht
  obtain ⟨kw, sw⟩ := scanFloat_field f3 _ tail hn3 ht
  obtain ⟨kh, sh⟩ := scanFloat_field f4 _ tail hn4 ht
  refine ⟨toPixel (F32.fin kx) (F32.fin ky) (F32.fin kw) (F32.fin kh) w h, ?_⟩
  rw [e]
  unfold parseLine
  rw [h1]
  simp only [sx, sy, sw, sh]

/-- A line of fewer than five well-formed fields gives no box, whether it ends
there or goes on with something that is not a number. -/
theorem parse_stop (c : Literal) (nums : List (List Char × Literal)) (tail : List Char)
    (w h : F32) (hwf : wellFormedFields c nums) (hlen : nums.length < 4)
    (ht : ∀ x ∈ tail.head?, isSpace x = true) (hend : scanFloat tail = none) :
    parseLine (lineOf c nums ++ tail) w h = none := by
  obtain ⟨hc, hn⟩ := hwf
  have e : lineOf c nums ++ tail = c.text ++ (fieldsText nums ++ tail) := by
    simp only [lineOf, List.append_assoc]
  have h1 := scanInt_integer c _ hc (fields_boundary _ tail hn ht)
  have hend2 : scanFloat (fieldsText [] ++ tail) = none := hend
  rw [e]
  unfold parseLine
  rw [h1]
  match nums, hn, hlen with
  | [], _, _ => simp only [hend2]
  | [f1], hn, _ =>
    obtain ⟨kx, sx⟩ := scanFloat_field f1 _ tail hn ht
    simp only [sx, hend2]
  | [f1, f2], hn, _ =>
    obtain ⟨kx, sx⟩ := scanFloat_field f1 _ tail hn ht
    obtain ⟨ky, sy⟩ := scanFloat_field f2 _ tail
      (fun g hg => hn g (List.mem_cons_of_mem _ hg)) ht
    simp only [sx, sy, hend2]
  | [f1, f2, f3], hn, _ =>
    obtain ⟨kx, sx⟩ := scanFloat_field f1 _ tail hn ht
    obtain ⟨ky, sy⟩ := scanFloat_field f2 _ tail
      (fun g hg => hn g (List.mem_cons_of_mem _ hg)) ht
    obtain ⟨kw, sw⟩ := scanFloat_field f3 _ tail
      (fun g hg => hn g (List.mem_cons_of_mem _ (List.mem_cons_of_mem _ hg))) ht
    simp only [sx, sy, sw, hend2]
  | _ :: _ :: _ :: _ :: _, _, hlen => exact absurd hlen (by simp)

/-- Whitespace followed by a character that starts no number is not read as a
number. -/
theorem scanFloat_other (s : List Char) (g : Char) (rest : List Char)
    (hs : ∀ c ∈ s, isSpace c = true)
    (hg : isDigit g = false ∧ isSpace g = false ∧ g ≠ '-' ∧ g ≠ '+' ∧ g ≠ '.') :
    scanFloat (s ++ g :: rest) = none := by
  obtain ⟨h1, h2, h3, h4, h5⟩ := hg
  have hskip : skipWs (s ++ g :: rest) = g :: rest := by
    rw [skipWs_sep s _ hs]
    simp only [skipWs, List.dropWhile, h2]
  have hsign : scanSign (g :: rest) = (false, g :: rest) := by
    unfold scanSign
    split
    · rename_i heq; cases heq; exact absurd rfl h3
    · rename_i heq; cases heq; exact absurd rfl h4
    · rfl
  have hfrac : scanFrac (g :: rest) = ([], g :: rest) :=
    scanFrac_other _ (fun x hx => by
      simp only [List.head?_cons, Option.mem_def, Option.some.injEq] at hx
      rw [← hx]; exact h5)
  unfold scanFloat
  simp only [hskip, hsign, List.takeWhile, List.dropWhile, h1, hfrac, and_self, if_true]

theorem lineOf_more (c : Literal) (f1 f2 f3 f4 : List Char × Literal)
    (more : List (List Char × Literal)) :
    lineOf c (f1 :: f2 :: f3 :: f4 :: more) = lineOf c [f1, f2, f3, f4] ++ fieldsText more := by
  simp only [lineOf, fieldsText, List.append_assoc, List.append_nil]

/-- Loading lines of well-formed fields: one box for every line of at least five
fields, in file order, with the class id of the line; none for a shorter line. -/
theorem parse_lines (specs : List (Literal × List (List Char × Literal))) (w h : F32)
    (hwf : ∀ s ∈ specs, wellFormedFields s.1 s.2) :
    ((specs.map (fun s => lineOf s.1 s.2)).filterMap (fun line => parseLine line w h)).map
        (fun box => box.classId)
      = (specs.filter (fun s => decide (4 ≤ s.2.length))).map (fun s => s.1.intValue) := by
  induction specs with
  | nil => rfl
  | cons s rest ih =>
    have ih' := ih (fun t ht => hwf t (List.mem_cons_of_mem _ ht))
    have hs := hwf s (List.mem_cons_self _ _)
    rw [List.map_cons, List.filterMap_cons, List.filter_cons]
    by_cases h4 : 4 ≤ s.2.length
    · obtain ⟨f1, f2, f3, f4, more, hnums⟩ :
          ∃ f1 f2 f3 f4 more, s.2 = f1 :: f2 :: f3 :: f4 :: more := by
        match hm : s.2, h4 with
        | f1 :: f2 :: f3 :: f4 :: more, _ => exact ⟨f1, f2, f3, f4, more, rfl⟩
        | [], h4 => simp at h4
        | [_], h4 => simp at h4
        | [_, _], h4 => simp at h4
        | [_, _, _], h4 => simp at h4
      rw [hnums] at hs
      have hs4 : wellFormedFields s.1 [f1, f2, f3, f4] :=
        ⟨hs.1, fun g hg => hs.2 g (by
          simp only [List.mem_cons, List.mem_singleton, List.not_mem_nil, or_false] at hg ⊢
          rcases hg with hg | hg | hg | hg <;> simp [hg])⟩
      obtain ⟨rect, hr⟩ := parse_full s.1 f1 f2 f3 f4 (fieldsText more) w h hs4
        (by
          have := fields_boundary more []
            (fun g hg => hs.2 g (by simp [hg])) (by simp)
          rw [List.append_nil] at this
          exact this)
      rw [← lineOf_more, ← hnums] at hr
      rw [hr]
      simp only [h4, decide_True, if_true, List.map_cons]
      rw [ih']
    · have := parse_stop s.1 s.2 [] w h hs (by omega) (by simp) (by decide)
      rw [List.append_nil] at this
      rw [this]
      simp only [h4, decide_False, Bool.false_eq_true, if_false]
      exact ih'

theorem parse_non_numeric (c : Char) (rest : List Char) (w h : F32)
    (hc : isDigit c = false ∧ isSpace c = false ∧ c ≠ '-' ∧ c ≠ '+') :
    parseLine (c :: rest) w h = none := by
  obtain ⟨h1, h2, h3, h4⟩ := hc
  have hskip : skipWs (c :: rest) = c :: rest := by
    simp only [skipWs, List.dropWhile, h2]
  have hsign : scanSign (c :: rest) = (false, c :: rest) := by
    unfold scanSign
    split
    · rename_i heq; cases heq; exact absurd rfl h3
    · rename_i heq; cases heq; exact absurd rfl h4
    · rfl
  have hint : scanInt (c :: rest) = none := by
    unfold scanInt
    simp only [hskip, hsign, List.takeWhile, h1, if_true]
  unfold parseLine
  rw [hint]

/-- C8 (malformed line tolerance), amended. `loadAnnotations` produces one box for
every line on which the extraction `iss >> classId >> x >> y >> w >> h` succeeds,
in file order, none for any other line, and never stops at a bad line. Where every
line of the file is made of well-formed fields (an integer, then numbers, separated
by whitespace), the boxes loaded are, in file order, one for each line of at least
five fields, with the class id written in its first field, and none for a line of
fewer than five fields. A line that starts with five well-formed fields gives a box
with the class id of the first field also when more follows after whitespace: the
extraction does not look past the fifth field, so a line of more than five fields
is not skipped, and a line that yields a box yields the same box when a space and
any further text are appended. A line of fewer than five well-formed fields gives
no box, whether it ends there or goes on, after whitespace, with a character that
starts no number; nor does a line whose first character starts no integer. The
three-field line `0 0.5 0.5` is skipped. -/
theorem C8_malformed_lines (a : YoloAnnotator) (text : List (List Char))
    (hf : a.files (annotationPath a.imagePath) = some text) :
    a.loadAnnotations.currentBoxes
      = text.filterMap (fun line =>
          parseLine line (F32.ofInt a.currentImage.cols) (F32.ofInt a.currentImage.rows))
    ∧ (∀ specs : List (Literal × List (List Char × Literal)),
        (∀ s ∈ specs, wellFormedFields s.1 s.2) →
        text = specs.map (fun s => lineOf s.1 s.2) →
        a.loadAnnotations.currentBoxes.map (fun box => box.classId)
          = (specs.filter (fun s => decide (4 ≤ s.2.length))).map (fun s => s.1.intValue))
    ∧ (∀ (c : Literal) (f1 f2 f3 f4 : List Char × Literal) (tail : List Char),
        wellFormedFields c [f1, f2, f3, f4] → (∀ x ∈ tail.head?, isSpace x = true) →
        ∃ rect, parseLine (lineOf c [f1, f2, f3, f4] ++ tail) (F32.ofInt a.currentImage.cols)
          (F32.ofInt a.currentImage.rows) = some (BoundingBox.mk rect c.intValue))
    ∧ (∀ (c : Literal) (nums : List (List Char × Literal)) (tail : List Char),
        wellFormedFields c nums → nums.length < 4 →
        (tail = [] ∨ ∃ s g rest, tail = s ++ g :: rest ∧ isSeparator s
          ∧ isDigit g = false ∧ isSpace g = false ∧ g ≠ '-' ∧ g ≠ '+' ∧ g ≠ '.') →
        parseLine (lineOf c nums ++ tail) (F32.ofInt a.currentImage.cols)
          (F32.ofInt a.currentImage.rows) = none)
    ∧ (∀ (g : Char) (rest : List Char),
        isDigit g = false ∧ isSpace g = false ∧ g ≠ '-' ∧ g ≠ '+' →
        parseLine (g :: rest) (F32.ofInt a.currentImage.cols)
          (F32.ofInt a.currentImage.rows) = none)
    ∧ (∀ line extra box,
        parseLine line (F32.ofInt a.currentImage.cols) (F32.ofInt a.currentImage.rows) = some box →
        parseLine (line ++ ' ' :: extra) (F32.ofInt a.currentImage.cols)
          (F32.ofInt a.currentImage.rows) = some box)
    ∧ parseLine ['0', ' ', '0', '.', '5', ' ', '0', '.', '5'] (F32.ofInt a.currentImage.cols)
        (F32.ofInt a.currentImage.rows) = none := by
  refine ⟨loadAnnotations_boxes a text hf, ?_, ?_, ?_, ?_,
    fun line extra box hp => parseLine_append line extra _ _ box hp,
    parseLine_three_fields _ _⟩
  · intro specs hwf htext
    rw [loadAnnotations_boxes a text hf, htext]
    exact parse_lines specs _ _ hwf
  · intro c f1 f2 f3 f4 tail hwf ht
    exact parse_full c f1 f2 f3 f4 tail _ _ hwf ht
  · intro c nums tail hwf hlen ht
    rcases ht with ht | ⟨s, g, rest, ht, hs, hg⟩
    · rw [ht]
      exact parse_stop c nums [] _ _ hwf hlen (by simp) (by decide)
    · rw [ht]
      refine parse_stop c nums _ _ _ hwf hlen ?_ (scanFloat_other s g rest hs.2 hg)
      intro x hx
      cases hsl : s with
      | nil => exact absurd hsl hs.1
      | cons y ys =>
        rw [hsl] at hx
        simp only [List.cons_append, List.head?_cons, Option.mem_def, Option.some.injEq] at hx
        rw [← hx]
        exact hs.2 y (by rw [hsl]; simp)
  · intro g rest hg
    exact parse_non_numeric g rest _ _ hg

/-- Witness of C8: a label file with one well-formed line of five fields and one of
three fields loads exactly one box, of the class written in the first line. -/
theorem C8_malformed_lines_witness :
    (sampleLabelled twoLineText).files (annotationPath (sampleLabelled twoLineText).imagePath)
      = some twoLineText
    ∧ twoLineText = twoLineFields.map (fun s => lineOf s.1 s.2)
    ∧ (sampleLabelled twoLineText).loadAnnotations.currentBoxes.map (fun box => box.classId) = [0]
    ∧ (sampleLabelled twoLineText).loadAnnotations.currentBoxes
      = [BoundingBox.mk ⟨288, 216, 64, 48⟩ 0] := by
  refine ⟨by decide, by decide, ?_, ?_⟩
  · exact (C8_malformed_lines (sampleLabelled twoLineText) twoLineText (by decide)).2.1
      twoLineFields (by decide) (by decide)
  · rw [(C8_malformed_lines (sampleLabelled twoLineText) twoLineText (by decide)).1]
    decide

/-! ## Class ids and the names drawn -/

/-- C13, the code against the claim: the session with 3 classes on its second
image has an empty BoxSet and `updateDisplay` finds every name it looks up. The
label file of the first image holds the line `7 0.5 0.5 0.1 0.1`; `previous()`
loads it as a box of class id 7, which `loadAnnotations` does not check against
the 3 classes, and the `updateDisplay()` call that ends `loadCurrentImage` reads
`classNames[7]` in `drawBox`: out of bounds. -/
theorem C13_class_id_range_out_of_bounds :
    sampleForeign.classIdsInRange
    ∧ sampleForeign.updateDisplay = some ([], "cat")
    ∧ (sampleForeign.run 112 0).map
        (fun s => (s.currentImageIndex, s.currentBoxes, s.classNames.length))
      = some (0, [BoundingBox.mk ⟨288, 216, 64, 48⟩ 7], 3)
    ∧ (sampleForeign.run 112 0).map (fun s => decide s.classIdsInRange) = some false
    ∧ (sampleForeign.run 112 0).map (fun s => s.currentBoxes.map s.drawBox) = some [none]
    ∧ (sampleForeign.run 112 0).map (fun s => s.updateDisplay) = some none := by
  refine ⟨by decide, by decide, by decide, by decide, by decide, by decide⟩

end Yolo
